import Mathlib

/-!
# Rumor: a Kademlia-style DHT peer

Shallow embedding of the Go package `service` (datagram codec, peer codec,
common-prefix length, bucket tree) and theorems about it.

Conventions of the embedding
* a Go `byte` is a `Fin 256`; a Go `[]byte` is a `List Byte`;
* the fixed arrays `NodeID` and `Cookie` are lists carrying their length;
* a Go `uint64` is a `Nat` reduced modulo `2^64` where it is written to bytes;
* a Go panic (nil dereference, index out of range) is the result `none`.
-/

namespace Rumor

/-! ## config.go -/

/-- Bucket capacity `K`. -/
def K : Nat := 8

/-- Length of a `NodeID` in bytes. -/
def NodeIDLength : Nat := 20

/-- Length of a `Cookie` in bytes. -/
def CookieLength : Nat := 20

/-- Largest UDP package, in bytes. -/
def MaxPackageSize : Nat := 1460

/-! ## Bytes, slices and the built-in `copy` -/

/-- Go `byte`. -/
abbrev Byte := Fin 256

/-- Go `make([]byte, n)`: `n` zero bytes. -/
def makeBytes (n : Nat) : List Byte := List.replicate n 0

/-- Go `b[p:q]` (for `p ≤ q ≤ len(b)`). -/
def slice (b : List Byte) (p q : Nat) : List Byte := (b.take q).drop p

/-- Go `copy(dst, src)`: the first `min(len(dst), len(src))` bytes of `dst` are
overwritten with those of `src`; the length of `dst` is unchanged. -/
def copy (dst src : List Byte) : List Byte :=
  src.take dst.length ++ dst.drop src.length

/-- Go `copy(buf[p:], src)` seen on the whole of `buf`. -/
def copyAt (buf : List Byte) (p : Nat) (src : List Byte) : List Byte :=
  buf.take p ++ copy (buf.drop p) src

/-- Little-endian bytes of a `uint64`, as `binary.LittleEndian.PutUint64`
writes them: byte `i` is `byte(v >> (8*i))`. -/
def le64 (v : Nat) : List Byte :=
  (List.range 8).map fun i => Fin.ofNat ((v >>> (8 * i)) % 256)

/-- The value `binary.LittleEndian.Uint64` reads from the first 8 bytes of `b`
(a missing byte reads as `0`; the callers below always pass 8 bytes). -/
def uint64LE (b : List Byte) : Nat :=
  ((List.range 8).map fun i => ((b.getD i 0).val <<< (8 * i))).sum

/-! ## utils.go: identifiers -/

/-- Go `type NodeID [NodeIDLength]byte`. -/
def NodeID := { l : List Byte // l.length = NodeIDLength }

/-- Go `type Cookie [CookieLength]byte`. -/
def Cookie := { l : List Byte // l.length = CookieLength }

instance : DecidableEq NodeID := by unfold NodeID; infer_instance
instance : DecidableEq Cookie := by unfold Cookie; infer_instance

/-- Go `id := new(NodeID); copy((*id)[:], src)`. -/
def NodeID.ofCopy (src : List Byte) : NodeID :=
  ⟨copy (makeBytes NodeIDLength) src, by simp [copy, makeBytes]; omega⟩

/-- Go `cookie := new(Cookie); copy((*cookie)[:], src)`. -/
def Cookie.ofCopy (src : List Byte) : Cookie :=
  ⟨copy (makeBytes CookieLength) src, by simp [copy, makeBytes]; omega⟩

/-! ## node.go: peers -/

/-- Go `net.UDPAddr` (the zone, only used by IPv6, is left out). -/
structure UDPAddr where
  IP : List Byte
  Port : Int
deriving DecidableEq

/-- Go `type Node struct`. -/
structure Node where
  ID : NodeID
  Address : UDPAddr
deriving DecidableEq

/-! ## datagram.go -/

/-- Flag bit of the header byte: `Request byte = 0x80`. -/
def Request : Byte := 0x80

/-- Go `^x` on a `byte`: `0xFF ^ x`. -/
def bnot (x : Byte) : Byte := 0xFF ^^^ x

/-- Go `type Datagram struct`. -/
structure Datagram where
  Typ : Byte
  IsRequest : Bool
  MagicCookie : Cookie
  SourceNode : Node
  Timestamp : Nat
  Payload : List Byte
deriving DecidableEq

/-- Go `(*Datagram).Dumps`. -/
def Datagram.Dumps (datagram : Datagram) : List Byte :=
  let totalLength := NodeIDLength + CookieLength + datagram.Payload.length + 11
  let buffer := makeBytes totalLength
  let p := 0
  let buffer := buffer.set p (if datagram.IsRequest then datagram.Typ ||| Request else datagram.Typ)
  let p := p + 1
  let buffer := copyAt buffer p datagram.MagicCookie.val
  let p := p + CookieLength
  let buffer := copyAt buffer p datagram.SourceNode.ID.val
  let p := p + NodeIDLength
  let buffer := copyAt buffer p (le64 datagram.Timestamp)
  let p := p + 8
  copyAt buffer p datagram.Payload

/-- Go `(*Datagram).Loads`; `none` is the `nil` result. -/
def Datagram.Loads (bytes : List Byte) (addr : UDPAddr) : Option Datagram :=
  if bytes.length < CookieLength + NodeIDLength + 9 then none
  else
    let p := 0
    let typ := bytes.getD p 0 &&& bnot Request
    let isRequest := decide (bytes.getD p 0 &&& Request = Request)
    let p := p + 1
    let cookie := Cookie.ofCopy (slice bytes p (p + CookieLength))
    let p := p + CookieLength
    let id := NodeID.ofCopy (slice bytes p (p + NodeIDLength))
    let p := p + NodeIDLength
    let timestamp := uint64LE (slice bytes p (p + 8))
    let p := p + 8
    let payload := copy (makeBytes (bytes.length - p)) (bytes.drop p)
    some ⟨typ, isRequest, cookie, ⟨id, addr⟩, timestamp, payload⟩

/-- Go `NewPing().Dump()`: the empty probe payload. -/
def NewPing : List Byte := []

/-- Kind of the liveness probe: `Ping byte = iota`, the second constant of its block. -/
def Ping : Byte := 1

/-! ### Sample values -/

/-- A sample identifier: `first` followed by 19 zero bytes. -/
def sampleID (first : Byte) : NodeID := ⟨first :: List.replicate 19 0, by simp [NodeIDLength]⟩

/-- A sample nonce: 20 bytes `0x07`. -/
def sampleCookie : Cookie := ⟨List.replicate 20 7, by simp [CookieLength]⟩

/-- A sample address, `10.0.0.x:54321`. -/
def sampleAddr (x : Byte) : UDPAddr := ⟨[10, 0, 0, x], 54321⟩

/-- A probe request as `Server.Ping` builds it: kind `Ping`, request, empty payload. -/
def sampleProbe : Datagram :=
  ⟨Ping, true, sampleCookie, ⟨sampleID 0, sampleAddr 1⟩, 258, NewPing⟩

/-- A 50-byte buffer: header `0x81`, nonce `07..07`, identifier `00..00`,
timestamp bytes `02 01 00 ..`, one payload byte `0x2A`. -/
def sampleBuffer : List Byte :=
  [0x81] ++ List.replicate 20 7 ++ List.replicate 20 0 ++ [2, 1, 0, 0, 0, 0, 0, 0] ++ [0x2A]

/-! ## utils.go: common prefix length -/

/-- Number of binary digits of `x`, looking at no more than `w` of them. -/
def bitLen : Nat → Nat → Nat
  | 0, _ => 0
  | w + 1, x => if x = 0 then 0 else bitLen w (x / 2) + 1

/-- Go `bits.Len8`: the number of bits needed to write `x`, `0` for `x = 0`. -/
def Len8 (x : Byte) : Nat := bitLen 8 x.val

/-- Go `bits.LeadingZeros8`, which is `8 - Len8(x)`. -/
def LeadingZeros8 (x : Byte) : Nat := 8 - Len8 x

/-- The `for` loop of `CommonPrefixLength` from position `p` on: the arguments are
`a[p:]`, `b[p:]` and the running `count`. -/
def CommonPrefixLength.loop : List Byte → List Byte → Nat → Nat
  | x :: a, y :: b, count =>
    let inc := LeadingZeros8 (x ^^^ y)
    let count := count + inc
    if inc ≠ 8 then count else CommonPrefixLength.loop a b count
  | _, _, count => count

/-- Go `CommonPrefixLength`. -/
def CommonPrefixLength (a b : List Byte) : Int :=
  let length := a.length
  if length ≠ b.length then -1
  else (CommonPrefixLength.loop a b 0 : Nat)

/-- Bit `j` of a byte string, counted from the most significant bit of the first byte. -/
def bitAt (a : List Byte) (j : Nat) : Bool := (a.getD (j / 8) 0).val.testBit (7 - j % 8)

/-! ## Library model: `encoding/base64`, `StdEncoding`

A Go string of ASCII characters is a `List Char`. -/

/-- The alphabet of `base64.StdEncoding`. -/
def b64Alphabet : List Char :=
  "ABCDEFGHIJKLMNOPQRSTUVWXYZabcdefghijklmnopqrstuvwxyz0123456789+/".toList

/-- The padding character of `base64.StdEncoding`. -/
def b64Pad : Char := '='

/-- The character for a 6-bit value: `enc.encode[v & 0x3F]`. -/
def b64Char (v : Nat) : Char := b64Alphabet.getD (v % 64) 'A'

/-- The 6-bit value of a character of the alphabet: `enc.decodeMap[c]`, `none` for `0xFF`. -/
def b64Value (c : Char) : Option Nat :=
  let i := b64Alphabet.indexOf c
  if i < 64 then some i else none

/-- Model of `base64.StdEncoding.EncodeToString`: three bytes give four characters; one or
two remaining bytes give two or three characters and padding. -/
def base64Encode : List Byte → List Char
  | [] => []
  | [a] =>
    let val := a.val * 65536
    [b64Char (val / 262144), b64Char (val / 4096), b64Pad, b64Pad]
  | [a, b] =>
    let val := a.val * 65536 + b.val * 256
    [b64Char (val / 262144), b64Char (val / 4096), b64Char (val / 64), b64Pad]
  | a :: b :: c :: rest =>
    let val := a.val * 65536 + b.val * 256 + c.val
    b64Char (val / 262144) :: b64Char (val / 4096) :: b64Char (val / 64) :: b64Char val
      :: base64Encode rest

/-- The quanta of `base64.StdEncoding.DecodeString`, on input without line breaks: four
characters give three bytes; a last quantum padded with one or two `=` gives two or one
bytes; anything else is a `CorruptInputError` (`none`). -/
def base64DecodeQuanta : List Char → Option (List Byte)
  | [] => some []
  | c0 :: c1 :: c2 :: c3 :: rest =>
    if c3 = b64Pad then
      if rest ≠ [] then none
      else if c2 = b64Pad then
        match b64Value c0, b64Value c1 with
        | some v0, some v1 =>
          let val := v0 * 262144 + v1 * 4096
          some [Fin.ofNat (val / 65536)]
        | _, _ => none
      else
        match b64Value c0, b64Value c1, b64Value c2 with
        | some v0, some v1, some v2 =>
          let val := v0 * 262144 + v1 * 4096 + v2 * 64
          some [Fin.ofNat (val / 65536), Fin.ofNat (val / 256)]
        | _, _, _ => none
    else
      match b64Value c0, b64Value c1, b64Value c2, b64Value c3, base64DecodeQuanta rest with
      | some v0, some v1, some v2, some v3, some bytes =>
        let val := v0 * 262144 + v1 * 4096 + v2 * 64 + v3
        some (Fin.ofNat (val / 65536) :: Fin.ofNat (val / 256) :: Fin.ofNat val :: bytes)
      | _, _, _, _, _ => none
  | _ => none

/-- Model of `base64.StdEncoding.DecodeString`: carriage returns and line feeds are skipped,
the rest is decoded quantum by quantum. -/
def base64Decode (s : List Char) : Option (List Byte) :=
  base64DecodeQuanta (s.filter fun c => c ≠ Char.ofNat 13 ∧ c ≠ Char.ofNat 10)

/-! ## Library model: `net.IP` -/

/-- Go `net.IPv4(a, b, c, d)`: the 16-byte form with the prefix `00..00 ff ff`. -/
def IPv4 (a b c d : Byte) : List Byte := List.replicate 10 0 ++ [0xff, 0xff] ++ [a, b, c, d]

/-- Go `IP.To4`: a 4-byte address is returned as it is, a 16-byte address with the
IPv4-in-IPv6 prefix gives its last four bytes, anything else is `nil` (`none`). -/
def To4 (ip : List Byte) : Option (List Byte) :=
  if ip.length = 4 then some ip
  else if ip.length = 16 ∧ slice ip 0 10 = List.replicate 10 0 ∧ ip.getD 10 0 = 0xff
      ∧ ip.getD 11 0 = 0xff then some (slice ip 12 16)
  else none

/-- Bytes written by `binary.LittleEndian.PutUint16(b, uint16(port))` for a Go `int`. -/
def le16 (port : Int) : List Byte :=
  let v := (port % 65536).toNat
  [Fin.ofNat v, Fin.ofNat (v / 256)]

/-- Value read by `binary.LittleEndian.Uint16` (a missing byte reads as `0`; the caller
below always passes 2 bytes). -/
def uint16LE (b : List Byte) : Nat := (b.getD 0 0).val + (b.getD 1 0).val * 256

/-! ## node.go: textual form of a peer -/

/-- Go `(*Node).EncodeToString`; `none` is the panic on an address that is not IPv4. -/
def Node.EncodeToString (node : Node) : Option (List Char) :=
  match To4 node.Address.IP with
  | none => none
  | some ip =>
    let buffer := node.ID.val ++ ip ++ le16 node.Address.Port
    some (base64Encode buffer)

/-- Go `(*Node).DecodeString`: the decoded node, `none` for an error. -/
def Node.DecodeString (str : List Char) : Option Node :=
  match base64Decode str with
  | none => none
  | some byteArr =>
    if byteArr.length ≠ NodeIDLength + 4 + 2 then none
    else
      let p := 0
      let nodeID := NodeID.ofCopy (slice byteArr p (p + NodeIDLength))
      let p := p + NodeIDLength
      let ip := IPv4 (byteArr.getD p 0) (byteArr.getD (p + 1) 0) (byteArr.getD (p + 2) 0)
        (byteArr.getD (p + 3) 0)
      let p := p + 4
      let port : Int := uint16LE (byteArr.drop p)
      some ⟨nodeID, ⟨ip, port⟩⟩

/-! ## utils.go: `Min`, `DetectPublicAddr` -/

/-- Go `Min`. -/
def Min (a b : Int) : Int := if a > b then b else a

/-- Go `DetectPublicAddr`, which returns `&net.UDPAddr{}`. -/
def DetectPublicAddr : UDPAddr := ⟨[], 0⟩

/-- Model of `(*net.UDPAddr).String()` up to renaming: the address bytes in the form the
text is printed from (the four bytes of `To4` when there are any, since a 4-byte address and
its 16-byte IPv4-in-IPv6 form print alike) and the port. Two addresses have the same
`String()` exactly when they have the same value here. -/
def UDPAddr.String (a : UDPAddr) : List Byte × Int :=
  (match To4 a.IP with
    | some p4 => p4
    | none => a.IP, a.Port)

/-! ## Library model: `container/list` and Go maps

A `*list.Element` is a cell with an identity `ptr` (its allocation) and its `Value`, a
`*Node`. A list is the sequence of its cells from front to back. A cell that was removed from
its list is in no list any more; `MoveToBack` and `Remove` of such a cell do nothing
(`e.list != l`). The map of a bucket holds, for each key, the cell it points to. -/

/-- Go `*list.Element` holding a `*Node`. -/
structure Element where
  ptr : Nat
  Value : Node
deriving DecidableEq

/-- Go `l.PushBack(v)` with the new cell `e`. -/
def Queue.PushBack (l : List Element) (e : Element) : List Element := l ++ [e]

/-- Go `l.Remove(e)`: the cell `e` leaves the list if it is in it. -/
def Queue.Remove (l : List Element) (e : Element) : List Element :=
  l.filter fun x => x.ptr ≠ e.ptr

/-- Go `l.MoveToBack(e)`: the cell `e` becomes the last one if it is in the list. -/
def Queue.MoveToBack (l : List Element) (e : Element) : List Element :=
  match l.find? fun x => x.ptr = e.ptr with
  | none => l
  | some x => Queue.PushBack (Queue.Remove l e) x

/-- Go `m[k]` with its `ok` flag. -/
def GoMap.get (m : List (NodeID × Element)) (k : NodeID) : Option Element :=
  (m.find? fun kv => kv.1 = k).map Prod.snd

/-- Go `delete(m, k)`. -/
def GoMap.delete (m : List (NodeID × Element)) (k : NodeID) : List (NodeID × Element) :=
  m.filter fun kv => kv.1 ≠ k

/-- Go `m[k] = v`. -/
def GoMap.set (m : List (NodeID × Element)) (k : NodeID) (v : Element) :
    List (NodeID × Element) :=
  GoMap.delete m k ++ [(k, v)]

/-! ## kbucket.go -/

/-- Go `type Bucket struct`; the back pointer `tree` is the tree the bucket is stored in. -/
structure Bucket where
  Index : Int
  Map : List (NodeID × Element)
  Queue : List Element
deriving DecidableEq

/-- Go `type BucketTree struct`. A `*Bucket` is the slot of the bucket in `Buckets` (`none`
is a `nil` slot); `nextPtr` numbers the list cells allocated so far. The field `server` is
only used for `Ping`, whose answer is a parameter of `add`. -/
structure BucketTree where
  Self : Node
  MaxIndex : Int
  Buckets : List (Option Bucket)
  nextPtr : Nat
deriving DecidableEq

/-- Go `tree.Buckets[i]`, `none` when out of range or `nil`. -/
def BucketTree.bucket (tree : BucketTree) (i : Int) : Option Bucket :=
  if i < 0 then none else tree.Buckets.getD i.toNat none

/-- The tree after the bucket in slot `i` was changed to `b`. -/
def BucketTree.setBucket (tree : BucketTree) (i : Int) (b : Bucket) : BucketTree :=
  { tree with Buckets := tree.Buckets.set i.toNat (some b) }

/-- Go `bucket.tree.Buckets[newIndex] = nextBucket` followed by `bucket.tree.MaxIndex++`. -/
def BucketTree.addBucket (tree : BucketTree) (newIndex : Int) (nextBucket : Bucket) :
    BucketTree :=
  { Self := tree.Self
    MaxIndex := tree.MaxIndex + 1
    Buckets := (tree.setBucket newIndex nextBucket).Buckets
    nextPtr := tree.nextPtr }

/-- Go `NewBucketTree`, for the identifier that `NewRandNodeID` drew. -/
def NewBucketTree (id : NodeID) : BucketTree :=
  let initBucket : Bucket := { Index := 0, Map := [], Queue := [] }
  { Self := ⟨id, DetectPublicAddr⟩
    MaxIndex := 0
    Buckets := (List.replicate (NodeIDLength * 8) none).set 0 (some initBucket)
    nextPtr := 0 }

set_option linter.unusedVariables false in
/-- Go `(*Bucket).getN`: the nodes from the back of the queue to the front, except those
with the identifier `exNode`. The parameter `n` is not read by the code. -/
def Bucket.getN (bucket : Bucket) (n : Int) (exNode : NodeID) : List Node :=
  (bucket.Queue.reverse.filter fun ele => ele.Value.ID ≠ exNode).map Element.Value

/-- Go `(*BucketTree).GetK`; `none` is a panic on a `nil` bucket. -/
def BucketTree.GetK (tree : BucketTree) (id : NodeID) : Option (List Node) :=
  let predictedIndex := CommonPrefixLength id.val tree.Self.ID.val
  let index := Min predictedIndex tree.MaxIndex
  match tree.bucket index with
  | none => none
  | some bucket =>
    let result := bucket.getN K id
    if result.length < K ∧ index > 0 then
      match tree.bucket (index - 1) with
      | none => none
      | some left =>
        let leftResult := left.getN ((K : Int) - result.length) id
        some (result ++ leftResult)
    else some result

/-- Go `(*BucketTree).Get`; the outer `none` is a panic on a `nil` bucket. -/
def BucketTree.Get (tree : BucketTree) (id : NodeID) : Option (Option Node) :=
  let predictedIndex := CommonPrefixLength id.val tree.Self.ID.val
  let index := Min predictedIndex tree.MaxIndex
  match tree.bucket index with
  | none => none
  | some bucket =>
    match GoMap.get bucket.Map id with
    | none => some none
    | some ptrElement => some (some ptrElement.Value)

/-- The cell `x` after Go `ptrOldNode.Address = addr` for the node of the cell `e`: changed
if it is that cell. -/
def Element.withAddress (e : Element) (addr : UDPAddr) (x : Element) : Element :=
  if x.ptr = e.ptr then { x with Value := { x.Value with Address := addr } } else x

/-- Go `ptrOldNode.Address = addr` for the node of the cell `e`: seen through the map and
through the queue. -/
def Bucket.setAddress (bucket : Bucket) (e : Element) (addr : UDPAddr) : Bucket :=
  { bucket with
    Map := bucket.Map.map fun kv => (kv.1, e.withAddress addr kv.2)
    Queue := bucket.Queue.map (e.withAddress addr) }

/-- Go `(*Bucket).update`: `true` for the `nil` error, `false` for "no such Node.". -/
def Bucket.update (bucket : Bucket) (id : NodeID) : Bool × Bucket :=
  match GoMap.get bucket.Map id with
  | none => (false, bucket)
  | some ptrElement => (true, { bucket with Queue := Queue.MoveToBack bucket.Queue ptrElement })

/-- The transfer loop of `(*Bucket).add` after a split, over the cells `p` that the queue of
the bucket in `slot` had when the loop started: a cell whose node does not have the common
prefix length `index` leaves the queue and the map, and its node is added to the next
bucket by `addNext`. -/
def Bucket.transfer (addNext : BucketTree → Node → Option BucketTree) (slot index : Int) :
    List Element → BucketTree → Option BucketTree
  | [], tree => some tree
  | p :: rest, tree =>
    let value := p.Value
    if CommonPrefixLength tree.Self.ID.val value.ID.val ≠ index then
      match tree.bucket slot with
      | none => none
      | some bucket =>
        let bucket := { bucket with Queue := Queue.Remove bucket.Queue p }
        let bucket := { bucket with Map := GoMap.delete bucket.Map value.ID }
        match addNext (tree.setBucket slot bucket) value with
        | none => none
        | some tree => Bucket.transfer addNext slot index rest tree
    else Bucket.transfer addNext slot index rest tree

/-- Go `(*Bucket).add` for the bucket in `slot`. `ping` is the answer of `server.Ping`;
the first argument bounds the depth of the recursion, `none` is a panic (or no depth left). -/
def Bucket.add (ping : Node → Bool) : Nat → BucketTree → Int → Node → Option BucketTree
  | 0, _, _, _ => none
  | depth + 1, tree, slot, ptrNode =>
    match tree.bucket slot with
    | none => none
    | some bucket =>
      match GoMap.get bucket.Map ptrNode.ID with
      | some ptrElement =>
        -- Familiar node
        let ptrOldNode := ptrElement.Value
        let bucket :=
          if ptrOldNode.Address.String ≠ ptrNode.Address.String then
            bucket.setAddress ptrElement ptrNode.Address
          else bucket
        some (tree.setBucket slot
          { bucket with Queue := Queue.MoveToBack bucket.Queue ptrElement })
      | none =>
        -- Unfamiliar node
        if bucket.Map.length < K then
          -- Not full
          let ptrElement : Element := ⟨tree.nextPtr, ptrNode⟩
          some ({ tree with nextPtr := tree.nextPtr + 1 }.setBucket slot
            { bucket with
              Queue := Queue.PushBack bucket.Queue ptrElement
              Map := GoMap.set bucket.Map ptrNode.ID ptrElement })
        else if bucket.Index = tree.MaxIndex ∧ bucket.Index < NodeIDLength * 8 - 1 then
          -- Full, split
          let newIndex := bucket.Index + 1
          let nextBucket : Bucket := { Index := newIndex, Map := [], Queue := [] }
          if newIndex < 0 ∨ (tree.Buckets.length : Int) ≤ newIndex then none
          else
            let tree := tree.addBucket newIndex nextBucket
            -- Transfer nodes
            match Bucket.transfer (fun t value => Bucket.add ping depth t newIndex value)
                slot bucket.Index bucket.Queue tree with
            | none => none
            | some tree =>
              -- Reprocess this request
              if CommonPrefixLength ptrNode.ID.val tree.Self.ID.val ≠ bucket.Index then
                Bucket.add ping depth tree newIndex ptrNode
              else Bucket.add ping depth tree slot ptrNode
        else
          -- Full, unsplit
          match bucket.Queue with
          | [] => none
          | oldElement :: _ =>
            if ping oldElement.Value then
              some (tree.setBucket slot
                { bucket with Queue := Queue.MoveToBack bucket.Queue oldElement })
            else
              let newElement : Element := ⟨tree.nextPtr, ptrNode⟩
              some ({ tree with nextPtr := tree.nextPtr + 1 }.setBucket slot
                { bucket with
                  Queue := Queue.PushBack (Queue.Remove bucket.Queue oldElement) newElement
                  Map := GoMap.set bucket.Map ptrNode.ID newElement })

/-- Depth that `add` can need: one call for each slot and the first one. -/
def addDepth : Nat := NodeIDLength * 8 + 1

/-- Go `(*BucketTree).Add`; `ping` is the answer of the liveness probe during this call. -/
def BucketTree.Add (ping : Node → Bool) (tree : BucketTree) (id : NodeID) (addr : UDPAddr) :
    Option BucketTree :=
  let predictedIndex := CommonPrefixLength id.val tree.Self.ID.val
  let index := Min predictedIndex tree.MaxIndex
  Bucket.add ping addDepth tree index ⟨id, addr⟩

/-- Go `(*BucketTree).Update`: `true` for the `nil` error; the outer `none` is a panic on
a `nil` bucket. -/
def BucketTree.Update (tree : BucketTree) (id : NodeID) : Option (Bool × BucketTree) :=
  let predictedIndex := CommonPrefixLength id.val tree.Self.ID.val
  let index := Min predictedIndex tree.MaxIndex
  match tree.bucket index with
  | none => none
  | some bucket =>
    let r := bucket.update id
    some (r.1, tree.setBucket index r.2)

/-- The routing tables that `Add` and `Update` calls build from a new tree, for every
answer of the liveness probes. -/
inductive Reachable : BucketTree → Prop
  | init (id : NodeID) : Reachable (NewBucketTree id)
  | add {t t' : BucketTree} (ping : Node → Bool) (id : NodeID) (addr : UDPAddr) :
      Reachable t → BucketTree.Add ping t id addr = some t' → Reachable t'
  | update {t t' : BucketTree} (id : NodeID) (ok : Bool) :
      Reachable t → BucketTree.Update t id = some (ok, t') → Reachable t'

/-! ## Invariants of the routing table -/

/-- Common prefix length of the local identifier and `id`. -/
def BucketTree.cpl (t : BucketTree) (id : NodeID) : Int :=
  CommonPrefixLength t.Self.ID.val id.val

/-- What holds of every bucket of a reachable table, whose cells were allocated below
`bound`: the map knows every cell of the queue under the identifier of its node, the cells of
the queue are distinct, the queue holds at most `K` cells and no more than the map has keys,
and the keys of the map are distinct. -/
structure Bucket.WF (b : Bucket) (bound : Nat) : Prop where
  inMap : ∀ e ∈ b.Queue, GoMap.get b.Map e.Value.ID = some e
  ptrNodup : (b.Queue.map Element.ptr).Nodup
  fresh : ∀ e ∈ b.Queue, e.ptr < bound
  size : b.Queue.length ≤ K
  sizeLe : b.Queue.length ≤ b.Map.length
  keysNodup : (b.Map.map Prod.fst).Nodup

/-- Shape of a reachable table: `MaxIndex` is in range, the slots `0 .. MaxIndex` hold a
bucket whose `Index` is its slot, the slots above hold none, and every bucket satisfies
`Bucket.WF`. -/
structure BucketTree.Core (t : BucketTree) : Prop where
  len : t.Buckets.length = NodeIDLength * 8
  lo : 0 ≤ t.MaxIndex
  hi : t.MaxIndex < NodeIDLength * 8
  mat : ∀ i : Int, 0 ≤ i → i ≤ t.MaxIndex → ∃ b, t.bucket i = some b
  index : ∀ (i : Int) (b : Bucket), t.bucket i = some b → b.Index = i
  absent : ∀ i : Int, t.MaxIndex < i → t.bucket i = none
  wf : ∀ (i : Int) (b : Bucket), t.bucket i = some b → b.WF t.nextPtr

/-- Placement of the peers: a peer in a bucket `i < MaxIndex` has common prefix length `i`
with the local identifier, a peer in the bucket `MaxIndex` has at least `MaxIndex`. While
the bucket `MaxIndex - 1` is being split, the peers of `rest`, which the transfer loop has
not looked at yet, may still have a longer common prefix. -/
def BucketTree.Placed (t : BucketTree) (rest : List Element) : Prop :=
  ∀ (i : Int) (b : Bucket), t.bucket i = some b → ∀ e ∈ b.Queue,
    (i < t.MaxIndex → t.cpl e.Value.ID = i ∨
      (i + 1 = t.MaxIndex ∧ i ≤ t.cpl e.Value.ID ∧ ∃ p ∈ rest, p.Value.ID = e.Value.ID)) ∧
    (i = t.MaxIndex → t.MaxIndex ≤ t.cpl e.Value.ID)

/-- A step that only changes the bucket in `slot`, where every peer of the new queue is a
peer of the old queue or has the identifier `id`. -/
structure BucketTree.LocalStep (t : BucketTree) (slot : Int) (id : NodeID) (t' : BucketTree) :
    Prop where
  self : t'.Self = t.Self
  max : t'.MaxIndex = t.MaxIndex
  next : t.nextPtr ≤ t'.nextPtr
  len : t'.Buckets.length = t.Buckets.length
  other : ∀ j : Int, j ≠ slot → t'.bucket j = t.bucket j
  here : ∃ b b', t.bucket slot = some b ∧ t'.bucket slot = some b' ∧ b'.Index = b.Index ∧
    b'.WF t'.nextPtr ∧ b'.Map.length ≤ b.Map.length + 1 ∧
    ∀ e ∈ b'.Queue, e.Value.ID = id ∨ ∃ e0 ∈ b.Queue, e0.Value.ID = e.Value.ID

/-- No key of a bucket is left without its cell, unless the bucket is full and can not
split: the map has as many keys as the queue has cells, or the queue holds `K` cells and the
bucket is not the one in slot `MaxIndex` below the last slot. -/
def BucketTree.Tidy (t : BucketTree) : Prop :=
  ∀ (i : Int) (b : Bucket), t.bucket i = some b →
    b.Map.length = b.Queue.length ∨
      (b.Queue.length = K ∧ ¬ (i = t.MaxIndex ∧ i < NodeIDLength * 8 - 1))

/-- State of the table while the transfer loop of `add` runs after the split of the bucket
`m`, `rest` being the cells the loop has still to look at: they are still in the queue of the
bucket `m`, the next bucket has room for them, and neither bucket has a key without cell. -/
structure BucketTree.Splitting (t : BucketTree) (m : Int) (rest : List Element) : Prop where
  core : t.Core
  placed : t.Placed rest
  tidy : t.Tidy
  max : t.MaxIndex = m + 1
  sub : ∀ b, t.bucket m = some b → ∀ p ∈ rest, p ∈ b.Queue
  nodup : (rest.map Element.ptr).Nodup
  count : ∀ nb, t.bucket (m + 1) = some nb → nb.Map.length + rest.length ≤ K
  eqOld : ∀ b, t.bucket m = some b → b.Map.length = b.Queue.length
  eqNew : ∀ nb, t.bucket (m + 1) = some nb → nb.Map.length = nb.Queue.length

/-! ### Sample tables -/

/-- The peer with identifier `x 00..00` at the address `10.0.0.x:54321`. -/
def samplePeer (x : Byte) : Node := ⟨sampleID x, sampleAddr x⟩

/-- Calls `Add` for the peers `samplePeer x`, `x` ranging over a list, one after the other,
every liveness probe of a call having the answer `alive`. -/
def addAll (alive : Bool) : List Byte → BucketTree → Option BucketTree
  | [], tree => some tree
  | x :: rest, tree =>
    match BucketTree.Add (fun _ => alive) tree (sampleID x) (sampleAddr x) with
    | none => none
    | some tree => addAll alive rest tree

/-- The table of the peer `00..00` after `Add` of the eight peers `80`, .., `87`, which
differ from it in the first bit, and then of the peer `40`, which makes bucket 0 split. -/
def tableA : BucketTree :=
  (addAll false [0x80, 0x81, 0x82, 0x83, 0x84, 0x85, 0x86, 0x87, 0x40]
    (NewBucketTree (sampleID 0))).getD (NewBucketTree (sampleID 0))

/-- The table `tableA` after `Add` of the peer `88`, which belongs to the full bucket 0,
when the probe of the oldest peer `80` fails. -/
def tableB : BucketTree :=
  (addAll false [0x88] tableA).getD tableA

/-- The cells of the peers `x 00..00`, allocated from `first` on. -/
def sampleCells (first : Nat) (xs : List Byte) : List Element :=
  (List.range xs.length).zipWith (fun i x => ⟨first + i, samplePeer x⟩) xs

/-- Bucket 0 of `tableA`: the peers `80`, .., `87` in the order of their arrival. -/
def bucketA0 : Bucket :=
  { Index := 0
    Map := (sampleCells 0 [0x80, 0x81, 0x82, 0x83, 0x84, 0x85, 0x86, 0x87]).map
      fun e => (e.Value.ID, e)
    Queue := sampleCells 0 [0x80, 0x81, 0x82, 0x83, 0x84, 0x85, 0x86, 0x87] }

/-- The table of the peer `00..00` after `Add` of the eight peers `20`, .., `27`, which all
have two leading bits in common with it: bucket 0 is the frontier bucket and is full. -/
def tableC : BucketTree :=
  (addAll false [0x20, 0x21, 0x22, 0x23, 0x24, 0x25, 0x26, 0x27]
    (NewBucketTree (sampleID 0))).getD (NewBucketTree (sampleID 0))

/-- The only bucket of `tableC`. -/
def bucketC0 : Bucket :=
  { Index := 0
    Map := (sampleCells 0 [0x20, 0x21, 0x22, 0x23, 0x24, 0x25, 0x26, 0x27]).map
      fun e => (e.Value.ID, e)
    Queue := sampleCells 0 [0x20, 0x21, 0x22, 0x23, 0x24, 0x25, 0x26, 0x27] }


/-! ## cookie.go: the table of the outgoing requests -/

/-- Go `chan<- *Datagram`: a channel of the heap that is not `nil`, named by a number. -/
abbrev Chan := Nat

/-- Go `const RequestTimeout float64 = 60`, in seconds. -/
def RequestTimeout : Int := 60

/-- Go `time.Second`, in nanoseconds. -/
def Second : Int := 1000000000

/-- Go `time.Time.Sub` of two times without monotonic clock reading, each given as its wall
clock in nanoseconds: the difference, or the largest or the least `Duration` (an `int64`)
when the difference is out of range. The `tNow` of the sweep has no monotonic reading,
`tNow.UTC()` strips it, so that `Sub` compares the wall clocks. -/
def Time.Sub (t u : Int) : Int :=
  if t - u < -(2 ^ 63) then -(2 ^ 63)
  else if 2 ^ 63 - 1 < t - u then 2 ^ 63 - 1
  else t - u

/-- Go `d.Seconds() < s` for a whole number `s` of seconds. `Seconds` is
`float64(d / Second) + float64(d % Second) / 1e9`: it is at least `s` when `d` is at least
`s` seconds, and below `s` otherwise, the fraction being below 1 and exact enough. -/
def Duration.secondsLt (d s : Int) : Bool := decide (d < s * Second)

/-- Go `type QueueMember struct`; the cookie behind `ptrCookie` is never written after the
request was made and stands for the pointer. -/
structure QueueMember where
  ptrCookie : Cookie
  timestamp : Int
deriving DecidableEq

/-- Go `type CookieTable struct` (without the lock): `Map` as an association list, `Queue`
with the oldest member at the front. `closed` is the part of the heap the table acts on: the
channels that were closed. -/
structure CookieTable where
  Map : List (Cookie × Chan)
  Queue : List QueueMember
  closed : List Chan
deriving DecidableEq

/-- Go `m[k]` with its `ok` flag. -/
def CookieMap.get (m : List (Cookie × Chan)) (k : Cookie) : Option Chan :=
  (m.find? fun kv => kv.1 = k).map Prod.snd

/-- Go `delete(m, k)`. -/
def CookieMap.delete (m : List (Cookie × Chan)) (k : Cookie) : List (Cookie × Chan) :=
  m.filter fun kv => kv.1 ≠ k

/-- Go `m[k] = v`. -/
def CookieMap.set (m : List (Cookie × Chan)) (k : Cookie) (v : Chan) : List (Cookie × Chan) :=
  CookieMap.delete m k ++ [(k, v)]

/-- The table that `NewCookieTable` makes, before the first tick. -/
def NewCookieTable : CookieTable := ⟨[], [], []⟩

/-- The loop `for p := Queue.Front(); p != nil; p = p.Next()` of the sweep at the time
`tNow`, from the member `p` on, the head of the second list. `prev` is the variable of the
source: when set, it is the member before `p`, the only one before `p` that is still in the
queue. `none` is the panic of `close` on a closed channel. -/
def CookieTable.sweepLoop (tNow : Int) :
    Option QueueMember → List QueueMember → List (Cookie × Chan) → List Chan →
      Option CookieTable
  | prev, [], map, closed => some ⟨map, prev.toList, closed⟩
  | _, p :: rest, map, closed =>
    -- `Queue.Remove(prev)`: the queue is `p :: rest` now
    if Duration.secondsLt (Time.Sub tNow p.timestamp) RequestTimeout then
      some ⟨map, p :: rest, closed⟩
    else
      match CookieMap.get map p.ptrCookie with
      | some channel =>
        if channel ∈ closed then none
        else CookieTable.sweepLoop tNow (some p) rest (CookieMap.delete map p.ptrCookie)
          (closed ++ [channel])
      | none =>
        CookieTable.sweepLoop tNow (some p) rest (CookieMap.delete map p.ptrCookie) closed

/-- One pass of the sweep that `NewCookieTable` starts, at the tick `tNow`. -/
def CookieTable.sweep (table : CookieTable) (tNow : Int) : Option CookieTable :=
  CookieTable.sweepLoop tNow none table.Queue table.Map table.closed

/-- Go `(*CookieTable).Add`; `now` is the `time.Now()` of the call, and `none` the `nil`
result. -/
def CookieTable.Add (table : CookieTable) (ptrCookie : Cookie) (channel : Chan) (now : Int) :
    Option Cookie × CookieTable :=
  match CookieMap.get table.Map ptrCookie with
  | some _ => (none, table)
  | none =>
    (some ptrCookie,
      { table with
        Map := CookieMap.set table.Map ptrCookie channel
        Queue := table.Queue ++ [⟨ptrCookie, now⟩] })

/-- Go `(*CookieTable).Get`, with the table after the call; `none` is the `nil` result. -/
def CookieTable.Get (table : CookieTable) (ptrCookie : Cookie) : Option Chan × CookieTable :=
  match CookieMap.get table.Map ptrCookie with
  | none => (none, table)
  | some channel => (some channel, table)

/-- The tables that `Add` and the sweep make from the table of `NewCookieTable`, with the
time of the last call, when the clock never goes back and every request comes with a channel
of its own that is open. -/
inductive CookieTable.Reachable : Int → CookieTable → Prop
  | init (t0 : Int) : CookieTable.Reachable t0 NewCookieTable
  | add {t : Int} {table : CookieTable} (now : Int) (ptrCookie : Cookie) (channel : Chan) :
      CookieTable.Reachable t table → t ≤ now →
      channel ∉ table.closed → channel ∉ table.Map.map Prod.snd →
      CookieTable.Reachable now (table.Add ptrCookie channel now).2
  | sweep {t : Int} {table table' : CookieTable} (tNow : Int) :
      CookieTable.Reachable t table → t ≤ tNow → table.sweep tNow = some table' →
      CookieTable.Reachable tNow table'

/-- A second sample nonce: 20 bytes `0x09`. -/
def sampleCookie2 : Cookie := ⟨List.replicate 20 9, by simp [CookieLength]⟩

/-- The table after `Add` of `sampleCookie` with the channel 0 at the time 0. -/
def cookieTableA : CookieTable := (NewCookieTable.Add sampleCookie 0 0).2

/-- The table `cookieTableA` after `Add` of `sampleCookie2` with the channel 1, one second
later. -/
def cookieTableB : CookieTable := (cookieTableA.Add sampleCookie2 1 Second).2


/-- The table `cookieTableA` after the sweep one and a half minute after the request. -/
def cookieTableC : CookieTable :=
  (cookieTableA.sweep (90 * Second)).getD cookieTableA

/-- The table `cookieTableC` after `Add` of `sampleCookie`, again, with the channel 2,
one second after the sweep. -/
def cookieTableD : CookieTable := (cookieTableC.Add sampleCookie 2 (91 * Second)).2


/-- Go `NewDatagram`; `none` is the `nil` result. `cookie` is `none` for a `nil` pointer, and
`rand` is what `NewRandCookie` returns then, `none` when the random source fails. `now` is
`time.Now().UnixNano()` and `payloadBytes` is `payload.Dump()`. -/
def NewDatagram (rand : Option Cookie) (now : Int) (msgType : Byte) (isReq : Bool)
    (cookie : Option Cookie) (sourceNode : Node) (payloadBytes : List Byte) :
    Option Datagram :=
  match (match cookie with
    | none => rand
    | some cookie => some cookie) with
  | none => none
  | some cookie =>
    let timestamp := (now % 2 ^ 64).toNat
    if NodeIDLength + CookieLength + payloadBytes.length + 11 > MaxPackageSize then none
    else some ⟨msgType, isReq, cookie, sourceNode, timestamp, payloadBytes⟩


/-! ## XOR distance -/

/-- Modelled from the spec: the value of a byte string as a big-endian integer. -/
def bigEndian : List Byte → Nat
  | [] => 0
  | x :: a => x.val * 256 ^ a.length + bigEndian a

/-- Modelled from the spec: the XOR distance of two identifiers, "the big-endian integer
value of `id XOR peer.id`". -/
def xorDistance (a b : NodeID) : Nat :=
  bigEndian (List.zipWith (fun x y => x ^^^ y) a.val b.val)

/-- The table of the peer `00..00` after `Add` of the peers `20`, .., `28`, which have two
leading bits in common with it, of the peer `80`, which has none, and of the peer `50`, which
has one: `MaxIndex` is 3, bucket 0 holds `80`, bucket 1 holds `50` and bucket 2 holds the
peers `21`, .., `28`. -/
def tableE : BucketTree :=
  (addAll false [0x20, 0x21, 0x22, 0x23, 0x24, 0x25, 0x26, 0x27, 0x28, 0x80, 0x50]
    (NewBucketTree (sampleID 0))).getD (NewBucketTree (sampleID 0))


/-- The bucket 0 of `tableE`, which holds the peer `80`. -/
def bucketE0 : Bucket := (tableE.bucket 0).getD ⟨0, [], []⟩

/-- The bucket 1 of `tableE`, which holds the peer `50`. -/
def bucketE1 : Bucket := (tableE.bucket 1).getD ⟨1, [], []⟩

/-- The bucket 2 of `tableE`, which holds the peers `21`, .., `28`. -/
def bucketE2 : Bucket := (tableE.bucket 2).getD ⟨2, [], []⟩


/-! # Theorems -/

/-! ## Bytes and `copy` -/

theorem copy_length (dst src : List Byte) : (copy dst src).length = dst.length := by
  simp [copy]; omega

theorem copy_eq_of_length_eq (dst src : List Byte) (h : src.length = dst.length) :
    copy dst src = src := by
  simp [copy, ← h]

/-- Writing `src` over the zeros that follow `pre` leaves the zeros not covered. -/
theorem copyAt_zeros (pre src : List Byte) (n : Nat) (h : src.length ≤ n) :
    copyAt (pre ++ makeBytes n) pre.length src = pre ++ src ++ makeBytes (n - src.length) := by
  simp [copyAt, copy, makeBytes, List.take_of_length_le h]

theorem le64_length (v : Nat) : (le64 v).length = 8 := by simp [le64]

theorem copyAt_zeros_of_eq (pre src : List Byte) (n p m : Nat) (hp : p = pre.length)
    (hn : n = src.length + m) :
    copyAt (pre ++ makeBytes n) p src = pre ++ src ++ makeBytes m := by
  subst hp hn
  rw [copyAt_zeros _ _ _ (by omega)]
  simp

theorem makeBytes_succ_set (n : Nat) (x : Byte) :
    (makeBytes (n + 1)).set 0 x = [x] ++ makeBytes n := by
  simp [makeBytes, List.replicate_succ]

/-! ## Datagram codec -/

/-- What `Dumps` really writes: the wire layout followed by two zero bytes. -/
theorem Dumps_eq (d : Datagram) :
    d.Dumps = [if d.IsRequest then d.Typ ||| Request else d.Typ] ++ d.MagicCookie.val
      ++ d.SourceNode.ID.val ++ le64 d.Timestamp ++ d.Payload ++ [0, 0] := by
  have hc : d.MagicCookie.val.length = 20 := d.MagicCookie.property
  have hi : d.SourceNode.ID.val.length = 20 := d.SourceNode.ID.property
  have ht := le64_length d.Timestamp
  unfold Datagram.Dumps
  simp only [NodeIDLength, CookieLength]
  rw [show 20 + 20 + d.Payload.length + 11 = (d.Payload.length + 50) + 1 by omega,
    makeBytes_succ_set]
  rw [copyAt_zeros_of_eq _ _ _ _ (d.Payload.length + 30) (by simp) (by omega)]
  rw [copyAt_zeros_of_eq _ _ _ _ (d.Payload.length + 10) (by simp [hc]) (by omega)]
  rw [copyAt_zeros_of_eq _ _ _ _ (d.Payload.length + 2) (by simp [hc, hi]) (by omega)]
  rw [copyAt_zeros_of_eq _ _ _ _ 2 (by simp [hc, hi, ht]) (by omega)]
  rfl

theorem slice_mid (pre x post : List Byte) (p q : Nat) (hp : p = pre.length)
    (hq : q = pre.length + x.length) : slice (pre ++ x ++ post) p q = x := by
  subst hp hq
  simp [slice, List.take_append_eq_append_take, List.take_of_length_le]

set_option maxRecDepth 100000 in
theorem header_request (t : Byte) (h : t.val < 128) :
    (t ||| Request) &&& bnot Request = t ∧ ((t ||| Request) &&& Request = Request) := by
  revert t; decide

set_option maxRecDepth 100000 in
theorem header_response (t : Byte) (h : t.val < 128) :
    t &&& bnot Request = t ∧ ¬ (t &&& Request = Request) := by
  revert t; decide

theorem uint64LE_le64 (v : Nat) : uint64LE (le64 v) = v % 2 ^ 64 := by
  simp [uint64LE, le64, List.range, List.range.loop, Fin.ofNat, Nat.shiftLeft_eq,
    Nat.shiftRight_eq_div_pow]
  omega

/-- Result of `Loads` on a buffer laid out as header, nonce, identifier, timestamp, rest. -/
theorem Loads_layout (h : Byte) (c : Cookie) (i : NodeID) (ts : Nat) (rest : List Byte)
    (a : UDPAddr) :
    Datagram.Loads ([h] ++ c.val ++ i.val ++ le64 ts ++ rest) a
      = some ⟨h &&& bnot Request, decide (h &&& Request = Request), c, ⟨i, a⟩,
          ts % 2 ^ 64, rest⟩ := by
  have hc : c.val.length = 20 := c.property
  have hi : i.val.length = 20 := i.property
  have ht := le64_length ts
  unfold Datagram.Loads
  have hlen : ([h] ++ c.val ++ i.val ++ le64 ts ++ rest).length = 49 + rest.length := by
    simp [hc, hi, ht]; omega
  rw [if_neg (by rw [hlen]; simp [CookieLength, NodeIDLength])]
  simp only [CookieLength, NodeIDLength]
  have s1 : slice ([h] ++ c.val ++ i.val ++ le64 ts ++ rest) (0 + 1) (0 + 1 + 20) = c.val := by
    have := slice_mid [h] c.val (i.val ++ le64 ts ++ rest) 1 21 (by simp) (by simp [hc])
    simpa [List.append_assoc] using this
  have s2 : slice ([h] ++ c.val ++ i.val ++ le64 ts ++ rest) (0 + 1 + 20) (0 + 1 + 20 + 20)
      = i.val := by
    have := slice_mid ([h] ++ c.val) i.val (le64 ts ++ rest) 21 41 (by simp [hc]) (by simp [hc, hi])
    simpa [List.append_assoc] using this
  have s3 : slice ([h] ++ c.val ++ i.val ++ le64 ts ++ rest) (0 + 1 + 20 + 20)
      (0 + 1 + 20 + 20 + 8) = le64 ts := by
    have := slice_mid ([h] ++ c.val ++ i.val) (le64 ts) rest 41 49 (by simp [hc, hi])
      (by simp [hc, hi, ht])
    simpa [List.append_assoc] using this
  have s4 : ([h] ++ c.val ++ i.val ++ le64 ts ++ rest).drop (0 + 1 + 20 + 20 + 8) = rest := by
    have : (0 + 1 + 20 + 20 + 8) = ([h] ++ c.val ++ i.val ++ le64 ts).length := by
      simp [hc, hi, ht]
    rw [this, List.drop_left]
  rw [s1, s2, s3, s4, hlen, uint64LE_le64]
  have e1 : Cookie.ofCopy c.val = c := by
    apply Subtype.ext
    exact copy_eq_of_length_eq _ _ (by simp [makeBytes, hc, CookieLength])
  have e2 : NodeID.ofCopy i.val = i := by
    apply Subtype.ext
    exact copy_eq_of_length_eq _ _ (by simp [makeBytes, hi, NodeIDLength])
  have e3 : copy (makeBytes (49 + rest.length - (0 + 1 + 20 + 20 + 8))) rest = rest :=
    copy_eq_of_length_eq _ _ (by simp [makeBytes])
  rw [e1, e2, e3]
  simp

theorem slice_getD (b : List Byte) (p q i : Nat) (h : p + i < q) :
    (slice b p q).getD i 0 = b.getD (p + i) 0 := by
  simp only [slice, List.getD_eq_getElem?_getD, List.getElem?_drop, List.getElem?_take]
  rw [if_pos h]

theorem slice_length (b : List Byte) (p q : Nat) (h : q ≤ b.length) :
    (slice b p q).length = q - p := by
  simp [slice, Nat.min_eq_left h]

set_option maxRecDepth 100000 in
theorem and_bnot_Request_val (x : Byte) : (x &&& bnot Request).val = x.val % 128 := by
  revert x; decide

set_option maxRecDepth 100000 in
theorem and_Request_iff (x : Byte) : (x &&& Request = Request) ↔ x.val.testBit 7 = true := by
  revert x; decide

/-- C3. `Loads(b, a)` returns no datagram exactly when `len(b) < L_ck + L_id + 9 = 49`;
when it returns a datagram, its kind is the low 7 bits of `b[0]`, its request flag is bit 7
of `b[0]`, its nonce is `b[1..21)`, its source identifier is `b[21..41)`, its timestamp is
the little-endian value of `b[41..49)`, its payload is `b[49..]` and its address is `a`. -/
theorem Loads_spec (b : List Byte) (a : UDPAddr) :
    (Datagram.Loads b a = none ↔ b.length < CookieLength + NodeIDLength + 9) ∧
    CookieLength + NodeIDLength + 9 = 49 ∧
    ∀ d, Datagram.Loads b a = some d →
      d.Typ.val = (b.getD 0 0).val % 128 ∧
      d.IsRequest = (b.getD 0 0).val.testBit 7 ∧
      (∀ i, i < 20 → d.MagicCookie.val.getD i 0 = b.getD (1 + i) 0) ∧
      (∀ i, i < 20 → d.SourceNode.ID.val.getD i 0 = b.getD (21 + i) 0) ∧
      d.Timestamp = (b.getD 41 0).val + (b.getD 42 0).val * 256 ^ 1
        + (b.getD 43 0).val * 256 ^ 2 + (b.getD 44 0).val * 256 ^ 3
        + (b.getD 45 0).val * 256 ^ 4 + (b.getD 46 0).val * 256 ^ 5
        + (b.getD 47 0).val * 256 ^ 6 + (b.getD 48 0).val * 256 ^ 7 ∧
      d.Payload = b.drop 49 ∧
      (b.length = 49 → d.Payload = []) ∧
      d.SourceNode.Address = a := by
  refine ⟨?_, rfl, ?_⟩
  · unfold Datagram.Loads
    split <;> simp_all
  · intro d hd
    unfold Datagram.Loads at hd
    split at hd
    · exact absurd hd (by simp)
    · rename_i hlen
      simp only [CookieLength, NodeIDLength, not_lt] at hlen
      simp only [Option.some.injEq] at hd
      subst hd
      simp only [CookieLength, NodeIDLength]
      refine ⟨and_bnot_Request_val _, ?_, ?_, ?_, ?_, ?_, ?_⟩
      · rw [Bool.eq_iff_iff]; simp [and_Request_iff]
      · intro i hi
        show (copy (makeBytes 20) (slice b (0 + 1) (0 + 1 + 20))).getD i 0 = _
        rw [copy_eq_of_length_eq _ _ (by rw [slice_length _ _ _ (by omega)]; simp [makeBytes]),
          slice_getD _ _ _ _ (by omega)]
      · intro i hi
        show (copy (makeBytes 20) (slice b (0 + 1 + 20) (0 + 1 + 20 + 20))).getD i 0 = _
        rw [copy_eq_of_length_eq _ _ (by rw [slice_length _ _ _ (by omega)]; simp [makeBytes]),
          slice_getD _ _ _ _ (by omega)]
      · simp only [uint64LE, List.range, List.range.loop, List.map, List.sum_cons, List.sum_nil,
          Nat.shiftLeft_eq]
        rw [slice_getD _ _ _ _ (by omega), slice_getD _ _ _ _ (by omega),
          slice_getD _ _ _ _ (by omega), slice_getD _ _ _ _ (by omega),
          slice_getD _ _ _ _ (by omega), slice_getD _ _ _ _ (by omega),
          slice_getD _ _ _ _ (by omega), slice_getD _ _ _ _ (by omega)]
        norm_num
        ring
      · exact copy_eq_of_length_eq _ _ (by simp [makeBytes])
      · refine ⟨?_, trivial⟩
        intro h49
        have : b.drop 49 = [] := List.drop_of_length_le (by omega)
        rw [← this]
        exact copy_eq_of_length_eq _ _ (by simp [makeBytes])

/-- Witness of `Loads_spec` on a 50-byte buffer. -/
theorem Loads_spec_witness :
    Datagram.Loads sampleBuffer (sampleAddr 2)
        = some ⟨Ping, true, sampleCookie, ⟨sampleID 0, sampleAddr 2⟩, 258, [0x2A]⟩ ∧
      (⟨Ping, true, sampleCookie, ⟨sampleID 0, sampleAddr 2⟩, 258, [0x2A]⟩ : Datagram).Payload
        = sampleBuffer.drop 49 :=
  ⟨by decide, ((Loads_spec sampleBuffer (sampleAddr 2)).2.2 _ (by decide)).2.2.2.2.2.1⟩

/-- C1 (the code diverges). For every datagram `d` with kind below 128 and every address `a`,
`Loads(Dumps(d), a)` succeeds and keeps kind, flag, nonce, source identifier and timestamp,
with source address `a`; but its payload is the payload of `d` followed by two zero bytes. -/
theorem Loads_Dumps (d : Datagram) (a : UDPAddr) (hk : d.Typ.val < 128)
    (ht : d.Timestamp < 2 ^ 64) :
    Datagram.Loads d.Dumps a
      = some ⟨d.Typ, d.IsRequest, d.MagicCookie, ⟨d.SourceNode.ID, a⟩, d.Timestamp,
          d.Payload ++ [0, 0]⟩ := by
  rw [Dumps_eq, List.append_assoc _ d.Payload, Loads_layout, Nat.mod_eq_of_lt ht]
  cases hr : d.IsRequest
  · have := header_response d.Typ hk
    simp [this.1, this.2]
  · have := header_request d.Typ hk
    simp [this.1, this.2]

/-- Witness of `Loads_Dumps`: the probe comes back with the payload `[0, 0]`, not empty. -/
theorem Loads_Dumps_witness :
    (sampleProbe.Typ.val < 128 ∧ sampleProbe.Timestamp < 2 ^ 64) ∧
      Datagram.Loads sampleProbe.Dumps (sampleAddr 2)
        = some ⟨Ping, true, sampleCookie, ⟨sampleID 0, sampleAddr 2⟩, 258, [0, 0]⟩ :=
  ⟨⟨by decide, by decide⟩, Loads_Dumps sampleProbe (sampleAddr 2) (by decide) (by decide)⟩

/-- C2 (the code diverges). For every datagram `d`, `Dumps(d)` is the header byte, the nonce,
the source identifier, the 8 little-endian timestamp bytes and the payload, followed by two
more zero bytes: its length is `1 + L_ck + L_id + 8 + len(payload) + 2`, and a probe
datagram encodes to 51 bytes, not 49. -/
theorem Dumps_layout :
    (∀ d : Datagram,
      d.Dumps = [if d.IsRequest then d.Typ ||| Request else d.Typ] ++ d.MagicCookie.val
        ++ d.SourceNode.ID.val ++ le64 d.Timestamp ++ d.Payload ++ [0, 0] ∧
      d.Dumps.length = 1 + CookieLength + NodeIDLength + 8 + d.Payload.length + 2) ∧
    sampleProbe.Dumps.length = 51 ∧
    sampleProbe.Dumps = [0x81] ++ List.replicate 20 7 ++ List.replicate 20 0
      ++ [2, 1, 0, 0, 0, 0, 0, 0] ++ [0, 0] := by
  refine ⟨fun d => ⟨Dumps_eq d, ?_⟩, by decide, by decide⟩
  rw [Dumps_eq]
  have hc : d.MagicCookie.val.length = 20 := d.MagicCookie.property
  have hi : d.SourceNode.ID.val.length = 20 := d.SourceNode.ID.property
  simp [hc, hi, le64_length, CookieLength, NodeIDLength]
  omega

/-! ## Common prefix length -/

set_option maxRecDepth 100000 in
theorem LeadingZeros8_spec (z : Byte) :
    LeadingZeros8 z ≤ 8 ∧ (∀ j, j < LeadingZeros8 z → z.val.testBit (7 - j) = false) ∧
      (LeadingZeros8 z < 8 → z.val.testBit (7 - LeadingZeros8 z) = true) ∧
      (LeadingZeros8 z = 8 ↔ z = 0) := by
  revert z; decide

theorem Byte.xor_val (x y : Byte) : (x ^^^ y).val = x.val ^^^ y.val := by
  show (x.val ^^^ y.val) % 256 = _
  exact Nat.mod_eq_of_lt (Nat.xor_lt_two_pow (n := 8) x.isLt y.isLt)

theorem Byte.xor_eq_zero (x y : Byte) : x ^^^ y = 0 ↔ x = y := by
  rw [Fin.ext_iff, Byte.xor_val, Fin.ext_iff]
  simp [Nat.xor_eq_zero]

theorem loop_count (a b : List Byte) (c : Nat) :
    CommonPrefixLength.loop a b c = c + CommonPrefixLength.loop a b 0 := by
  induction a generalizing b c with
  | nil => simp [CommonPrefixLength.loop]
  | cons x a ih =>
    cases b with
    | nil => simp [CommonPrefixLength.loop]
    | cons y b =>
      simp only [CommonPrefixLength.loop]
      split
      · omega
      · rw [ih b (c + _), ih b (0 + _)]; omega

theorem loop_comm (a b : List Byte) (c : Nat) :
    CommonPrefixLength.loop a b c = CommonPrefixLength.loop b a c := by
  induction a generalizing b c with
  | nil => cases b <;> simp [CommonPrefixLength.loop]
  | cons x a ih =>
    cases b with
    | nil => simp [CommonPrefixLength.loop]
    | cons y b =>
      simp only [CommonPrefixLength.loop]
      have : x ^^^ y = y ^^^ x := by
        rw [Fin.ext_iff, Byte.xor_val, Byte.xor_val, Nat.xor_comm]
      rw [this, ih]

theorem bitAt_cons_lt (x : Byte) (a : List Byte) (j : Nat) (h : j < 8) :
    bitAt (x :: a) j = x.val.testBit (7 - j) := by
  have h1 : j / 8 = 0 := by omega
  have h2 : j % 8 = j := by omega
  simp [bitAt, h1, h2]

theorem bitAt_cons_add (x : Byte) (a : List Byte) (j : Nat) :
    bitAt (x :: a) (8 + j) = bitAt a j := by
  have h1 : (8 + j) / 8 = j / 8 + 1 := by omega
  have h2 : (8 + j) % 8 = j % 8 := by omega
  simp [bitAt, h1, h2]

/-- The bits of two bytes above the leading zeros of their xor agree, the next one differs. -/
theorem LeadingZeros8_xor (x y : Byte) :
    (∀ j, j < LeadingZeros8 (x ^^^ y) → x.val.testBit (7 - j) = y.val.testBit (7 - j)) ∧
      (LeadingZeros8 (x ^^^ y) < 8 →
        x.val.testBit (7 - LeadingZeros8 (x ^^^ y)) ≠ y.val.testBit (7 - LeadingZeros8 (x ^^^ y)))
      := by
  obtain ⟨_, h2, h3, _⟩ := LeadingZeros8_spec (x ^^^ y)
  rw [Byte.xor_val] at h2 h3
  constructor
  · intro j hj
    have := h2 j hj
    rw [Nat.testBit_xor] at this
    revert this
    cases x.val.testBit (7 - j) <;> cases y.val.testBit (7 - j) <;> simp
  · intro hlt
    have := h3 hlt
    rw [Nat.testBit_xor] at this
    revert this
    cases x.val.testBit (7 - LeadingZeros8 (x ^^^ y)) <;>
      cases y.val.testBit (7 - LeadingZeros8 (x ^^^ y)) <;> simp

/-- The loop of `CommonPrefixLength` on two byte strings of the same length. -/
theorem loop_spec (a b : List Byte) (hlen : a.length = b.length) :
    CommonPrefixLength.loop a b 0 ≤ 8 * a.length ∧
      (∀ j, j < CommonPrefixLength.loop a b 0 → bitAt a j = bitAt b j) ∧
      (CommonPrefixLength.loop a b 0 < 8 * a.length →
        bitAt a (CommonPrefixLength.loop a b 0) ≠ bitAt b (CommonPrefixLength.loop a b 0)) ∧
      (CommonPrefixLength.loop a b 0 = 8 * a.length ↔ a = b) := by
  induction a generalizing b with
  | nil =>
    cases b with
    | nil => simp [CommonPrefixLength.loop]
    | cons y b => simp at hlen
  | cons x a ih =>
    cases b with
    | nil => simp at hlen
    | cons y b =>
      simp only [List.length_cons, Nat.add_right_cancel_iff] at hlen
      obtain ⟨i1, i2, i3, i4⟩ := ih b hlen
      obtain ⟨z1, _, _, z4⟩ := LeadingZeros8_spec (x ^^^ y)
      obtain ⟨x1, x2⟩ := LeadingZeros8_xor x y
      simp only [CommonPrefixLength.loop, List.length_cons, Nat.zero_add]
      by_cases h8 : LeadingZeros8 (x ^^^ y) = 8
      · have hxy : x = y := (Byte.xor_eq_zero x y).1 (z4.1 h8)
        rw [if_neg (by simpa using h8), loop_count, h8]
        refine ⟨by omega, ?_, ?_, ?_⟩
        · intro j hj
          by_cases hj8 : j < 8
          · rw [bitAt_cons_lt _ _ _ hj8, bitAt_cons_lt _ _ _ hj8, hxy]
          · obtain ⟨k, rfl⟩ : ∃ k, j = 8 + k := ⟨j - 8, by omega⟩
            rw [bitAt_cons_add, bitAt_cons_add]
            exact i2 k (by omega)
        · intro hlt
          rw [bitAt_cons_add, bitAt_cons_add]
          exact i3 (by omega)
        · rw [hxy]
          simp only [List.cons.injEq, true_and]
          rw [← i4]; omega
      · rw [if_pos h8]
        have hlt : LeadingZeros8 (x ^^^ y) < 8 := by omega
        refine ⟨by omega, ?_, ?_, ?_⟩
        · intro j hj
          rw [bitAt_cons_lt _ _ _ (by omega), bitAt_cons_lt _ _ _ (by omega)]
          exact x1 j hj
        · intro _
          rw [bitAt_cons_lt _ _ _ hlt, bitAt_cons_lt _ _ _ hlt]
          exact x2 hlt
        · constructor
          · intro h; omega
          · intro h
            simp only [List.cons.injEq] at h
            exact absurd (z4.2 ((Byte.xor_eq_zero x y).2 h.1)) h8

/-- C5. For byte strings `a`, `b` of equal length `n`, `CommonPrefixLength(a, b)` is the
number of leading bits (most significant bit of the first byte first) on which they agree:
it is at most `8n`, the bits below it agree, every `k ≤ 8n` whose lower bits all agree is at
most it, it is `8n` exactly when `a = b`, and it is symmetric. For different lengths it
is `-1`. -/
theorem CommonPrefixLength_spec (a b : List Byte) :
    (a.length ≠ b.length → CommonPrefixLength a b = -1) ∧
    (a.length = b.length →
      ∃ m : Nat, CommonPrefixLength a b = (m : Int) ∧ m ≤ 8 * a.length ∧
        (∀ j, j < m → bitAt a j = bitAt b j) ∧
        (∀ k, k ≤ 8 * a.length → (∀ j, j < k → bitAt a j = bitAt b j) → k ≤ m) ∧
        (m = 8 * a.length ↔ a = b) ∧
        CommonPrefixLength b a = (m : Int)) := by
  constructor
  · intro h
    simp [CommonPrefixLength, h]
  · intro h
    obtain ⟨h1, h2, h3, h4⟩ := loop_spec a b h
    refine ⟨CommonPrefixLength.loop a b 0, by simp [CommonPrefixLength, h], h1, h2, ?_, h4, ?_⟩
    · intro k hk hagree
      by_contra hcon
      have hlt : CommonPrefixLength.loop a b 0 < k := by omega
      exact h3 (by omega) (hagree _ hlt)
    · simp [CommonPrefixLength, h, loop_comm b a]

/-- Witness of `CommonPrefixLength_spec`: 15 common bits, and `-1` for unequal lengths. -/
theorem CommonPrefixLength_spec_witness :
    CommonPrefixLength [0x80, 0] [0x80, 1] = 15 ∧
      CommonPrefixLength [1] [1, 2] = -1 ∧
      ∃ m : Nat, CommonPrefixLength [0x80, 0] [0x80, 1] = (m : Int) ∧ m ≤ 8 * 2 ∧
        (∀ j, j < m → bitAt [0x80, 0] j = bitAt [0x80, 1] j) ∧
        (∀ k, k ≤ 8 * 2 → (∀ j, j < k → bitAt [0x80, 0] j = bitAt [0x80, 1] j) → k ≤ m) ∧
        (m = 8 * 2 ↔ ([0x80, 0] : List Byte) = [0x80, 1]) ∧
        CommonPrefixLength [0x80, 1] [0x80, 0] = (m : Int) :=
  ⟨by decide, (CommonPrefixLength_spec [1] [1, 2]).1 (by decide),
    (CommonPrefixLength_spec [0x80, 0] [0x80, 1]).2 (by decide)⟩

/-! ## Base64 -/

set_option maxRecDepth 100000 in
theorem b64Char_lt (v : Nat) (h : v < 64) :
    b64Value (b64Char v) = some v ∧ b64Char v ≠ b64Pad ∧ b64Char v ≠ Char.ofNat 13 ∧
      b64Char v ≠ Char.ofNat 10 := by
  revert v; decide

theorem b64Char_mod (v : Nat) : b64Char (v % 64) = b64Char v := by simp [b64Char]

theorem b64Value_b64Char (v : Nat) : b64Value (b64Char v) = some (v % 64) := by
  rw [← b64Char_mod]; exact (b64Char_lt _ (Nat.mod_lt _ (by decide))).1

theorem b64Char_ne_pad (v : Nat) : b64Char v ≠ b64Pad := by
  rw [← b64Char_mod]; exact (b64Char_lt _ (Nat.mod_lt _ (by decide))).2.1

theorem b64Char_keep (v : Nat) :
    decide (b64Char v ≠ Char.ofNat 13 ∧ b64Char v ≠ Char.ofNat 10) = true := by
  rw [← b64Char_mod]
  have := b64Char_lt _ (Nat.mod_lt v (by decide : 0 < 64))
  simp [this.2.2.1, this.2.2.2]

theorem b64Pad_keep : decide (b64Pad ≠ Char.ofNat 13 ∧ b64Pad ≠ Char.ofNat 10) = true := by
  decide

theorem base64Encode_filter (bs : List Byte) :
    (base64Encode bs).filter (fun c => c ≠ Char.ofNat 13 ∧ c ≠ Char.ofNat 10)
      = base64Encode bs := by
  induction bs using base64Encode.induct with
  | case1 => rfl
  | case2 a => simp only [base64Encode, List.filter, b64Char_keep, b64Pad_keep]
  | case3 a b => simp only [base64Encode, List.filter, b64Char_keep, b64Pad_keep]
  | case4 a b c rest ih =>
    simp only [base64Encode, List.filter, b64Char_keep]
    rw [ih]

theorem byte_ofNat_val (x : Byte) (n : Nat) (h : n % 256 = x.val) : (Fin.ofNat n : Byte) = x := by
  apply Fin.ext
  simpa [Fin.ofNat] using h

theorem base64DecodeQuanta_encode (bs : List Byte) :
    base64DecodeQuanta (base64Encode bs) = some bs := by
  induction bs using base64Encode.induct with
  | case1 => rfl
  | case2 a =>
    simp only [base64Encode, base64DecodeQuanta, if_true, b64Value_b64Char, ne_eq, not_true,
      if_false]
    have ha := a.isLt
    simp only [Option.some.injEq, List.cons.injEq, and_true]
    apply byte_ofNat_val
    omega
  | case3 a b =>
    simp only [base64Encode, base64DecodeQuanta, if_true, b64Value_b64Char, ne_eq, not_true,
      if_false, b64Char_ne_pad]
    have ha := a.isLt
    have hb := b.isLt
    simp only [Option.some.injEq, List.cons.injEq, and_true]
    constructor <;> (apply byte_ofNat_val; omega)
  | case4 a b c rest ih =>
    simp only [base64Encode, base64DecodeQuanta, b64Value_b64Char, if_false, b64Char_ne_pad, ih]
    have ha := a.isLt
    have hb := b.isLt
    have hc := c.isLt
    simp only [Option.some.injEq, List.cons.injEq, and_true]
    refine ⟨?_, ?_, ?_⟩ <;> (apply byte_ofNat_val; omega)

/-- Decoding reverses encoding in the model of `base64.StdEncoding`. -/
theorem base64Decode_encode (bs : List Byte) : base64Decode (base64Encode bs) = some bs := by
  rw [base64Decode, base64Encode_filter, base64DecodeQuanta_encode]

/-- The RFC 4648 test vectors hold in the model of `base64.StdEncoding`. -/
theorem base64Encode_rfc4648 :
    base64Encode [102] = "Zg==".toList ∧ base64Encode [102, 111] = "Zm8=".toList ∧
      base64Encode [102, 111, 111] = "Zm9v".toList ∧
      base64Encode [102, 111, 111, 98, 97, 114] = "Zm9vYmFy".toList := by
  decide

/-! ## Peer codec -/

theorem To4_length (ip ip4 : List Byte) (h : To4 ip = some ip4) : ip4.length = 4 := by
  unfold To4 at h
  split at h
  · simp only [Option.some.injEq] at h; subst h; assumption
  · split at h
    · rename_i h16
      simp only [Option.some.injEq] at h
      subst h
      simp [slice, h16.1]
    · simp at h

theorem To4_IPv4 (a b c d : Byte) : To4 (IPv4 a b c d) = some [a, b, c, d] := by
  simp [To4, IPv4, slice]

theorem le16_eq (port : Int) (h0 : 0 ≤ port) (h1 : port < 65536) :
    le16 port = [Fin.ofNat (port.toNat % 256), Fin.ofNat (port.toNat / 256)] ∧
      ((uint16LE (le16 port) : Nat) : Int) = port := by
  have hv : (port % 65536).toNat = port.toNat := by
    rw [Int.emod_eq_of_lt h0 h1]
  have hlt : port.toNat < 65536 := by omega
  constructor
  · simp only [le16, hv, List.cons.injEq, and_true]
    exact Fin.ext (by simp [Fin.ofNat])
  · simp only [le16, hv, uint16LE, List.getD_cons_zero, List.getD_cons_succ, Fin.ofNat]
    have : port.toNat % (255 + 1) + port.toNat / 256 % (255 + 1) * 256 = port.toNat := by omega
    rw [this]
    omega

/-- C4. For every peer whose address is IPv4 (`To4` gives the four bytes `ip4`) with a port in
`0..65535`, `EncodeToString` gives the base64 text of the 26 bytes identifier, `ip4`,
little-endian port, and `DecodeString` of that text succeeds with the same identifier, the
same IPv4 address and the same port. -/
theorem DecodeString_EncodeToString (node : Node) (ip4 : List Byte)
    (hip : To4 node.Address.IP = some ip4)
    (hport : 0 ≤ node.Address.Port ∧ node.Address.Port < 65536) :
    ∃ text node',
      node.EncodeToString = some text ∧
      text = base64Encode (node.ID.val ++ ip4 ++
        [Fin.ofNat (node.Address.Port.toNat % 256), Fin.ofNat (node.Address.Port.toNat / 256)]) ∧
      (node.ID.val ++ ip4 ++
        [Fin.ofNat (node.Address.Port.toNat % 256),
          Fin.ofNat (node.Address.Port.toNat / 256)]).length = 26 ∧
      Node.DecodeString text = some node' ∧
      node'.ID = node.ID ∧ To4 node'.Address.IP = some ip4 ∧
      node'.Address.Port = node.Address.Port := by
  have h4 := To4_length _ _ hip
  have hid : node.ID.val.length = 20 := node.ID.property
  obtain ⟨hle, hrd⟩ := le16_eq node.Address.Port hport.1 hport.2
  obtain ⟨a, b, c, d, rfl⟩ : ∃ a b c d, ip4 = [a, b, c, d] := by
    match ip4, h4 with
    | [a, b, c, d], _ => exact ⟨a, b, c, d, rfl⟩
  refine ⟨base64Encode (node.ID.val ++ [a, b, c, d] ++ le16 node.Address.Port),
    ⟨node.ID, ⟨IPv4 a b c d, node.Address.Port⟩⟩, ?_, ?_, ?_, ?_, rfl, To4_IPv4 a b c d, rfl⟩
  · simp [Node.EncodeToString, hip]
  · rw [hle]
  · simp [hid]
  · unfold Node.DecodeString
    rw [base64Decode_encode]
    have hlen : (node.ID.val ++ [a, b, c, d] ++ le16 node.Address.Port).length = 26 := by
      simp [hid, le16]
    simp only [hlen, NodeIDLength, ne_eq, not_true, if_false]
    have e1 : NodeID.ofCopy (slice (node.ID.val ++ [a, b, c, d] ++ le16 node.Address.Port) 0
        (0 + 20)) = node.ID := by
      apply Subtype.ext
      have : slice (node.ID.val ++ [a, b, c, d] ++ le16 node.Address.Port) 0 (0 + 20)
          = node.ID.val := by
        have := slice_mid [] node.ID.val ([a, b, c, d] ++ le16 node.Address.Port) 0 20 rfl
          (by simp [hid])
        simpa [List.append_assoc] using this
      rw [this]
      exact copy_eq_of_length_eq _ _ (by simp [makeBytes, hid, NodeIDLength])
    have e2 : ∀ k, k < 4 → (node.ID.val ++ [a, b, c, d] ++ le16 node.Address.Port).getD (20 + k) 0
        = [a, b, c, d].getD k 0 := by
      intro k hk
      rw [List.append_assoc, List.getD_append_right _ _ _ _ (by omega), hid,
        Nat.add_sub_cancel_left, List.getD_append _ _ _ _ (by simpa using hk)]
    have e3 : (node.ID.val ++ [a, b, c, d] ++ le16 node.Address.Port).drop (0 + 20 + 4)
        = le16 node.Address.Port := by
      have : (0 + 20 + 4) = (node.ID.val ++ [a, b, c, d]).length := by simp [hid]
      rw [this, List.drop_left]
    have g0 := e2 0 (by omega)
    have g1 := e2 1 (by omega)
    have g2 := e2 2 (by omega)
    have g3 := e2 3 (by omega)
    simp only [Nat.add_zero] at g0
    simp only [List.getD_cons_zero, List.getD_cons_succ] at g0 g1 g2 g3
    rw [e1, e3, hrd]
    simp only [Nat.zero_add]
    rw [g0, show 20 + 1 = 20 + 1 from rfl, g1, g2, g3]

/-- Witness of `DecodeString_EncodeToString` for the peer `05 00..00` at `10.0.0.9:54321`. -/
theorem DecodeString_EncodeToString_witness :
    (To4 (sampleAddr 9).IP = some [10, 0, 0, 9] ∧
      (0 ≤ (sampleAddr 9).Port ∧ (sampleAddr 9).Port < 65536)) ∧
    Node.EncodeToString ⟨sampleID 5, sampleAddr 9⟩
      = some "BQAAAAAAAAAAAAAAAAAAAAAAAAAKAAAJMdQ=".toList ∧
    ∃ text node',
      Node.EncodeToString ⟨sampleID 5, sampleAddr 9⟩ = some text ∧
      text = base64Encode ((sampleID 5).val ++ [10, 0, 0, 9] ++
        [Fin.ofNat ((sampleAddr 9).Port.toNat % 256),
          Fin.ofNat ((sampleAddr 9).Port.toNat / 256)]) ∧
      ((sampleID 5).val ++ [10, 0, 0, 9] ++
        [Fin.ofNat ((sampleAddr 9).Port.toNat % 256),
          Fin.ofNat ((sampleAddr 9).Port.toNat / 256)]).length = 26 ∧
      Node.DecodeString text = some node' ∧
      node'.ID = sampleID 5 ∧ To4 node'.Address.IP = some [10, 0, 0, 9] ∧
      node'.Address.Port = (sampleAddr 9).Port :=
  ⟨⟨by decide, by decide⟩, by decide,
    DecodeString_EncodeToString ⟨sampleID 5, sampleAddr 9⟩ [10, 0, 0, 9] (by decide)
      (by decide)⟩

/-! ## Lists of cells and maps -/

theorem Queue.mem_Remove (l : List Element) (e x : Element) :
    x ∈ Queue.Remove l e ↔ x ∈ l ∧ x.ptr ≠ e.ptr := by
  simp [Queue.Remove]

theorem Queue.Remove_length_le (l : List Element) (e : Element) :
    (Queue.Remove l e).length ≤ l.length :=
  List.length_filter_le _ _

theorem Queue.Remove_length_lt (l : List Element) (e x : Element) (hx : x ∈ l)
    (hp : x.ptr = e.ptr) : (Queue.Remove l e).length < l.length := by
  induction l with
  | nil => simp at hx
  | cons y l ih =>
    simp only [Queue.Remove, List.filter_cons]
    by_cases hy : y.ptr = e.ptr
    · simp only [hy, ne_eq, not_true_eq_false, decide_False, Bool.false_eq_true, if_false,
        List.length_cons]
      exact Nat.lt_succ_of_le (List.length_filter_le _ _)
    · have hxl : x ∈ l := by
        rcases List.mem_cons.1 hx with h | h
        · subst h; exact absurd hp hy
        · exact h
      simp only [ne_eq, hy, not_false_eq_true, decide_True, if_true, List.length_cons]
      exact Nat.succ_lt_succ (ih hxl)

theorem Queue.Remove_ptrs_nodup (l : List Element) (e : Element)
    (h : (l.map Element.ptr).Nodup) : ((Queue.Remove l e).map Element.ptr).Nodup :=
  List.Nodup.sublist (List.Sublist.map _ (List.filter_sublist l)) h

theorem Queue.mem_PushBack (l : List Element) (e x : Element) :
    x ∈ Queue.PushBack l e ↔ x ∈ l ∨ x = e := by
  simp [Queue.PushBack]

theorem Queue.PushBack_length (l : List Element) (e : Element) :
    (Queue.PushBack l e).length = l.length + 1 := by
  simp [Queue.PushBack]

theorem Queue.PushBack_ptrs_nodup (l : List Element) (e : Element)
    (h : (l.map Element.ptr).Nodup) (hn : ∀ x ∈ l, x.ptr ≠ e.ptr) :
    ((Queue.PushBack l e).map Element.ptr).Nodup := by
  simp only [Queue.PushBack, List.map_append, List.map_cons, List.map_nil]
  rw [List.nodup_append]
  refine ⟨h, List.nodup_singleton _, ?_⟩
  intro a ha hb
  simp only [List.mem_singleton] at hb
  obtain ⟨x, hx, rfl⟩ := List.mem_map.1 ha
  exact hn x hx hb

theorem Queue.mem_MoveToBack (l : List Element) (e x : Element)
    (h : x ∈ Queue.MoveToBack l e) : x ∈ l := by
  unfold Queue.MoveToBack at h
  split at h
  · exact h
  · rename_i y hy
    rcases (Queue.mem_PushBack _ _ _).1 h with h | h
    · exact ((Queue.mem_Remove _ _ _).1 h).1
    · subst h; exact List.mem_of_find?_eq_some hy

theorem Queue.MoveToBack_length_le (l : List Element) (e : Element) :
    (Queue.MoveToBack l e).length ≤ l.length := by
  unfold Queue.MoveToBack
  split
  · exact Nat.le_refl _
  · rename_i y hy
    rw [Queue.PushBack_length]
    have hp : y.ptr = e.ptr := by simpa using List.find?_some hy
    exact Queue.Remove_length_lt l e y (List.mem_of_find?_eq_some hy) hp

theorem Queue.MoveToBack_ptrs_nodup (l : List Element) (e : Element)
    (h : (l.map Element.ptr).Nodup) : ((Queue.MoveToBack l e).map Element.ptr).Nodup := by
  unfold Queue.MoveToBack
  split
  · exact h
  · rename_i y hy
    have hp : y.ptr = e.ptr := by simpa using List.find?_some hy
    apply Queue.PushBack_ptrs_nodup _ _ (Queue.Remove_ptrs_nodup l e h)
    intro x hx
    rw [hp]
    exact ((Queue.mem_Remove _ _ _).1 hx).2

theorem GoMap.get_delete (m : List (NodeID × Element)) (k k' : NodeID) :
    GoMap.get (GoMap.delete m k) k' = if k' = k then none else GoMap.get m k' := by
  induction m with
  | nil => simp [GoMap.get, GoMap.delete]
  | cons kv m ih =>
    simp only [GoMap.get, GoMap.delete] at ih ⊢
    by_cases h1 : kv.1 = k
    · by_cases h2 : k' = k
      · simp_all [List.filter_cons, List.find?_cons]
      · have : ¬ kv.1 = k' := fun h => h2 (h ▸ h1)
        simp_all [List.filter_cons, List.find?_cons]
    · by_cases h2 : k' = k
      · subst h2
        simp_all [List.filter_cons, List.find?_cons]
      · by_cases h3 : kv.1 = k'
        · simp_all [List.filter_cons, List.find?_cons]
        · simp_all [List.filter_cons, List.find?_cons]

theorem GoMap.get_append_singleton (m : List (NodeID × Element)) (k k' : NodeID) (v : Element) :
    GoMap.get (m ++ [(k, v)]) k'
      = match GoMap.get m k' with
        | some x => some x
        | none => if k = k' then some v else none := by
  induction m with
  | nil => by_cases h : k = k' <;> simp [GoMap.get, List.find?_cons, h]
  | cons kv m ih =>
    simp only [GoMap.get] at ih ⊢
    by_cases h3 : kv.1 = k'
    · simp [List.find?_cons, h3]
    · simpa [List.find?_cons, h3] using ih

theorem GoMap.get_set (m : List (NodeID × Element)) (k k' : NodeID) (v : Element) :
    GoMap.get (GoMap.set m k v) k' = if k' = k then some v else GoMap.get m k' := by
  rw [GoMap.set, GoMap.get_append_singleton, GoMap.get_delete]
  by_cases h : k' = k
  · subst h; simp
  · have : ¬ k = k' := fun h' => h h'.symm
    simp only [h, this, if_false]
    cases GoMap.get m k' <;> rfl

theorem GoMap.get_none_iff (m : List (NodeID × Element)) (k : NodeID) :
    GoMap.get m k = none ↔ k ∉ m.map Prod.fst := by
  simp [GoMap.get, List.find?_eq_none]
  constructor
  · intro h x hx; exact h k x hx rfl
  · intro h a b hab hak; exact h b (hak ▸ hab)

theorem GoMap.delete_of_get_none (m : List (NodeID × Element)) (k : NodeID)
    (h : GoMap.get m k = none) : GoMap.delete m k = m := by
  rw [GoMap.get_none_iff] at h
  simp only [GoMap.delete, List.filter_eq_self]
  intro kv hkv
  simp only [ne_eq, decide_not, Bool.not_eq_true', decide_eq_false_iff_not]
  intro hk
  exact h (List.mem_map.2 ⟨kv, hkv, hk⟩)

theorem GoMap.delete_keys_nodup (m : List (NodeID × Element)) (k : NodeID)
    (h : (m.map Prod.fst).Nodup) : ((GoMap.delete m k).map Prod.fst).Nodup :=
  List.Nodup.sublist (List.Sublist.map _ (List.filter_sublist m)) h

theorem GoMap.set_keys_nodup (m : List (NodeID × Element)) (k : NodeID) (v : Element)
    (h : (m.map Prod.fst).Nodup) : ((GoMap.set m k v).map Prod.fst).Nodup := by
  simp only [GoMap.set, List.map_append, List.map_cons, List.map_nil]
  rw [List.nodup_append]
  refine ⟨GoMap.delete_keys_nodup m k h, List.nodup_singleton _, ?_⟩
  intro a ha hb
  simp only [List.mem_singleton] at hb
  subst hb
  obtain ⟨kv, hkv, hk⟩ := List.mem_map.1 ha
  simp [GoMap.delete] at hkv
  exact hkv.2 hk

theorem GoMap.delete_length_le (m : List (NodeID × Element)) (k : NodeID) :
    (GoMap.delete m k).length ≤ m.length :=
  List.length_filter_le _ _

theorem GoMap.length_le_delete_succ (m : List (NodeID × Element)) (k : NodeID)
    (h : (m.map Prod.fst).Nodup) : m.length ≤ (GoMap.delete m k).length + 1 := by
  induction m with
  | nil => simp [GoMap.delete]
  | cons kv m ih =>
    simp only [List.map_cons, List.nodup_cons] at h
    have hcons : GoMap.delete (kv :: m) k
        = if kv.1 ≠ k then kv :: GoMap.delete m k else GoMap.delete m k := by
      simp only [GoMap.delete, List.filter_cons]
      by_cases hk : kv.1 = k <;> simp [hk]
    rw [hcons]
    by_cases hk : kv.1 = k
    · have hn : GoMap.get m k = none := by
        rw [GoMap.get_none_iff]; rw [← hk]; exact h.1
      rw [if_neg (by simpa using hk), GoMap.delete_of_get_none m k hn]
      simp
    · have := ih h.2
      rw [if_pos hk]
      simp only [List.length_cons]
      omega

theorem GoMap.set_length_of_get_none (m : List (NodeID × Element)) (k : NodeID) (v : Element)
    (h : GoMap.get m k = none) : (GoMap.set m k v).length = m.length + 1 := by
  simp [GoMap.set, GoMap.delete_of_get_none m k h]

/-! ## Buckets keep their invariant -/

theorem Bucket.WF.mono {b : Bucket} {n n' : Nat} (h : b.WF n) (hn : n ≤ n') : b.WF n' :=
  { h with fresh := fun e he => Nat.lt_of_lt_of_le (h.fresh e he) hn }

/-- Two cells of the queue with the same identifier are the same cell. -/
theorem Bucket.WF.eq_of_ID_eq {b : Bucket} {n : Nat} (h : b.WF n) {e e' : Element}
    (he : e ∈ b.Queue) (he' : e' ∈ b.Queue) (hid : e.Value.ID = e'.Value.ID) : e = e' := by
  have h1 := h.inMap e he
  have h2 := h.inMap e' he'
  rw [hid, h2] at h1
  exact (Option.some.inj h1).symm

theorem Bucket.WF.moveToBack {b : Bucket} {n : Nat} (h : b.WF n) (e : Element) :
    Bucket.WF { b with Queue := Queue.MoveToBack b.Queue e } n where
  inMap := fun x hx => h.inMap x (Queue.mem_MoveToBack _ _ _ hx)
  ptrNodup := Queue.MoveToBack_ptrs_nodup _ _ h.ptrNodup
  fresh := fun x hx => h.fresh x (Queue.mem_MoveToBack _ _ _ hx)
  size := Nat.le_trans (Queue.MoveToBack_length_le _ _) h.size
  sizeLe := Nat.le_trans (Queue.MoveToBack_length_le _ _) h.sizeLe
  keysNodup := h.keysNodup

theorem Element.withAddress_ptr (e : Element) (addr : UDPAddr) (x : Element) :
    (e.withAddress addr x).ptr = x.ptr := by
  unfold Element.withAddress; split <;> rfl

theorem Element.withAddress_ID (e : Element) (addr : UDPAddr) (x : Element) :
    (e.withAddress addr x).Value.ID = x.Value.ID := by
  unfold Element.withAddress; split <;> rfl

theorem GoMap.get_map (m : List (NodeID × Element)) (f : Element → Element) (k : NodeID) :
    GoMap.get (m.map fun kv => (kv.1, f kv.2)) k = (GoMap.get m k).map f := by
  induction m with
  | nil => rfl
  | cons kv m ih =>
    simp only [GoMap.get] at ih ⊢
    by_cases h : kv.1 = k
    · simp [List.find?_cons, h]
    · simpa [List.find?_cons, h] using ih

theorem Bucket.WF.setAddress {b : Bucket} {n : Nat} (h : b.WF n) (e : Element)
    (addr : UDPAddr) : (b.setAddress e addr).WF n where
  inMap := by
    intro x hx
    obtain ⟨y, hy, rfl⟩ := List.mem_map.1 hx
    show GoMap.get (b.Map.map fun kv => (kv.1, e.withAddress addr kv.2)) _ = _
    rw [GoMap.get_map, Element.withAddress_ID, h.inMap y hy]
    rfl
  ptrNodup := by
    show ((b.Queue.map (e.withAddress addr)).map Element.ptr).Nodup
    rw [List.map_map]
    have : (Element.ptr ∘ e.withAddress addr) = Element.ptr := by
      funext x; exact Element.withAddress_ptr e addr x
    rw [this]; exact h.ptrNodup
  fresh := by
    intro x hx
    obtain ⟨y, hy, rfl⟩ := List.mem_map.1 hx
    rw [Element.withAddress_ptr]; exact h.fresh y hy
  size := by
    show (b.Queue.map (e.withAddress addr)).length ≤ K
    rw [List.length_map]; exact h.size
  sizeLe := by
    show (b.Queue.map (e.withAddress addr)).length
      ≤ (b.Map.map fun kv => (kv.1, e.withAddress addr kv.2)).length
    rw [List.length_map, List.length_map]; exact h.sizeLe
  keysNodup := by
    show ((b.Map.map fun kv => (kv.1, e.withAddress addr kv.2)).map Prod.fst).Nodup
    rw [List.map_map]
    exact h.keysNodup

theorem Bucket.WF.push {b : Bucket} {n : Nat} (h : b.WF n) (node : Node)
    (hget : GoMap.get b.Map node.ID = none) (hlen : b.Map.length < K) :
    Bucket.WF { b with
      Queue := Queue.PushBack b.Queue ⟨n, node⟩
      Map := GoMap.set b.Map node.ID ⟨n, node⟩ } (n + 1) where
  inMap := by
    intro x hx
    show GoMap.get (GoMap.set b.Map node.ID ⟨n, node⟩) x.Value.ID = some x
    rw [GoMap.get_set]
    rcases (Queue.mem_PushBack _ _ _).1 hx with hx | hx
    · have := h.inMap x hx
      have hne : x.Value.ID ≠ node.ID := by
        intro heq; rw [heq, hget] at this; exact absurd this (by simp)
      rw [if_neg hne, this]
    · subst hx; simp
  ptrNodup := by
    apply Queue.PushBack_ptrs_nodup _ _ h.ptrNodup
    intro x hx
    exact Nat.ne_of_lt (h.fresh x hx)
  fresh := by
    intro x hx
    rcases (Queue.mem_PushBack _ _ _).1 hx with hx | hx
    · exact Nat.lt_succ_of_lt (h.fresh x hx)
    · subst hx; exact Nat.lt_succ_self _
  size := by
    show (Queue.PushBack b.Queue _).length ≤ K
    rw [Queue.PushBack_length]
    have := h.sizeLe
    omega
  sizeLe := by
    show (Queue.PushBack b.Queue _).length ≤ (GoMap.set b.Map node.ID _).length
    rw [Queue.PushBack_length, GoMap.set_length_of_get_none _ _ _ hget]
    have := h.sizeLe
    omega
  keysNodup := GoMap.set_keys_nodup _ _ _ h.keysNodup

theorem Bucket.WF.replace {b : Bucket} {n : Nat} (h : b.WF n) (node : Node) (old : Element)
    (hget : GoMap.get b.Map node.ID = none) (hold : old ∈ b.Queue) :
    Bucket.WF { b with
      Queue := Queue.PushBack (Queue.Remove b.Queue old) ⟨n, node⟩
      Map := GoMap.set b.Map node.ID ⟨n, node⟩ } (n + 1) where
  inMap := by
    intro x hx
    show GoMap.get (GoMap.set b.Map node.ID ⟨n, node⟩) x.Value.ID = some x
    rw [GoMap.get_set]
    rcases (Queue.mem_PushBack _ _ _).1 hx with hx | hx
    · have := h.inMap x ((Queue.mem_Remove _ _ _).1 hx).1
      have hne : x.Value.ID ≠ node.ID := by
        intro heq; rw [heq, hget] at this; exact absurd this (by simp)
      rw [if_neg hne, this]
    · subst hx; simp
  ptrNodup := by
    apply Queue.PushBack_ptrs_nodup _ _ (Queue.Remove_ptrs_nodup _ _ h.ptrNodup)
    intro x hx
    exact Nat.ne_of_lt (h.fresh x ((Queue.mem_Remove _ _ _).1 hx).1)
  fresh := by
    intro x hx
    rcases (Queue.mem_PushBack _ _ _).1 hx with hx | hx
    · exact Nat.lt_succ_of_lt (h.fresh x ((Queue.mem_Remove _ _ _).1 hx).1)
    · subst hx; exact Nat.lt_succ_self _
  size := by
    show (Queue.PushBack (Queue.Remove b.Queue old) _).length ≤ K
    rw [Queue.PushBack_length]
    have := Queue.Remove_length_lt b.Queue old old hold rfl
    have := h.size
    omega
  sizeLe := by
    show (Queue.PushBack (Queue.Remove b.Queue old) _).length
      ≤ (GoMap.set b.Map node.ID _).length
    rw [Queue.PushBack_length, GoMap.set_length_of_get_none _ _ _ hget]
    have := Queue.Remove_length_lt b.Queue old old hold rfl
    have := h.sizeLe
    omega
  keysNodup := GoMap.set_keys_nodup _ _ _ h.keysNodup

theorem Bucket.WF.remove {b : Bucket} {n : Nat} (h : b.WF n) (p : Element)
    (hp : p ∈ b.Queue) :
    Bucket.WF { b with
      Queue := Queue.Remove b.Queue p
      Map := GoMap.delete b.Map p.Value.ID } n where
  inMap := by
    intro x hx
    show GoMap.get (GoMap.delete b.Map p.Value.ID) x.Value.ID = some x
    obtain ⟨hxq, hxp⟩ := (Queue.mem_Remove _ _ _).1 hx
    rw [GoMap.get_delete]
    have hne : x.Value.ID ≠ p.Value.ID := by
      intro heq
      have := h.eq_of_ID_eq hxq hp heq
      exact hxp (by rw [this])
    rw [if_neg hne]
    exact h.inMap x hxq
  ptrNodup := Queue.Remove_ptrs_nodup _ _ h.ptrNodup
  fresh := fun x hx => h.fresh x ((Queue.mem_Remove _ _ _).1 hx).1
  size := Nat.le_trans (Queue.Remove_length_le _ _) h.size
  sizeLe := by
    show (Queue.Remove b.Queue p).length ≤ (GoMap.delete b.Map p.Value.ID).length
    have := Queue.Remove_length_lt b.Queue p p hp rfl
    have := GoMap.length_le_delete_succ b.Map p.Value.ID h.keysNodup
    have := h.sizeLe
    omega
  keysNodup := GoMap.delete_keys_nodup _ _ h.keysNodup

/-! ## Slots of the table -/

theorem BucketTree.bucket_some_range {t : BucketTree} {i : Int} {b : Bucket}
    (h : t.bucket i = some b) : 0 ≤ i ∧ i < t.Buckets.length := by
  unfold BucketTree.bucket at h
  split at h
  · simp at h
  · rename_i hi
    refine ⟨by omega, ?_⟩
    by_contra hcon
    have : t.Buckets.length ≤ i.toNat := by omega
    rw [List.getD_eq_getElem?_getD, List.getElem?_eq_none this] at h
    simp at h

theorem BucketTree.bucket_setBucket (t : BucketTree) (i j : Int) (b : Bucket) (h0 : 0 ≤ i)
    (h1 : i < t.Buckets.length) :
    (t.setBucket i b).bucket j = if j = i then some b else t.bucket j := by
  unfold BucketTree.bucket BucketTree.setBucket
  by_cases hj : j < 0
  · have : j ≠ i := by omega
    simp [hj, this]
  · simp only [hj, if_false]
    by_cases hji : j = i
    · subst hji
      simp only [if_true, List.getD_eq_getElem?_getD]
      rw [List.getElem?_set_self (by omega)]
      rfl
    · simp only [hji, if_false, List.getD_eq_getElem?_getD]
      rw [List.getElem?_set_ne (by omega)]

theorem BucketTree.setBucket_length (t : BucketTree) (i : Int) (b : Bucket) :
    (t.setBucket i b).Buckets.length = t.Buckets.length := by
  simp [BucketTree.setBucket]

theorem BucketTree.bucket_congr {t t' : BucketTree} (h : t'.Buckets = t.Buckets) (i : Int) :
    t'.bucket i = t.bucket i := by
  simp [BucketTree.bucket, h]

/-! ## Common prefix length of identifiers -/

theorem CommonPrefixLength_comm (a b : List Byte) :
    CommonPrefixLength a b = CommonPrefixLength b a := by
  unfold CommonPrefixLength
  by_cases h : a.length = b.length
  · simp [h, loop_comm a b]
  · have h' : ¬ b.length = a.length := fun h' => h h'.symm
    simp [h, h']

theorem CommonPrefixLength_NodeID (a b : NodeID) :
    0 ≤ CommonPrefixLength a.val b.val ∧
      CommonPrefixLength a.val b.val ≤ NodeIDLength * 8 := by
  have hl : a.val.length = b.val.length := by rw [a.property, b.property]
  obtain ⟨h1, -⟩ := loop_spec a.val b.val hl
  rw [a.property] at h1
  simp only [CommonPrefixLength, hl, ne_eq, not_true_eq_false, if_false]
  simp only [NodeIDLength] at h1 ⊢
  omega

theorem BucketTree.cpl_range (t : BucketTree) (id : NodeID) :
    0 ≤ t.cpl id ∧ t.cpl id ≤ NodeIDLength * 8 :=
  CommonPrefixLength_NodeID _ _

theorem BucketTree.cpl_eq (t : BucketTree) (id : NodeID) :
    CommonPrefixLength id.val t.Self.ID.val = t.cpl id :=
  CommonPrefixLength_comm _ _

/-- A peer is well placed in the slot that `Add`, `Get`, `GetK` and `Update` compute for
its identifier. -/
theorem BucketTree.placed_of_slot (t : BucketTree) (id : NodeID) (slot : Int)
    (h : slot = Min (CommonPrefixLength id.val t.Self.ID.val) t.MaxIndex) :
    (slot < t.MaxIndex → t.cpl id = slot) ∧ (slot = t.MaxIndex → t.MaxIndex ≤ t.cpl id) := by
  rw [t.cpl_eq] at h
  unfold Min at h
  split at h <;> constructor <;> intros <;> omega

/-! ## Steps that change one bucket -/

theorem BucketTree.Core.coreStep {t t' : BucketTree} {slot : Int} {id : NodeID}
    (h : t.Core) (s : t.LocalStep slot id t') : t'.Core := by
  obtain ⟨b, b', hb, hb', hidx, hwf, -, -⟩ := s.here
  have bucket' : ∀ j : Int, t'.bucket j = if j = slot then some b' else t.bucket j := by
    intro j
    by_cases hj : j = slot
    · subst hj; simp [hb']
    · simp [hj, s.other j hj]
  refine ⟨by rw [s.len]; exact h.len, by rw [s.max]; exact h.lo, by rw [s.max]; exact h.hi,
    ?_, ?_, ?_, ?_⟩
  · intro i h0 h1
    rw [s.max] at h1
    rw [bucket']
    by_cases hi : i = slot
    · exact ⟨b', by simp [hi]⟩
    · simpa [hi] using h.mat i h0 h1
  · intro i c hc
    rw [bucket'] at hc
    by_cases hi : i = slot
    · subst hi
      simp only [if_true, Option.some.injEq] at hc
      subst hc
      rw [hidx]; exact h.index _ _ hb
    · simp only [hi, if_false] at hc
      exact h.index i c hc
  · intro i hi
    rw [s.max] at hi
    rw [bucket']
    have hne : i ≠ slot := by
      intro heq; subst heq
      have := h.absent i hi
      rw [hb] at this; simp at this
    simpa [hne] using h.absent i hi
  · intro i c hc
    rw [bucket'] at hc
    by_cases hi : i = slot
    · simp only [hi, if_true, Option.some.injEq] at hc
      subst hc; exact hwf
    · simp only [hi, if_false] at hc
      exact (h.wf i c hc).mono s.next

theorem BucketTree.Placed.placedStep {t t' : BucketTree} {slot : Int} {id : NodeID}
    {rest : List Element} (h : t.Placed rest) (s : t.LocalStep slot id t')
    (hid : (slot < t.MaxIndex → t.cpl id = slot) ∧ (slot = t.MaxIndex → t.MaxIndex ≤ t.cpl id)) :
    t'.Placed rest := by
  obtain ⟨b, b', hb, hb', -, -, -, hsrc⟩ := s.here
  have hcpl : ∀ x, t'.cpl x = t.cpl x := by
    intro x; simp [BucketTree.cpl, s.self]
  intro i c hc e he
  rw [s.max, hcpl]
  by_cases hi : i = slot
  · subst hi
    rw [hb'] at hc
    simp only [Option.some.injEq] at hc
    subst hc
    rcases hsrc e he with hnew | ⟨e0, he0, hid0⟩
    · rw [hnew]
      exact ⟨fun hlt => Or.inl (hid.1 hlt), hid.2⟩
    · have := h i b hb e0 he0
      rw [hid0] at this
      exact this
  · rw [s.other i hi] at hc
    exact h i c hc e he

theorem BucketTree.localStep_setBucket (t : BucketTree) (slot : Int) (id : NodeID)
    (b b' : Bucket) (n' : Nat) (hb : t.bucket slot = some b) (hn : t.nextPtr ≤ n')
    (hidx : b'.Index = b.Index) (hwf : b'.WF n') (hlen : b'.Map.length ≤ b.Map.length + 1)
    (hsrc : ∀ e ∈ b'.Queue, e.Value.ID = id ∨ ∃ e0 ∈ b.Queue, e0.Value.ID = e.Value.ID) :
    t.LocalStep slot id ({ t with nextPtr := n' }.setBucket slot b') := by
  obtain ⟨h0, h1⟩ := BucketTree.bucket_some_range hb
  have hbk : ∀ j : Int, ({ t with nextPtr := n' }.setBucket slot b').bucket j
      = if j = slot then some b' else t.bucket j := by
    intro j
    have := BucketTree.bucket_setBucket { t with nextPtr := n' } slot j b' h0 h1
    rw [this]
    rfl
  refine ⟨rfl, rfl, hn, by simp [BucketTree.setBucket], ?_, b, b', hb, ?_, hidx, hwf, hlen,
    hsrc⟩
  · intro j hj
    rw [hbk]; simp [hj]
  · rw [hbk]; simp

/-- Every path of `add` but the split changes only the bucket it was called on. -/
theorem Bucket.add_localStep (ping : Node → Bool) (depth : Nat) (t t' : BucketTree)
    (slot : Int) (node : Node) (b : Bucket) (hb : t.bucket slot = some b)
    (hwf : b.WF t.nextPtr)
    (hns : GoMap.get b.Map node.ID ≠ none ∨ b.Map.length < K ∨
      ¬ (b.Index = t.MaxIndex ∧ b.Index < NodeIDLength * 8 - 1))
    (h : Bucket.add ping depth t slot node = some t') : t.LocalStep slot node.ID t' := by
  cases depth with
  | zero => simp [Bucket.add] at h
  | succ d =>
    simp only [Bucket.add, hb] at h
    cases hget : GoMap.get b.Map node.ID with
    | some e =>
      simp only [hget, Option.some.injEq] at h
      subst h
      by_cases haddr : e.Value.Address.String ≠ node.Address.String
      · rw [if_pos haddr]
        refine BucketTree.localStep_setBucket t slot node.ID b _ t.nextPtr hb (Nat.le_refl _)
          (by rfl) ((hwf.setAddress e node.Address).moveToBack e) ?_ ?_
        · show (b.Map.map _).length ≤ _
          rw [List.length_map]; omega
        · intro x hx
          have hx' := Queue.mem_MoveToBack _ _ _ hx
          obtain ⟨y, hy, rfl⟩ := List.mem_map.1 hx'
          exact Or.inr ⟨y, hy, (Element.withAddress_ID e node.Address y).symm⟩
      · rw [if_neg haddr]
        refine BucketTree.localStep_setBucket t slot node.ID b _ t.nextPtr hb (Nat.le_refl _)
          (by rfl) (hwf.moveToBack e) (Nat.le_succ _) ?_
        intro x hx
        exact Or.inr ⟨x, Queue.mem_MoveToBack _ _ _ hx, rfl⟩
    | none =>
      simp only [hget] at h
      by_cases hlen : b.Map.length < K
      · simp only [hlen, if_true, Option.some.injEq] at h
        subst h
        refine BucketTree.localStep_setBucket t slot node.ID b _ (t.nextPtr + 1) hb
          (Nat.le_succ _) (by rfl) (hwf.push node hget hlen) ?_ ?_
        · show (GoMap.set b.Map node.ID _).length ≤ _
          rw [GoMap.set_length_of_get_none _ _ _ hget]
        · intro x hx
          rcases (Queue.mem_PushBack _ _ _).1 hx with hx | hx
          · exact Or.inr ⟨x, hx, rfl⟩
          · subst hx; exact Or.inl rfl
      · have hsplit : ¬ (b.Index = t.MaxIndex ∧ b.Index < NodeIDLength * 8 - 1) := by
          rcases hns with h1 | h1 | h1
          · exact absurd hget h1
          · exact absurd h1 hlen
          · exact h1
        simp only [hlen, if_false, hsplit] at h
        cases hq : b.Queue with
        | nil => simp [hq] at h
        | cons old rest =>
          simp only [hq] at h
          have hold : old ∈ b.Queue := by rw [hq]; exact List.mem_cons_self _ _
          by_cases hp : ping old.Value = true
          · simp only [hp, if_true, Option.some.injEq] at h
            subst h
            rw [← hq]
            refine BucketTree.localStep_setBucket t slot node.ID b _ t.nextPtr hb (Nat.le_refl _)
              (by rfl) (hwf.moveToBack old) (Nat.le_succ _) ?_
            intro x hx
            exact Or.inr ⟨x, Queue.mem_MoveToBack _ _ _ hx, rfl⟩
          · simp only [hp, if_false, Option.some.injEq, Bool.false_eq_true] at h
            subst h
            rw [← hq]
            refine BucketTree.localStep_setBucket t slot node.ID b _ (t.nextPtr + 1) hb
              (Nat.le_succ _) (by rfl) (hwf.replace node old hget hold) ?_ ?_
            · show (GoMap.set b.Map node.ID _).length ≤ _
              rw [GoMap.set_length_of_get_none _ _ _ hget]
            · intro x hx
              rcases (Queue.mem_PushBack _ _ _).1 hx with hx | hx
              · exact Or.inr ⟨x, ((Queue.mem_Remove _ _ _).1 hx).1, rfl⟩
              · subst hx; exact Or.inl rfl

theorem BucketTree.Update_localStep (t t' : BucketTree) (id : NodeID) (ok : Bool)
    (hc : t.Core) (h : t.Update id = some (ok, t')) :
    t.LocalStep (Min (CommonPrefixLength id.val t.Self.ID.val) t.MaxIndex) id t' := by
  unfold BucketTree.Update at h
  simp only at h
  cases hb : t.bucket (Min (CommonPrefixLength id.val t.Self.ID.val) t.MaxIndex) with
  | none => simp [hb] at h
  | some b =>
    simp only [hb, Option.some.injEq, Prod.mk.injEq] at h
    obtain ⟨-, rfl⟩ := h
    have hwf := hc.wf _ _ hb
    unfold Bucket.update
    cases hget : GoMap.get b.Map id with
    | none =>
      refine BucketTree.localStep_setBucket t _ id b _ t.nextPtr hb (Nat.le_refl _) (by rfl) hwf
        (Nat.le_succ _) ?_
      intro x hx
      exact Or.inr ⟨x, hx, rfl⟩
    | some e =>
      refine BucketTree.localStep_setBucket t _ id b _ t.nextPtr hb (Nat.le_refl _) (by rfl)
        (hwf.moveToBack e) (Nat.le_succ _) ?_
      intro x hx
      exact Or.inr ⟨x, Queue.mem_MoveToBack _ _ _ hx, rfl⟩

/-! ## Lengths of the queue and of the map -/

theorem Queue.Remove_length_of_mem (l : List Element) (p : Element)
    (hn : (l.map Element.ptr).Nodup) (hp : p ∈ l) :
    (Queue.Remove l p).length + 1 = l.length := by
  induction l with
  | nil => simp at hp
  | cons y l ih =>
    simp only [List.map_cons, List.nodup_cons] at hn
    have hcons : Queue.Remove (y :: l) p
        = if y.ptr ≠ p.ptr then y :: Queue.Remove l p else Queue.Remove l p := by
      simp only [Queue.Remove, List.filter_cons]
      by_cases hk : y.ptr = p.ptr <;> simp [hk]
    rw [hcons]
    by_cases hy : y.ptr = p.ptr
    · rw [if_neg (by simpa using hy)]
      have : Queue.Remove l p = l := by
        simp only [Queue.Remove, List.filter_eq_self]
        intro x hx
        simp only [ne_eq, decide_not, Bool.not_eq_true', decide_eq_false_iff_not]
        intro hxp
        exact hn.1 (by rw [hy, ← hxp]; exact List.mem_map_of_mem _ hx)
      rw [this]; simp
    · rw [if_pos hy]
      have hpl : p ∈ l := by
        rcases List.mem_cons.1 hp with h | h
        · subst h; exact absurd rfl hy
        · exact h
      simp only [List.length_cons]
      have := ih hn.2 hpl
      omega

theorem Queue.MoveToBack_length (l : List Element) (e : Element)
    (hn : (l.map Element.ptr).Nodup) : (Queue.MoveToBack l e).length = l.length := by
  unfold Queue.MoveToBack
  split
  · rfl
  · rename_i y hy
    have hp : y.ptr = e.ptr := by simpa using List.find?_some hy
    have hy' : y ∈ l := List.mem_of_find?_eq_some hy
    rw [Queue.PushBack_length]
    have hre : Queue.Remove l e = Queue.Remove l y := by
      simp [Queue.Remove, hp]
    rw [hre]
    exact Queue.Remove_length_of_mem l y hn hy'

theorem GoMap.delete_length_of_get_some (m : List (NodeID × Element)) (k : NodeID)
    (v : Element) (hn : (m.map Prod.fst).Nodup) (hg : GoMap.get m k = some v) :
    (GoMap.delete m k).length + 1 = m.length := by
  induction m with
  | nil => simp [GoMap.get] at hg
  | cons kv m ih =>
    simp only [List.map_cons, List.nodup_cons] at hn
    have hcons : GoMap.delete (kv :: m) k
        = if kv.1 ≠ k then kv :: GoMap.delete m k else GoMap.delete m k := by
      simp only [GoMap.delete, List.filter_cons]
      by_cases hk : kv.1 = k <;> simp [hk]
    rw [hcons]
    by_cases hk : kv.1 = k
    · have hnone : GoMap.get m k = none := by
        rw [GoMap.get_none_iff, ← hk]; exact hn.1
      rw [if_neg (by simpa using hk), GoMap.delete_of_get_none m k hnone]
      simp
    · rw [if_pos hk]
      have hg' : GoMap.get m k = some v := by
        simpa [GoMap.get, List.find?_cons, hk] using hg
      have := ih hn.2 hg'
      simp only [List.length_cons]
      omega

/-! ## `add` returns -/

theorem BucketTree.bucket_setBucket_self (t : BucketTree) (slot : Int) (b b' : Bucket) (n' : Nat)
    (hb : t.bucket slot = some b) :
    ({ t with nextPtr := n' }.setBucket slot b').bucket slot = some b' := by
  obtain ⟨h0, h1⟩ := BucketTree.bucket_some_range hb
  have := BucketTree.bucket_setBucket { t with nextPtr := n' } slot slot b' h0 h1
  rw [this]; simp

/-- Every path of `add` but the split returns, and leaves the bucket tidy. -/
theorem Bucket.add_local_tidy (ping : Node → Bool) (d : Nat) (t : BucketTree)
    (slot : Int) (node : Node) (b : Bucket) (hb : t.bucket slot = some b)
    (hwf : b.WF t.nextPtr) (hidx : b.Index = slot)
    (htidy : b.Map.length = b.Queue.length ∨
      (b.Queue.length = K ∧ ¬ (slot = t.MaxIndex ∧ slot < NodeIDLength * 8 - 1)))
    (hns : GoMap.get b.Map node.ID ≠ none ∨ b.Map.length < K ∨
      ¬ (b.Index = t.MaxIndex ∧ b.Index < NodeIDLength * 8 - 1)) :
    ∃ t' b', Bucket.add ping (d + 1) t slot node = some t' ∧ t'.bucket slot = some b' ∧
      (b'.Map.length = b'.Queue.length ∨
        (b'.Queue.length = K ∧ ¬ (slot = t.MaxIndex ∧ slot < NodeIDLength * 8 - 1))) ∧
      (b.Map.length = b.Queue.length →
        (GoMap.get b.Map node.ID ≠ none ∨ b.Map.length < K) →
        b'.Map.length = b'.Queue.length) := by
  have hsz := hwf.size
  have hle := hwf.sizeLe
  simp only [Bucket.add, hb]
  cases hget : GoMap.get b.Map node.ID with
  | some e =>
    simp only []
    by_cases haddr : e.Value.Address.String ≠ node.Address.String
    · rw [if_pos haddr]
      have h1 : (Queue.MoveToBack (b.setAddress e node.Address).Queue e).length
          = b.Queue.length := by
        rw [Queue.MoveToBack_length _ _ (hwf.setAddress e node.Address).ptrNodup]
        simp [Bucket.setAddress]
      have h2 : (b.setAddress e node.Address).Map.length = b.Map.length := by
        simp [Bucket.setAddress]
      refine ⟨_, _, rfl, BucketTree.bucket_setBucket_self t slot b _ t.nextPtr hb, ?_, ?_⟩
      · show (b.setAddress e node.Address).Map.length
            = (Queue.MoveToBack (b.setAddress e node.Address).Queue e).length ∨
          ((Queue.MoveToBack (b.setAddress e node.Address).Queue e).length = K ∧ _)
        rw [h1, h2]; exact htidy
      · intro heq _
        show (b.setAddress e node.Address).Map.length
            = (Queue.MoveToBack (b.setAddress e node.Address).Queue e).length
        rw [h1, h2]; exact heq
    · rw [if_neg haddr]
      refine ⟨_, _, rfl, BucketTree.bucket_setBucket_self t slot b _ t.nextPtr hb, ?_, ?_⟩
      · show b.Map.length = (Queue.MoveToBack b.Queue e).length ∨
          ((Queue.MoveToBack b.Queue e).length = K ∧ _)
        rw [Queue.MoveToBack_length _ _ hwf.ptrNodup]; exact htidy
      · intro heq _
        show b.Map.length = (Queue.MoveToBack b.Queue e).length
        rw [Queue.MoveToBack_length _ _ hwf.ptrNodup]; exact heq
  | none =>
    simp only []
    by_cases hlen : b.Map.length < K
    · rw [if_pos hlen]
      have heq : (GoMap.set b.Map node.ID ⟨t.nextPtr, node⟩).length
          = (Queue.PushBack b.Queue ⟨t.nextPtr, node⟩).length := by
        rw [GoMap.set_length_of_get_none _ _ _ hget, Queue.PushBack_length]
        rcases htidy with h | ⟨h, -⟩ <;> omega
      exact ⟨_, _, rfl, BucketTree.bucket_setBucket_self t slot b _ (t.nextPtr + 1) hb,
        Or.inl heq, fun _ _ => heq⟩
    · have hsplit : ¬ (b.Index = t.MaxIndex ∧ b.Index < NodeIDLength * 8 - 1) := by
        rcases hns with h1 | h1 | h1
        · exact absurd hget h1
        · exact absurd h1 hlen
        · exact h1
      rw [if_neg hlen, if_neg hsplit]
      have hqK : b.Queue.length = K := by
        rcases htidy with h | ⟨h, -⟩ <;> omega
      cases hq : b.Queue with
      | nil => rw [hq] at hqK; simp [K] at hqK
      | cons old rest =>
        simp only []
        have hold : old ∈ b.Queue := by rw [hq]; exact List.mem_cons_self _ _
        rw [← hq]
        rw [hidx] at hsplit
        by_cases hp : ping old.Value = true
        · rw [if_pos hp]
          refine ⟨_, _, rfl, BucketTree.bucket_setBucket_self t slot b _ t.nextPtr hb, ?_, ?_⟩
          · show b.Map.length = (Queue.MoveToBack b.Queue old).length ∨
              ((Queue.MoveToBack b.Queue old).length = K ∧ _)
            rw [Queue.MoveToBack_length _ _ hwf.ptrNodup]; exact htidy
          · intro _ hcon
            rcases hcon with hcon | hcon
            · exact absurd rfl hcon
            · exact absurd hcon hlen
        · rw [if_neg hp]
          refine ⟨_, _, rfl, BucketTree.bucket_setBucket_self t slot b _ (t.nextPtr + 1) hb,
            Or.inr ⟨?_, hsplit⟩, ?_⟩
          · show (Queue.PushBack (Queue.Remove b.Queue old) _).length = K
            rw [Queue.PushBack_length, Queue.Remove_length_of_mem _ _ hwf.ptrNodup hold]
            exact hqK
          · intro _ hcon
            rcases hcon with hcon | hcon
            · exact absurd rfl hcon
            · exact absurd hcon hlen

/-- A local step keeps the table tidy when it leaves its bucket tidy. -/
theorem BucketTree.Tidy.tidyStep {t t' : BucketTree} {slot : Int} {id : NodeID}
    (h : t.Tidy) (s : t.LocalStep slot id t')
    (hb : ∀ b', t'.bucket slot = some b' → b'.Map.length = b'.Queue.length ∨
      (b'.Queue.length = K ∧ ¬ (slot = t.MaxIndex ∧ slot < NodeIDLength * 8 - 1))) :
    t'.Tidy := by
  intro i c hc
  rw [s.max]
  by_cases hi : i = slot
  · subst hi; exact hb c hc
  · rw [s.other i hi] at hc
    exact h i c hc

/-! ## The split -/

/-- Taking the cell `p` out of the bucket in `slot` is a local step. -/
theorem BucketTree.remove_localStep (t : BucketTree) (slot : Int) (b : Bucket) (p : Element)
    (hb : t.bucket slot = some b) (hwf : b.WF t.nextPtr) (hp : p ∈ b.Queue) :
    t.LocalStep slot p.Value.ID
      (t.setBucket slot { b with
        Queue := Queue.Remove b.Queue p
        Map := GoMap.delete b.Map p.Value.ID }) := by
  refine BucketTree.localStep_setBucket t slot p.Value.ID b _ t.nextPtr hb (Nat.le_refl _)
    (by rfl) (hwf.remove p hp) ?_ ?_
  · exact Nat.le_trans (GoMap.delete_length_le _ _) (Nat.le_succ _)
  · intro x hx
    exact Or.inr ⟨x, ((Queue.mem_Remove _ _ _).1 hx).1, rfl⟩

/-- One round of the transfer loop for a peer that stays in its bucket. -/
theorem BucketTree.Splitting.stay {t : BucketTree} {m : Int} {p : Element}
    {rest : List Element} (s : t.Splitting m (p :: rest)) (hcpl : t.cpl p.Value.ID = m) :
    t.Splitting m rest := by
  have hnd := s.nodup
  simp only [List.map_cons, List.nodup_cons] at hnd
  refine ⟨s.core, ?_, s.tidy, s.max, ?_, hnd.2, ?_, s.eqOld, s.eqNew⟩
  · intro i c hci e he
    obtain ⟨h1, h2⟩ := s.placed i c hci e he
    refine ⟨fun hlt => ?_, h2⟩
    rcases h1 hlt with h1 | ⟨h1, h3, q, hq, hqid⟩
    · exact Or.inl h1
    · rcases List.mem_cons.1 hq with hq | hq
      · subst hq
        left
        have := s.max
        rw [← hqid, hcpl]; omega
      · exact Or.inr ⟨h1, h3, q, hq, hqid⟩
  · intro b1 hb1 q hq
    exact s.sub b1 hb1 q (List.mem_cons_of_mem _ hq)
  · intro nb hnb
    have := s.count nb hnb
    simp only [List.length_cons] at this
    omega

/-- One round of the transfer loop for a peer that moves to the next bucket: the call of
`add` on the next bucket returns. -/
theorem BucketTree.Splitting.move (ping : Node → Bool) (d : Nat) {t : BucketTree} {m : Int}
    {p : Element} {rest : List Element} (s : t.Splitting m (p :: rest)) (hm : 0 ≤ m)
    (hcpl : t.cpl p.Value.ID ≠ m) (b : Bucket) (hb : t.bucket m = some b) :
    ∃ t1, Bucket.add ping (d + 1) (t.setBucket m { b with
        Queue := Queue.Remove b.Queue p
        Map := GoMap.delete b.Map p.Value.ID }) (m + 1) p.Value = some t1 ∧
      t1.Splitting m rest ∧ t1.Self = t.Self := by
  have hc := s.core
  have hp := s.placed
  have hmax := s.max
  have hpq : p ∈ b.Queue := s.sub b hb p (List.mem_cons_self _ _)
  have hwf := hc.wf m b hb
  have hnd := s.nodup
  simp only [List.map_cons, List.nodup_cons] at hnd
  have hrest_ptr : ∀ q ∈ rest, q.ptr ≠ p.ptr := by
    intro q hq heq
    exact hnd.1 (heq ▸ List.mem_map_of_mem _ hq)
  obtain ⟨tb, htb⟩ : ∃ tb, tb = t.setBucket m { b with
      Queue := Queue.Remove b.Queue p
      Map := GoMap.delete b.Map p.Value.ID } := ⟨_, rfl⟩
  rw [← htb]
  have hls : t.LocalStep m p.Value.ID tb := htb ▸ BucketTree.remove_localStep t m b p hb hwf hpq
  have hbm : tb.bucket m = some { b with
      Queue := Queue.Remove b.Queue p
      Map := GoMap.delete b.Map p.Value.ID } :=
    htb ▸ BucketTree.bucket_setBucket_self t m b _ t.nextPtr hb
  have hlen_rm : (GoMap.delete b.Map p.Value.ID).length = (Queue.Remove b.Queue p).length := by
    have h1 := Queue.Remove_length_of_mem b.Queue p hwf.ptrNodup hpq
    have h2 := GoMap.delete_length_of_get_some b.Map p.Value.ID p hwf.keysNodup
      (hwf.inMap p hpq)
    have h3 := s.eqOld b hb
    omega
  have hcb : tb.Core := hc.coreStep hls
  have hcplb : ∀ x, tb.cpl x = t.cpl x := by
    intro x; simp [BucketTree.cpl, hls.self]
  have hpb : tb.Placed rest := by
    intro i c hci e he
    rw [hls.max, hcplb]
    by_cases hi : i = m
    · subst hi
      rw [hbm] at hci
      simp only [Option.some.injEq] at hci
      subst hci
      obtain ⟨heq, hne⟩ := (Queue.mem_Remove _ _ _).1 he
      obtain ⟨h1, h2⟩ := hp i b hb e heq
      refine ⟨fun hlt => ?_, h2⟩
      rcases h1 hlt with h1 | ⟨h1, h3, q, hq, hqid⟩
      · exact Or.inl h1
      · rcases List.mem_cons.1 hq with hq | hq
        · subst hq
          exact absurd (congrArg Element.ptr (hwf.eq_of_ID_eq hpq heq hqid)).symm hne
        · exact Or.inr ⟨h1, h3, q, hq, hqid⟩
    · rw [hls.other i hi] at hci
      obtain ⟨h1, h2⟩ := hp i c hci e he
      refine ⟨fun hlt => ?_, h2⟩
      rcases h1 hlt with h1 | ⟨h1, -, -⟩
      · exact Or.inl h1
      · exact absurd (by omega : i = m) hi
  have htb_tidy : tb.Tidy := by
    apply s.tidy.tidyStep hls
    intro b' hb'
    rw [hbm] at hb'
    simp only [Option.some.injEq] at hb'
    subst hb'
    exact Or.inl hlen_rm
  obtain ⟨nb, hnb⟩ := hc.mat (m + 1) (by omega) (by omega)
  have hnb' : tb.bucket (m + 1) = some nb := by
    rw [hls.other _ (by omega)]; exact hnb
  have hnbK := s.count nb hnb
  simp only [List.length_cons] at hnbK
  have hnbeq := s.eqNew nb hnb
  obtain ⟨t1, nb1, hadd, hnb1, htidy1, heq1⟩ := Bucket.add_local_tidy ping d tb (m + 1)
    p.Value nb hnb' (hcb.wf _ _ hnb') (hcb.index _ _ hnb') (Or.inl hnbeq)
    (Or.inr (Or.inl (by omega)))
  have hls1 := Bucket.add_localStep ping (d + 1) tb t1 (m + 1) p.Value nb hnb'
    (hcb.wf _ _ hnb') (Or.inr (Or.inl (by omega))) hadd
  have hbm1 : t1.bucket m = some { b with
      Queue := Queue.Remove b.Queue p
      Map := GoMap.delete b.Map p.Value.ID } := by
    rw [hls1.other m (by omega)]; exact hbm
  refine ⟨t1, hadd, ⟨hcb.coreStep hls1, ?_, ?_, by rw [hls1.max, hls.max]; exact hmax, ?_,
    hnd.2, ?_, ?_, ?_⟩, by rw [hls1.self, hls.self]⟩
  · apply hpb.placedStep hls1
    rw [hls.max, hcplb]
    refine ⟨fun hlt => absurd hmax (by omega), fun _ => ?_⟩
    obtain ⟨h1, -⟩ := hp m b hb p hpq
    rcases h1 (by omega) with h1 | ⟨-, h1, -⟩
    · exact absurd h1 hcpl
    · omega
  · apply htb_tidy.tidyStep hls1
    intro b' hb'
    rw [hnb1] at hb'
    simp only [Option.some.injEq] at hb'
    subst hb'
    exact htidy1
  · intro b1 hb1 q hq
    rw [hbm1] at hb1
    simp only [Option.some.injEq] at hb1
    subst hb1
    exact (Queue.mem_Remove _ _ _).2
      ⟨s.sub b hb q (List.mem_cons_of_mem _ hq), hrest_ptr q hq⟩
  · intro nb2 hnb2
    rw [hnb1] at hnb2
    simp only [Option.some.injEq] at hnb2
    subst hnb2
    obtain ⟨c0, c1, hc0, hc1, -, -, hlen1, -⟩ := hls1.here
    rw [hnb'] at hc0
    simp only [Option.some.injEq] at hc0
    subst hc0
    rw [hnb1] at hc1
    simp only [Option.some.injEq] at hc1
    subst hc1
    omega
  · intro b1 hb1
    rw [hbm1] at hb1
    simp only [Option.some.injEq] at hb1
    subst hb1
    exact hlen_rm
  · intro nb2 hnb2
    rw [hnb1] at hnb2
    simp only [Option.some.injEq] at hnb2
    subst hnb2
    exact heq1 hnbeq (Or.inr (by omega))

/-- The transfer loop after a split returns, and when it ends every peer is in its place
again. -/
theorem Bucket.transfer_all (ping : Node → Bool) (d : Nat) (m : Int) (hm : 0 ≤ m) :
    ∀ (rest : List Element) (t : BucketTree), t.Splitting m rest →
      ∃ t2, Bucket.transfer (fun t v => Bucket.add ping (d + 1) t (m + 1) v) m m rest t
          = some t2 ∧
        t2.Core ∧ t2.Placed [] ∧ t2.Tidy ∧ t2.MaxIndex = m + 1 ∧ t2.Self = t.Self := by
  intro rest
  induction rest with
  | nil =>
    intro t s
    exact ⟨t, rfl, s.core, s.placed, s.tidy, s.max, rfl⟩
  | cons p rest ih =>
    intro t s
    obtain ⟨b, hb⟩ := s.core.mat m hm (by have := s.max; omega)
    by_cases hcpl : CommonPrefixLength t.Self.ID.val p.Value.ID.val ≠ m
    · obtain ⟨t1, hadd, s1, hself1⟩ := s.move ping d hm hcpl b hb
      obtain ⟨t2, htr, r1, r2, r3, r4, r5⟩ := ih t1 s1
      refine ⟨t2, ?_, r1, r2, r3, r4, by rw [r5, hself1]⟩
      simp only [Bucket.transfer, hcpl, ne_eq, not_false_eq_true, if_true, hb, hadd]
      exact htr
    · have hcpl' : t.cpl p.Value.ID = m := by
        simpa [BucketTree.cpl] using hcpl
      obtain ⟨t2, htr, r⟩ := ih t (s.stay hcpl')
      refine ⟨t2, ?_, r⟩
      simp only [Bucket.transfer, hcpl, if_false]
      exact htr

/-- The table right after `add` made the next bucket and raised `MaxIndex`, before the
transfer loop. -/
theorem BucketTree.Core.split {t : BucketTree} (hc : t.Core) (hp : t.Placed []) (b : Bucket)
    (hb : t.bucket t.MaxIndex = some b) (hlt : t.MaxIndex < NodeIDLength * 8 - 1) :
    BucketTree.Core (t.addBucket (t.MaxIndex + 1)
        { Index := t.MaxIndex + 1, Map := [], Queue := [] }) ∧
      BucketTree.Placed (t.addBucket (t.MaxIndex + 1)
        { Index := t.MaxIndex + 1, Map := [], Queue := [] })
        b.Queue := by
  have hlo := hc.lo
  have hlen := hc.len
  have h1 : t.MaxIndex + 1 < t.Buckets.length := by
    rw [hlen]; simp only [NodeIDLength] at hlt ⊢; omega
  have hbk : ∀ j : Int, (BucketTree.bucket (t.addBucket (t.MaxIndex + 1)
        { Index := t.MaxIndex + 1, Map := [], Queue := [] }) j)
      = if j = t.MaxIndex + 1 then some { Index := t.MaxIndex + 1, Map := [], Queue := [] }
        else t.bucket j := by
    intro j
    have := BucketTree.bucket_setBucket t (t.MaxIndex + 1) j
      { Index := t.MaxIndex + 1, Map := [], Queue := [] } (by omega) h1
    rw [← this]
    rfl
  constructor
  · refine ⟨by simpa [BucketTree.addBucket, BucketTree.setBucket] using hlen,
      by show 0 ≤ t.MaxIndex + 1; omega, ?_,
      ?_, ?_, ?_, ?_⟩
    · show t.MaxIndex + 1 < NodeIDLength * 8
      omega
    · intro i h0 hi
      rw [hbk]
      by_cases hi' : i = t.MaxIndex + 1
      · exact ⟨_, if_pos hi'⟩
      · have hi2 : i ≤ t.MaxIndex := by
          have : i ≤ t.MaxIndex + 1 := hi
          omega
        simpa [hi'] using hc.mat i h0 hi2
    · intro i c hci
      rw [hbk] at hci
      by_cases hi' : i = t.MaxIndex + 1
      · simp only [hi', if_true, Option.some.injEq] at hci
        subst hci; exact hi'.symm
      · simp only [hi', if_false] at hci
        exact hc.index i c hci
    · intro i hi
      have hi2 : t.MaxIndex + 1 < i := hi
      rw [hbk]
      have : i ≠ t.MaxIndex + 1 := by omega
      simpa [this] using hc.absent i (by omega)
    · intro i c hci
      rw [hbk] at hci
      by_cases hi' : i = t.MaxIndex + 1
      · simp only [hi', if_true, Option.some.injEq] at hci
        subst hci
        exact ⟨by simp, by simp, by simp, by simp, by simp, by simp⟩
      · simp only [hi', if_false] at hci
        exact hc.wf i c hci
  · intro i c hci e he
    rw [hbk] at hci
    by_cases hi' : i = t.MaxIndex + 1
    · simp only [hi', if_true, Option.some.injEq] at hci
      subst hci
      simp at he
    · simp only [hi', if_false] at hci
      obtain ⟨p1, p2⟩ := hp i c hci e he
      have hr := BucketTree.bucket_some_range hci
      show (i < t.MaxIndex + 1 → t.cpl e.Value.ID = i ∨
        (i + 1 = t.MaxIndex + 1 ∧ i ≤ t.cpl e.Value.ID ∧ ∃ p ∈ b.Queue, p.Value.ID = e.Value.ID))
        ∧ (i = t.MaxIndex + 1 → t.MaxIndex + 1 ≤ t.cpl e.Value.ID)
      refine ⟨fun _ => ?_, fun h => absurd h hi'⟩
      by_cases hi2 : i < t.MaxIndex
      · rcases p1 hi2 with h | ⟨-, -, q, hq, -⟩
        · exact Or.inl h
        · simp at hq
      · have hmax : ¬ t.MaxIndex < i := by
          intro hgt
          have := hc.absent i hgt
          rw [hci] at this; simp at this
        have hi3 : i = t.MaxIndex := by omega
        subst hi3
        rw [hb] at hci
        simp only [Option.some.injEq] at hci
        subst hci
        exact Or.inr ⟨rfl, p2 rfl, e, he, rfl⟩

theorem BucketTree.addBucket_bucket (t : BucketTree) (hc : t.Core)
    (hlt : t.MaxIndex < NodeIDLength * 8 - 1) (nb : Bucket) (j : Int) :
    (t.addBucket (t.MaxIndex + 1) nb).bucket j
      = if j = t.MaxIndex + 1 then some nb else t.bucket j := by
  have hlo := hc.lo
  have h1 : t.MaxIndex + 1 < t.Buckets.length := by
    rw [hc.len]; simp only [NodeIDLength] at hlt ⊢; omega
  have := BucketTree.bucket_setBucket t (t.MaxIndex + 1) j nb (by omega) h1
  rw [← this]
  rfl

/-- The table right after `add` made the next bucket and raised `MaxIndex` is in the state
in which the transfer loop starts. -/
theorem BucketTree.Splitting.start {t : BucketTree} (hc : t.Core) (hp : t.Placed [])
    (ht : t.Tidy) (b : Bucket) (hb : t.bucket t.MaxIndex = some b)
    (hlt : t.MaxIndex < NodeIDLength * 8 - 1) :
    (t.addBucket (t.MaxIndex + 1) { Index := t.MaxIndex + 1, Map := [], Queue := [] }).Splitting
      t.MaxIndex b.Queue := by
  obtain ⟨hc1, hp1⟩ := hc.split hp b hb hlt
  have hbk := BucketTree.addBucket_bucket t hc hlt
    { Index := t.MaxIndex + 1, Map := [], Queue := [] }
  have hwf := hc.wf _ b hb
  have hbeq : b.Map.length = b.Queue.length := by
    rcases ht _ b hb with h | ⟨-, h⟩
    · exact h
    · exact absurd ⟨rfl, hlt⟩ h
  refine ⟨hc1, hp1, ?_, rfl, ?_, hwf.ptrNodup, ?_, ?_, ?_⟩
  · intro i c hci
    rw [hbk] at hci
    show c.Map.length = c.Queue.length ∨
      (c.Queue.length = K ∧ ¬ (i = t.MaxIndex + 1 ∧ i < NodeIDLength * 8 - 1))
    by_cases hi : i = t.MaxIndex + 1
    · simp only [hi, if_true, Option.some.injEq] at hci
      subst hci
      exact Or.inl rfl
    · simp only [hi, if_false] at hci
      rcases ht i c hci with h | ⟨h, -⟩
      · exact Or.inl h
      · exact Or.inr ⟨h, fun h' => hi h'.1⟩
  · intro b1 hb1 p hpq
    rw [hbk, if_neg (by omega), hb] at hb1
    simp only [Option.some.injEq] at hb1
    subst hb1; exact hpq
  · intro nb hnb
    rw [hbk, if_pos rfl] at hnb
    simp only [Option.some.injEq] at hnb
    subst hnb
    simpa using hwf.size
  · intro b1 hb1
    rw [hbk, if_neg (by omega), hb] at hb1
    simp only [Option.some.injEq] at hb1
    subst hb1; exact hbeq
  · intro nb hnb
    rw [hbk, if_pos rfl] at hnb
    simp only [Option.some.injEq] at hnb
    subst hnb
    rfl

/-- Calling `Bucket.add` on the slot that `Add` computes, with a depth of at least the number
of slots above `MaxIndex`, returns a table, which has again the shape of a reachable table,
its peers in their places and its buckets tidy. -/
theorem Bucket.add_inv (ping : Node → Bool) :
    ∀ (depth : Nat) (t : BucketTree) (slot : Int) (node : Node),
      t.Core → t.Placed [] → t.Tidy →
      slot = Min (CommonPrefixLength node.ID.val t.Self.ID.val) t.MaxIndex →
      (NodeIDLength * 8 : Int) ≤ depth + t.MaxIndex →
      ∃ t', Bucket.add ping depth t slot node = some t' ∧
        t'.Core ∧ t'.Placed [] ∧ t'.Tidy ∧ t'.Self = t.Self ∧
        t.MaxIndex ≤ t'.MaxIndex := by
  intro depth
  induction depth with
  | zero =>
    intro t slot node hc _ _ _ hd
    have := hc.hi
    omega
  | succ d ih =>
    intro t slot node hc hp ht hslot hd
    have hplaced := t.placed_of_slot node.ID slot hslot
    have hrange := t.cpl_range node.ID
    have hs0 : 0 ≤ slot ∧ slot ≤ t.MaxIndex := by
      have hlo := hc.lo
      rw [t.cpl_eq] at hslot
      unfold Min at hslot
      split at hslot <;> omega
    obtain ⟨b, hb⟩ := hc.mat slot hs0.1 hs0.2
    have hwf := hc.wf slot b hb
    have hidx := hc.index slot b hb
    by_cases hsplit : GoMap.get b.Map node.ID = none ∧ ¬ b.Map.length < K ∧
        (b.Index = t.MaxIndex ∧ b.Index < NodeIDLength * 8 - 1)
    · obtain ⟨hget, hfull, hfront, hdeep⟩ := hsplit
      have hsm : slot = t.MaxIndex := by rw [← hidx]; exact hfront
      subst hsm
      have hnr : ¬ (t.MaxIndex + 1 < 0 ∨ (t.Buckets.length : Int) ≤ t.MaxIndex + 1) := by
        have := hc.lo
        rw [hc.len]
        rw [hidx] at hdeep
        simp only [NodeIDLength] at hdeep ⊢
        omega
      rw [hidx] at hdeep
      obtain ⟨d', rfl⟩ : ∃ d', d = d' + 1 := by
        refine ⟨d - 1, ?_⟩
        simp only [NodeIDLength] at hdeep hd
        omega
      have hstart := BucketTree.Splitting.start hc hp ht b hb hdeep
      obtain ⟨t2, htr, hc2, hp2, ht2, hmax2, hself2⟩ :=
        Bucket.transfer_all ping d' t.MaxIndex hc.lo b.Queue _ hstart
      have hself : t2.Self = t.Self := by rw [hself2]; rfl
      have hcplt : CommonPrefixLength node.ID.val t2.Self.ID.val
          = CommonPrefixLength node.ID.val t.Self.ID.val := by rw [hself]
      have hge : t.MaxIndex ≤ t.cpl node.ID := hplaced.2 rfl
      have hd2 : (NodeIDLength * 8 : Int) ≤ ((d' + 1 : Nat) : Int) + t2.MaxIndex := by
        rw [hmax2]; push_cast at hd ⊢; omega
      rw [Bucket.add]
      simp only [hb, hget, hfull, if_false, hidx, true_and, hdeep, if_true,
        hnr, htr, hcplt, t.cpl_eq]
      by_cases hne : t.cpl node.ID ≠ t.MaxIndex
      · simp only [hne, ne_eq, not_false_eq_true, if_true]
        obtain ⟨t', r0, r1, r2, r3, r4, r5⟩ := ih t2 (t.MaxIndex + 1) node hc2 hp2 ht2
          (by
            rw [hcplt, t.cpl_eq, hmax2]
            unfold Min; split <;> omega) hd2
        exact ⟨t', r0, r1, r2, r3, by rw [r4, hself], by omega⟩
      · simp only [hne, if_false]
        obtain ⟨t', r0, r1, r2, r3, r4, r5⟩ := ih t2 t.MaxIndex node hc2 hp2 ht2
          (by
            rw [hcplt, t.cpl_eq, hmax2]
            unfold Min; split <;> omega) hd2
        exact ⟨t', r0, r1, r2, r3, by rw [r4, hself], by omega⟩
    · have hns : GoMap.get b.Map node.ID ≠ none ∨ b.Map.length < K ∨
          ¬ (b.Index = t.MaxIndex ∧ b.Index < NodeIDLength * 8 - 1) := by
        by_cases h1 : GoMap.get b.Map node.ID = none
        · by_cases h2 : b.Map.length < K
          · exact Or.inr (Or.inl h2)
          · exact Or.inr (Or.inr fun h3 => hsplit ⟨h1, h2, h3⟩)
        · exact Or.inl h1
      obtain ⟨t', b', hadd, hb', htidy', -⟩ := Bucket.add_local_tidy ping d t slot node b hb hwf
        hidx (ht slot b hb) hns
      have hls := Bucket.add_localStep ping (d + 1) t t' slot node b hb hwf hns hadd
      refine ⟨t', hadd, hc.coreStep hls, hp.placedStep hls hplaced, ?_, hls.self,
        by rw [hls.max]⟩
      apply ht.tidyStep hls
      intro c hc'
      rw [hb'] at hc'
      simp only [Option.some.injEq] at hc'
      subst hc'
      exact htidy'

/-! ## Reachable tables -/

theorem NewBucketTree_bucket (id : NodeID) (j : Int) :
    (NewBucketTree id).bucket j
      = if j = 0 then some { Index := 0, Map := [], Queue := [] } else none := by
  unfold BucketTree.bucket NewBucketTree
  by_cases hj : j < 0
  · have : j ≠ 0 := by omega
    simp [hj, this]
  · simp only [hj, if_false, List.getD_eq_getElem?_getD]
    by_cases h0 : j = 0
    · subst h0
      have hpos : (0 : Nat) < (List.replicate (NodeIDLength * 8) (none : Option Bucket)).length := by
        rw [List.length_replicate]; decide
      rw [show (0 : Int).toNat = 0 from rfl, List.getElem?_set_self hpos]
      rfl
    · have hne : 0 ≠ j.toNat := by omega
      rw [List.getElem?_set_ne hne]
      simp only [h0, if_false]
      by_cases hlt : j.toNat < NodeIDLength * 8
      · rw [List.getElem?_eq_getElem (by simpa using hlt)]
        simp
      · rw [List.getElem?_eq_none (by simpa using hlt)]
        rfl

theorem NewBucketTree_Core (id : NodeID) : (NewBucketTree id).Core := by
  refine ⟨by simp [NewBucketTree], by simp [NewBucketTree], by simp [NewBucketTree, NodeIDLength],
    ?_, ?_, ?_, ?_⟩
  · intro i h0 h1
    have : i = 0 := by
      have : i ≤ 0 := h1
      omega
    exact ⟨_, by rw [NewBucketTree_bucket, if_pos this]⟩
  · intro i b hb
    rw [NewBucketTree_bucket] at hb
    split at hb
    · simp only [Option.some.injEq] at hb
      subst hb; rename_i h; exact h.symm
    · simp at hb
  · intro i hi
    have : i ≠ 0 := by
      have : (0 : Int) < i := hi
      omega
    rw [NewBucketTree_bucket, if_neg this]
  · intro i b hb
    rw [NewBucketTree_bucket] at hb
    split at hb
    · simp only [Option.some.injEq] at hb
      subst hb
      exact ⟨by simp, by simp, by simp, by simp, by simp, by simp⟩
    · simp at hb

theorem NewBucketTree_Placed (id : NodeID) : (NewBucketTree id).Placed [] := by
  intro i b hb e he
  rw [NewBucketTree_bucket] at hb
  split at hb
  · simp only [Option.some.injEq] at hb
    subst hb
    simp at he
  · simp at hb

theorem NewBucketTree_Tidy (id : NodeID) : (NewBucketTree id).Tidy := by
  intro i b hb
  rw [NewBucketTree_bucket] at hb
  split at hb
  · simp only [Option.some.injEq] at hb
    subst hb
    exact Or.inl rfl
  · simp at hb

/-- On a table with the invariants, `Add` returns a table with the invariants. -/
theorem BucketTree.Add_inv (ping : Node → Bool) (t : BucketTree) (id : NodeID) (addr : UDPAddr)
    (hc : t.Core) (hp : t.Placed []) (ht : t.Tidy) :
    ∃ t', BucketTree.Add ping t id addr = some t' ∧
      t'.Core ∧ t'.Placed [] ∧ t'.Tidy ∧ t'.Self = t.Self ∧ t.MaxIndex ≤ t'.MaxIndex := by
  have hlo := hc.lo
  exact Bucket.add_inv ping addDepth t _ ⟨id, addr⟩ hc hp ht rfl
    (by simp only [addDepth, NodeIDLength]; push_cast; omega)

/-- On a table with the invariants, `Update` returns a table with the invariants. -/
theorem BucketTree.Update_inv (t : BucketTree) (id : NodeID)
    (hc : t.Core) (hp : t.Placed []) (ht : t.Tidy) :
    ∃ ok t', t.Update id = some (ok, t') ∧
      t'.Core ∧ t'.Placed [] ∧ t'.Tidy ∧ t'.Self = t.Self ∧ t'.MaxIndex = t.MaxIndex := by
  have hrange := t.cpl_range id
  have hs0 : 0 ≤ Min (CommonPrefixLength id.val t.Self.ID.val) t.MaxIndex ∧
      Min (CommonPrefixLength id.val t.Self.ID.val) t.MaxIndex ≤ t.MaxIndex := by
    have hlo := hc.lo
    rw [t.cpl_eq]
    unfold Min
    split <;> omega
  obtain ⟨b, hb⟩ := hc.mat _ hs0.1 hs0.2
  have hwf := hc.wf _ b hb
  have hupd : t.Update id = some ((b.update id).1,
      t.setBucket (Min (CommonPrefixLength id.val t.Self.ID.val) t.MaxIndex) (b.update id).2) := by
    simp only [BucketTree.Update, hb]
  have hls := BucketTree.Update_localStep t _ id _ hc hupd
  refine ⟨_, _, hupd, hc.coreStep hls, hp.placedStep hls (t.placed_of_slot id _ rfl), ?_,
    hls.self, hls.max⟩
  apply ht.tidyStep hls
  intro b' hb'
  have hself := BucketTree.bucket_setBucket_self t _ b (b.update id).2 t.nextPtr hb
  rw [show ({ t with nextPtr := t.nextPtr } : BucketTree) = t from rfl] at hself
  rw [hself] at hb'
  simp only [Option.some.injEq] at hb'
  subst hb'
  have hq : (b.update id).2.Queue.length = b.Queue.length ∧ (b.update id).2.Map = b.Map := by
    unfold Bucket.update
    split
    · exact ⟨rfl, rfl⟩
    · exact ⟨Queue.MoveToBack_length _ _ hwf.ptrNodup, rfl⟩
  rw [hq.1, hq.2]
  exact ht _ b hb

/-- Every reachable table has the shape `Core`, its peers are in their places and its
buckets are tidy. -/
theorem Reachable.inv {t : BucketTree} (h : Reachable t) : t.Core ∧ t.Placed [] ∧ t.Tidy := by
  induction h with
  | init id => exact ⟨NewBucketTree_Core id, NewBucketTree_Placed id, NewBucketTree_Tidy id⟩
  | add ping id addr _ hadd ih =>
    obtain ⟨t'', h1, r1, r2, r3, -, -⟩ := BucketTree.Add_inv ping _ id addr ih.1 ih.2.1 ih.2.2
    rw [hadd] at h1
    simp only [Option.some.injEq] at h1
    subst h1
    exact ⟨r1, r2, r3⟩
  | update id ok _ hupd ih =>
    obtain ⟨ok', t'', h1, r1, r2, r3, -, -⟩ := BucketTree.Update_inv _ id ih.1 ih.2.1 ih.2.2
    rw [hupd] at h1
    simp only [Option.some.injEq, Prod.mk.injEq] at h1
    obtain ⟨-, h1⟩ := h1
    subst h1
    exact ⟨r1, r2, r3⟩

/-- On a reachable table `Add` and `Update` return, for every answer of the liveness
probes: the model of `add` neither panics nor runs out of depth. -/
theorem Reachable.returns {t : BucketTree} (h : Reachable t) :
    (∀ (ping : Node → Bool) (id : NodeID) (addr : UDPAddr),
      ∃ t', BucketTree.Add ping t id addr = some t' ∧ Reachable t') ∧
    (∀ id : NodeID, ∃ ok t', t.Update id = some (ok, t') ∧ Reachable t') := by
  obtain ⟨hc, hp, ht⟩ := h.inv
  constructor
  · intro ping id addr
    obtain ⟨t', h1, -⟩ := BucketTree.Add_inv ping t id addr hc hp ht
    exact ⟨t', h1, Reachable.add ping id addr h h1⟩
  · intro id
    obtain ⟨ok, t', h1, -⟩ := BucketTree.Update_inv t id hc hp ht
    exact ⟨ok, t', h1, Reachable.update id ok h h1⟩

/-! ## Sample tables -/

theorem addAll_reachable (alive : Bool) (xs : List Byte) :
    ∀ t t' : BucketTree, Reachable t → addAll alive xs t = some t' → Reachable t' := by
  induction xs with
  | nil =>
    intro t t' hr h
    simp only [addAll, Option.some.injEq] at h
    subst h; exact hr
  | cons x xs ih =>
    intro t t' hr h
    simp only [addAll] at h
    cases hadd : BucketTree.Add (fun _ => alive) t (sampleID x) (sampleAddr x) with
    | none => simp [hadd] at h
    | some t1 =>
      simp only [hadd] at h
      exact ih t1 t' (Reachable.add _ _ _ hr hadd) h

theorem getD_of_isSome {α : Type} (o : Option α) (d : α) (h : o.isSome = true) :
    o = some (o.getD d) := by
  cases o with
  | none => simp at h
  | some a => rfl

set_option maxRecDepth 1000000 in
theorem tableA_reachable : Reachable tableA :=
  addAll_reachable false _ _ _ (Reachable.init (sampleID 0))
    (getD_of_isSome _ (NewBucketTree (sampleID 0)) (by decide))

set_option maxRecDepth 1000000 in
theorem tableB_reachable : Reachable tableB :=
  addAll_reachable false _ _ _ tableA_reachable (getD_of_isSome _ tableA (by decide))

/-! ## The claims on the routing table -/

set_option maxRecDepth 1000000 in
/-- C6 (the code diverges). `getN` never reads its bound `n`, so `GetK` appends the whole
fallback bucket: in the reachable table `tableA` (bucket 0 holds the eight peers `80` .. `87`,
bucket 1 the peer `40`), `GetK(41 00..00)` returns nine peers, more than `K = 8`. -/
theorem GetK_exceeds_K :
    (∀ (b : Bucket) (n : Int) (id : NodeID), b.getN n id = b.getN 0 id) ∧
    addAll false [0x80, 0x81, 0x82, 0x83, 0x84, 0x85, 0x86, 0x87, 0x40]
      (NewBucketTree (sampleID 0)) = some tableA ∧
    Reachable tableA ∧ K = 8 ∧
    tableA.GetK (sampleID 0x41)
      = some ([0x40, 0x87, 0x86, 0x85, 0x84, 0x83, 0x82, 0x81, 0x80].map samplePeer) ∧
    (tableA.GetK (sampleID 0x41)).map List.length = some 9 :=
  ⟨fun _ _ _ => rfl, getD_of_isSome _ (NewBucketTree (sampleID 0)) (by decide),
    tableA_reachable, rfl, by decide, by decide⟩

set_option maxRecDepth 1000000 in
/-- C9 (the code diverges). When `add` replaces the oldest peer of a full bucket after a failed
probe, the peer leaves the queue but its key stays in the map: in the reachable table
`tableB`, the map of bucket 0 has the nine keys `80` .. `88`, its queue the eight peers
`81` .. `88`, and `Get(80 00..00)` still returns the peer `80`. -/
theorem evicted_peer_stays_in_Map :
    BucketTree.Add (fun _ => false) tableA (sampleID 0x88) (sampleAddr 0x88) = some tableB ∧
    Reachable tableB ∧
    (tableB.bucket 0).map (fun b => b.Queue.map fun e => e.Value.ID)
      = some ([0x81, 0x82, 0x83, 0x84, 0x85, 0x86, 0x87, 0x88].map sampleID) ∧
    (tableB.bucket 0).map (fun b => b.Map.map Prod.fst)
      = some ([0x80, 0x81, 0x82, 0x83, 0x84, 0x85, 0x86, 0x87, 0x88].map sampleID) ∧
    tableB.Get (sampleID 0x80) = some (some (samplePeer 0x80)) :=
  ⟨by decide, tableB_reachable, by decide, by decide, by decide⟩

/-- C8. In every reachable table, a peer stored in a bucket `i < MaxIndex` has common prefix
length exactly `i` with the local identifier, and a peer stored in the bucket `MaxIndex` has
common prefix length at least `MaxIndex`. -/
theorem placement_invariant (t : BucketTree) (h : Reachable t) (i : Int) (b : Bucket)
    (hb : t.bucket i = some b) (e : Element) (he : e ∈ b.Queue) :
    (i < t.MaxIndex → CommonPrefixLength t.Self.ID.val e.Value.ID.val = i) ∧
    (i = t.MaxIndex → t.MaxIndex ≤ CommonPrefixLength t.Self.ID.val e.Value.ID.val) := by
  obtain ⟨h1, h2⟩ := h.inv.2.1 i b hb e he
  refine ⟨fun hlt => ?_, h2⟩
  rcases h1 hlt with h1 | ⟨-, -, p, hp, -⟩
  · exact h1
  · simp at hp

set_option maxRecDepth 1000000 in
/-- Witness of `placement_invariant`: the peer `80` in bucket 0 of `tableA`, below
`MaxIndex = 1`. -/
theorem placement_invariant_witness :
    (Reachable tableA ∧ tableA.bucket 0 = some bucketA0 ∧ tableA.MaxIndex = 1 ∧
      (⟨0, samplePeer 0x80⟩ : Element) ∈ bucketA0.Queue) ∧
    ((0 < tableA.MaxIndex →
        CommonPrefixLength tableA.Self.ID.val (samplePeer 0x80).ID.val = 0) ∧
      (0 = tableA.MaxIndex →
        tableA.MaxIndex ≤ CommonPrefixLength tableA.Self.ID.val (samplePeer 0x80).ID.val)) :=
  ⟨⟨tableA_reachable, by decide, by decide, by decide⟩,
    placement_invariant tableA tableA_reachable 0 bucketA0 (by decide) ⟨0, samplePeer 0x80⟩
      (by decide)⟩

/-- C10. In every reachable table, the queue of every bucket holds at most `K = 8` peers. -/
theorem queue_length_le_K (t : BucketTree) (h : Reachable t) (i : Int) (b : Bucket)
    (hb : t.bucket i = some b) : b.Queue.length ≤ K ∧ K = 8 :=
  ⟨(h.inv.1.wf i b hb).size, rfl⟩

set_option maxRecDepth 1000000 in
/-- Witness of `queue_length_le_K`: bucket 0 of `tableA` holds eight peers. -/
theorem queue_length_le_K_witness :
    (Reachable tableA ∧ tableA.bucket 0 = some bucketA0 ∧ bucketA0.Queue.length = 8) ∧
      (bucketA0.Queue.length ≤ K ∧ K = 8) :=
  ⟨⟨tableA_reachable, by decide, by decide⟩,
    queue_length_le_K tableA tableA_reachable 0 bucketA0 (by decide)⟩

theorem Bucket.mem_getN (b : Bucket) (k : Int) (id : NodeID) (n : Node) :
    n ∈ b.getN k id ↔ ∃ e ∈ b.Queue, e.Value.ID ≠ id ∧ e.Value = n := by
  simp only [Bucket.getN, List.mem_map, List.mem_filter, List.mem_reverse, ne_eq, decide_not,
    Bool.not_eq_true', decide_eq_false_iff_not]
  constructor
  · rintro ⟨e, ⟨he, hne⟩, rfl⟩; exact ⟨e, he, hne, rfl⟩
  · rintro ⟨e, he, hne, rfl⟩; exact ⟨e, ⟨he, hne⟩, rfl⟩

/-- The identifiers in the queue of a bucket are distinct. -/
theorem Bucket.WF.ids_nodup {b : Bucket} {n : Nat} (h : b.WF n) :
    (b.Queue.map fun e => e.Value.ID).Nodup := by
  have hq : b.Queue.Nodup := List.Nodup.of_map _ h.ptrNodup
  exact List.Nodup.map_on (fun x hx y hy hxy => h.eq_of_ID_eq hx hy hxy) hq

theorem Bucket.getN_ids_nodup {b : Bucket} {n : Nat} (h : b.WF n) (k : Int) (id : NodeID) :
    ((b.getN k id).map Node.ID).Nodup := by
  have h1 : ((b.getN k id).map Node.ID).Sublist ((b.Queue.map fun e => e.Value.ID).reverse) := by
    rw [← List.map_reverse]
    simp only [Bucket.getN, List.map_map]
    exact List.Sublist.map _ (List.filter_sublist _)
  exact List.Nodup.sublist h1 (List.nodup_reverse.2 h.ids_nodup)

/-- C7. In every reachable table, for every identifier `id` and
`i = min(CPL(self.id, id), MaxIndex)`, `GetK(id)` returns a list in which every peer is stored
in bucket `i` or bucket `i - 1` and in no deeper bucket, no identifier occurs twice and none
is `id`; so `GetK(self.id)` has no peer with the local identifier; and `GetK` on a new table
is empty. -/
theorem GetK_spec (t : BucketTree) (h : Reachable t) (id : NodeID) :
    (∃ result, t.GetK id = some result ∧
      (∀ n ∈ result, ∃ (j : Int) (b : Bucket) (e : Element),
        (j = Min (CommonPrefixLength t.Self.ID.val id.val) t.MaxIndex ∨
          j = Min (CommonPrefixLength t.Self.ID.val id.val) t.MaxIndex - 1) ∧
        t.bucket j = some b ∧ e ∈ b.Queue ∧ e.Value = n) ∧
      (∀ n ∈ result, ∀ (j : Int) (b : Bucket),
        Min (CommonPrefixLength t.Self.ID.val id.val) t.MaxIndex < j → t.bucket j = some b →
        ∀ e ∈ b.Queue, e.Value.ID ≠ n.ID) ∧
      (result.map Node.ID).Nodup ∧ result.Nodup ∧
      (∀ n ∈ result, n.ID ≠ id)) ∧
    (∃ result, t.GetK t.Self.ID = some result ∧ ∀ n ∈ result, n.ID ≠ t.Self.ID) ∧
    (∀ self id' : NodeID, (NewBucketTree self).GetK id' = some []) := by
  obtain ⟨hc, hp, -⟩ := h.inv
  have main : ∀ id : NodeID, ∃ result, t.GetK id = some result ∧
      (∀ n ∈ result, ∃ (j : Int) (b : Bucket) (e : Element),
        (j = Min (CommonPrefixLength t.Self.ID.val id.val) t.MaxIndex ∨
          j = Min (CommonPrefixLength t.Self.ID.val id.val) t.MaxIndex - 1) ∧
        t.bucket j = some b ∧ e ∈ b.Queue ∧ e.Value = n) ∧
      (∀ n ∈ result, ∀ (j : Int) (b : Bucket),
        Min (CommonPrefixLength t.Self.ID.val id.val) t.MaxIndex < j → t.bucket j = some b →
        ∀ e ∈ b.Queue, e.Value.ID ≠ n.ID) ∧
      (result.map Node.ID).Nodup ∧ result.Nodup ∧
      (∀ n ∈ result, n.ID ≠ id) := by
    intro id
    have hcomm : CommonPrefixLength id.val t.Self.ID.val
        = CommonPrefixLength t.Self.ID.val id.val := CommonPrefixLength_comm _ _
    generalize hi : Min (CommonPrefixLength t.Self.ID.val id.val) t.MaxIndex = i
    have hrange := t.cpl_range id
    have hi0 : 0 ≤ i ∧ i ≤ t.MaxIndex := by
      have := hc.lo
      rw [← hi]
      show 0 ≤ Min (t.cpl id) t.MaxIndex ∧ Min (t.cpl id) t.MaxIndex ≤ t.MaxIndex
      unfold Min; split <;> omega
    obtain ⟨b, hb⟩ := hc.mat i hi0.1 hi0.2
    have hwf := hc.wf i b hb
    -- a peer of bucket `j ≤ i` has a shorter common prefix than a peer of a deeper bucket
    have cross : ∀ (j j' : Int) (c c' : Bucket) (e e' : Element), j < j' →
        t.bucket j = some c → t.bucket j' = some c' → e ∈ c.Queue → e' ∈ c'.Queue →
        e'.Value.ID ≠ e.Value.ID := by
      intro j j' c c' e e' hjj hcj hcj' he he' heq
      have hmax : j' ≤ t.MaxIndex := by
        by_contra hcon
        have := hc.absent j' (by omega)
        rw [hcj'] at this; simp at this
      obtain ⟨p1, -⟩ := hp j c hcj e he
      obtain ⟨q1, q2⟩ := hp j' c' hcj' e' he'
      have hcj1 : t.cpl e.Value.ID = j := by
        rcases p1 (by omega) with h1 | ⟨-, -, q, hq, -⟩
        · exact h1
        · simp at hq
      rw [← heq] at hcj1
      by_cases hlt : j' < t.MaxIndex
      · rcases q1 hlt with h1 | ⟨-, -, q, hq, -⟩
        · omega
        · simp at hq
      · have := q2 (by omega)
        omega
    by_cases hleft : (b.getN K id).length < K ∧ i > 0
    · obtain ⟨lb, hlb⟩ := hc.mat (i - 1) (by omega) (by omega)
      have hlwf := hc.wf (i - 1) lb hlb
      have hids : ((b.getN K id ++ lb.getN ((K : Int) - (b.getN K id).length) id).map
          Node.ID).Nodup := by
        rw [List.map_append, List.nodup_append]
        refine ⟨Bucket.getN_ids_nodup hwf _ _, Bucket.getN_ids_nodup hlwf _ _, ?_⟩
        intro x hx1 hx2
        obtain ⟨n1, hn1, rfl⟩ := List.mem_map.1 hx1
        obtain ⟨n2, hn2, hn2id⟩ := List.mem_map.1 hx2
        obtain ⟨e1, he1, -, rfl⟩ := (Bucket.mem_getN _ _ _ _).1 hn1
        obtain ⟨e2, he2, -, rfl⟩ := (Bucket.mem_getN _ _ _ _).1 hn2
        exact cross (i - 1) i lb b e2 e1 (by omega) hlb hb he2 he1 hn2id.symm
      refine ⟨b.getN K id ++ lb.getN ((K : Int) - (b.getN K id).length) id, ?_, ?_, ?_, hids,
        List.Nodup.of_map _ hids, ?_⟩
      · simp only [BucketTree.GetK, hcomm, hi, hb, hleft, and_self, if_true, hlb]
      · intro n hn
        rcases List.mem_append.1 hn with hn | hn
        · obtain ⟨e, he, -, rfl⟩ := (Bucket.mem_getN _ _ _ _).1 hn
          exact ⟨i, b, e, Or.inl rfl, hb, he, rfl⟩
        · obtain ⟨e, he, -, rfl⟩ := (Bucket.mem_getN _ _ _ _).1 hn
          exact ⟨i - 1, lb, e, Or.inr rfl, hlb, he, rfl⟩
      · intro n hn j c hj hcj e he
        rcases List.mem_append.1 hn with hn | hn
        · obtain ⟨e1, he1, -, rfl⟩ := (Bucket.mem_getN _ _ _ _).1 hn
          exact cross i j b c e1 e hj hb hcj he1 he
        · obtain ⟨e1, he1, -, rfl⟩ := (Bucket.mem_getN _ _ _ _).1 hn
          exact cross (i - 1) j lb c e1 e (by omega) hlb hcj he1 he
      · intro n hn
        rcases List.mem_append.1 hn with hn | hn
        · obtain ⟨e, -, hne, rfl⟩ := (Bucket.mem_getN _ _ _ _).1 hn
          exact hne
        · obtain ⟨e, -, hne, rfl⟩ := (Bucket.mem_getN _ _ _ _).1 hn
          exact hne
    · have hids := Bucket.getN_ids_nodup hwf K id
      refine ⟨b.getN K id, ?_, ?_, ?_, hids, List.Nodup.of_map _ hids, ?_⟩
      · simp only [BucketTree.GetK, hcomm, hi, hb, hleft, if_false]
      · intro n hn
        obtain ⟨e, he, -, rfl⟩ := (Bucket.mem_getN _ _ _ _).1 hn
        exact ⟨i, b, e, Or.inl rfl, hb, he, rfl⟩
      · intro n hn j c hj hcj e he
        obtain ⟨e1, he1, -, rfl⟩ := (Bucket.mem_getN _ _ _ _).1 hn
        exact cross i j b c e1 e hj hb hcj he1 he
      · intro n hn
        obtain ⟨e, -, hne, rfl⟩ := (Bucket.mem_getN _ _ _ _).1 hn
        exact hne
  refine ⟨main id, ?_, ?_⟩
  · obtain ⟨result, h1, -, -, -, -, h5⟩ := main t.Self.ID
    exact ⟨result, h1, h5⟩
  · intro self id'
    have hr := (NewBucketTree self).cpl_range id'
    have hmin : Min (CommonPrefixLength id'.val (NewBucketTree self).Self.ID.val)
        (NewBucketTree self).MaxIndex = 0 := by
      rw [BucketTree.cpl_eq]
      show Min ((NewBucketTree self).cpl id') 0 = 0
      unfold Min; split <;> omega
    simp only [BucketTree.GetK, hmin, NewBucketTree_bucket, if_true]
    simp [Bucket.getN]

set_option maxRecDepth 1000000 in
/-- Witness of `GetK_spec`: `GetK(41 00..00)` and `GetK` of the local identifier in
`tableA`. -/
theorem GetK_spec_witness :
    Reachable tableA ∧
    (∃ result, tableA.GetK (sampleID 0x41) = some result ∧ (result.map Node.ID).Nodup ∧
      ∀ n ∈ result, n.ID ≠ sampleID 0x41) ∧
    (∃ result, tableA.GetK tableA.Self.ID = some result ∧
      ∀ n ∈ result, n.ID ≠ tableA.Self.ID) :=
  ⟨tableA_reachable,
    (let ⟨r, h1, _, _, h4, _, h6⟩ := (GetK_spec tableA tableA_reachable (sampleID 0x41)).1
     ⟨r, h1, h4, h6⟩),
    (GetK_spec tableA tableA_reachable (sampleID 0x41)).2.1⟩


/-! ## One place for every identifier -/

/-- The slot computed from the identifier is a slot of the table. -/
theorem BucketTree.Core.slot_range {t : BucketTree} (hc : t.Core) (id : NodeID) :
    0 ≤ Min (CommonPrefixLength id.val t.Self.ID.val) t.MaxIndex ∧
      Min (CommonPrefixLength id.val t.Self.ID.val) t.MaxIndex ≤ t.MaxIndex := by
  have hrange := t.cpl_range id
  have hlo := hc.lo
  rw [t.cpl_eq]
  unfold Min
  split <;> omega

/-- A peer of a bucket has a shorter common prefix with the local identifier than a peer of
a deeper bucket, so their identifiers differ. -/
theorem BucketTree.Placed.cross {t : BucketTree} (hc : t.Core) (hp : t.Placed [])
    (j j' : Int) (c c' : Bucket) (e e' : Element) (hjj : j < j')
    (hcj : t.bucket j = some c) (hcj' : t.bucket j' = some c') (he : e ∈ c.Queue)
    (he' : e' ∈ c'.Queue) : e'.Value.ID ≠ e.Value.ID := by
  intro heq
  have hmax : j' ≤ t.MaxIndex := by
    by_contra hcon
    have := hc.absent j' (by omega)
    rw [hcj'] at this; simp at this
  obtain ⟨p1, -⟩ := hp j c hcj e he
  obtain ⟨q1, q2⟩ := hp j' c' hcj' e' he'
  have hcj1 : t.cpl e.Value.ID = j := by
    rcases p1 (by omega) with h1 | ⟨-, -, q, hq, -⟩
    · exact h1
    · simp at hq
  rw [← heq] at hcj1
  by_cases hlt : j' < t.MaxIndex
  · rcases q1 hlt with h1 | ⟨-, -, q, hq, -⟩
    · omega
    · simp at hq
  · have := q2 (by omega)
    omega

/-- C11. In every reachable table, no identifier is in the queues of two different buckets,
and no identifier occurs twice in the queue of one bucket. -/
theorem identifier_stored_once (t : BucketTree) (h : Reachable t) :
    (∀ (i j : Int) (b c : Bucket) (e e' : Element), t.bucket i = some b → t.bucket j = some c →
      e ∈ b.Queue → e' ∈ c.Queue → e.Value.ID = e'.Value.ID → i = j) ∧
    (∀ (i : Int) (b : Bucket), t.bucket i = some b →
      (b.Queue.map fun e => e.Value.ID).Nodup) := by
  obtain ⟨hc, hp, -⟩ := h.inv
  refine ⟨?_, fun i b hb => (hc.wf i b hb).ids_nodup⟩
  intro i j b c e e' hb hcj he he' heq
  by_contra hne
  rcases Int.lt_or_gt_of_ne hne with hlt | hgt
  · exact hp.cross hc i j b c e e' hlt hb hcj he he' heq.symm
  · exact hp.cross hc j i c b e' e hgt hcj hb he' he heq

set_option maxRecDepth 1000000 in
/-- Witness of `identifier_stored_once` in `tableA`: the peer `80` is found in bucket 0
only, and the identifiers of bucket 0 are distinct. -/
theorem identifier_stored_once_witness :
    (Reachable tableA ∧ tableA.bucket 0 = some bucketA0 ∧
      (⟨0, samplePeer 0x80⟩ : Element) ∈ bucketA0.Queue) ∧
    (0 : Int) = 0 ∧
    (bucketA0.Queue.map fun e => e.Value.ID).Nodup :=
  ⟨⟨tableA_reachable, by decide, by decide⟩,
    (identifier_stored_once tableA tableA_reachable).1 0 0 bucketA0 bucketA0
      ⟨0, samplePeer 0x80⟩ ⟨0, samplePeer 0x80⟩ (by decide) (by decide) (by decide) (by decide)
      rfl,
    (identifier_stored_once tableA tableA_reachable).2 0 bucketA0 (by decide)⟩

/-! ## No absent bucket is touched -/

theorem BucketTree.Core.Get_some {t : BucketTree} (hc : t.Core) (id : NodeID) :
    ∃ r, t.Get id = some r := by
  obtain ⟨h0, h1⟩ := hc.slot_range id
  obtain ⟨b, hb⟩ := hc.mat _ h0 h1
  simp only [BucketTree.Get, hb]
  cases GoMap.get b.Map id with
  | none => exact ⟨none, rfl⟩
  | some e => exact ⟨some e.Value, rfl⟩

theorem BucketTree.Core.GetK_some {t : BucketTree} (hc : t.Core) (id : NodeID) :
    ∃ r, t.GetK id = some r := by
  obtain ⟨h0, h1⟩ := hc.slot_range id
  obtain ⟨b, hb⟩ := hc.mat _ h0 h1
  simp only [BucketTree.GetK, hb]
  split
  · rename_i hleft
    obtain ⟨lb, hlb⟩ := hc.mat (Min (CommonPrefixLength id.val t.Self.ID.val) t.MaxIndex - 1)
      (by omega) (by omega)
    simp only [hlb]
    exact ⟨_, rfl⟩
  · exact ⟨_, rfl⟩

/-- C12. In every reachable table `0 ≤ MaxIndex ≤ L_id*8 - 1`, every slot `0 .. MaxIndex`
holds a bucket whose `Index` is its slot, every slot above `MaxIndex` is absent, the slot
`min(CPL(self.id, id), MaxIndex)` is one of `0 .. MaxIndex`, and `Get`, `GetK`, `Add` (for every
answer of the probes) and `Update` return without touching an absent bucket. -/
theorem slots_materialized (t : BucketTree) (h : Reachable t) :
    (0 ≤ t.MaxIndex ∧ t.MaxIndex ≤ NodeIDLength * 8 - 1) ∧
    (∀ i : Int, 0 ≤ i → i ≤ t.MaxIndex → ∃ b, t.bucket i = some b ∧ b.Index = i) ∧
    (∀ i : Int, t.MaxIndex < i → t.bucket i = none) ∧
    (∀ id : NodeID, 0 ≤ Min (CommonPrefixLength t.Self.ID.val id.val) t.MaxIndex ∧
      Min (CommonPrefixLength t.Self.ID.val id.val) t.MaxIndex ≤ t.MaxIndex) ∧
    (∀ id : NodeID, ∃ r, t.Get id = some r) ∧
    (∀ id : NodeID, ∃ r, t.GetK id = some r) ∧
    (∀ (ping : Node → Bool) (id : NodeID) (addr : UDPAddr),
      ∃ t', BucketTree.Add ping t id addr = some t') ∧
    (∀ id : NodeID, ∃ ok t', t.Update id = some (ok, t')) := by
  obtain ⟨hc, hp, ht⟩ := h.inv
  have hhi := hc.hi
  refine ⟨⟨hc.lo, by omega⟩, ?_, hc.absent, ?_, hc.Get_some, hc.GetK_some, ?_, ?_⟩
  · intro i h0 h1
    obtain ⟨b, hb⟩ := hc.mat i h0 h1
    exact ⟨b, hb, hc.index i b hb⟩
  · intro id
    rw [CommonPrefixLength_comm]
    exact hc.slot_range id
  · intro ping id addr
    obtain ⟨t', h1, -⟩ := BucketTree.Add_inv ping t id addr hc hp ht
    exact ⟨t', h1⟩
  · intro id
    obtain ⟨ok, t', h1, -⟩ := BucketTree.Update_inv t id hc hp ht
    exact ⟨ok, t', h1⟩

set_option maxRecDepth 1000000 in
/-- Witness of `slots_materialized` in `tableA`: `MaxIndex = 1`, slot 2 is absent and
`Get(80 00..00)` returns. -/
theorem slots_materialized_witness :
    (Reachable tableA ∧ tableA.MaxIndex = 1) ∧
    (0 ≤ tableA.MaxIndex ∧ tableA.MaxIndex ≤ NodeIDLength * 8 - 1) ∧
    tableA.bucket 2 = none ∧
    (∃ r, tableA.Get (sampleID 0x80) = some r) ∧
    (∃ t', BucketTree.Add (fun _ => false) tableA (sampleID 0x88) (sampleAddr 0x88) = some t') :=
  ⟨⟨tableA_reachable, by decide⟩,
    (slots_materialized tableA tableA_reachable).1,
    (slots_materialized tableA tableA_reachable).2.2.1 2 (by decide),
    (slots_materialized tableA tableA_reachable).2.2.2.2.1 (sampleID 0x80),
    (slots_materialized tableA tableA_reachable).2.2.2.2.2.2.1 (fun _ => false) (sampleID 0x88)
      (sampleAddr 0x88)⟩

/-! ## What `add` and `update` do to a bucket -/

/-- The cell of the queue with the identity of `e` is `e`. -/
theorem Queue.find_ptr (l : List Element) (e : Element) (hn : (l.map Element.ptr).Nodup)
    (he : e ∈ l) : l.find? (fun x => x.ptr = e.ptr) = some e := by
  induction l with
  | nil => simp at he
  | cons y l ih =>
    simp only [List.map_cons, List.nodup_cons] at hn
    by_cases hy : y.ptr = e.ptr
    · have hye : y = e := by
        rcases List.mem_cons.1 he with h | h
        · exact h.symm
        · exact absurd (hy ▸ List.mem_map_of_mem _ h) hn.1
      simp [List.find?_cons, hye]
    · have hel : e ∈ l := by
        rcases List.mem_cons.1 he with h | h
        · subst h; exact absurd rfl hy
        · exact h
      simpa [List.find?_cons, hy] using ih hn.2 hel

/-- Taking a cell out of the queue is taking its identifier out. -/
theorem Bucket.WF.Remove_eq_filter {b : Bucket} {n : Nat} (h : b.WF n) (e : Element)
    (he : e ∈ b.Queue) :
    Queue.Remove b.Queue e = b.Queue.filter fun x => x.Value.ID ≠ e.Value.ID := by
  unfold Queue.Remove
  apply List.filter_congr
  intro x hx
  have hiff : x.ptr = e.ptr ↔ x.Value.ID = e.Value.ID := by
    constructor
    · intro hp
      rw [List.inj_on_of_nodup_map h.ptrNodup hx he hp]
    · intro hid
      rw [h.eq_of_ID_eq hx he hid]
  by_cases hp : x.ptr = e.ptr
  · simp [hp, hiff.1 hp]
  · have : ¬ x.Value.ID = e.Value.ID := fun hid => hp (hiff.2 hid)
    simp [hp, this]

/-- Moving a cell of the queue to the back: the other cells keep their order. -/
theorem Bucket.WF.MoveToBack_eq {b : Bucket} {n : Nat} (h : b.WF n) (e : Element)
    (he : e ∈ b.Queue) :
    Queue.MoveToBack b.Queue e = (b.Queue.filter fun x => x.Value.ID ≠ e.Value.ID) ++ [e] := by
  unfold Queue.MoveToBack
  rw [Queue.find_ptr _ _ h.ptrNodup he]
  simp only [Queue.PushBack]
  rw [h.Remove_eq_filter e he]

theorem Element.withAddress_of_ne (e : Element) (addr : UDPAddr) (x : Element)
    (h : x.ptr ≠ e.ptr) : e.withAddress addr x = x := by
  simp [Element.withAddress, h]

theorem Element.withAddress_self (e : Element) (addr : UDPAddr) :
    e.withAddress addr e = ⟨e.ptr, ⟨e.Value.ID, addr⟩⟩ := by
  simp [Element.withAddress]

/-- Moving a cell of the queue to the back after its node got the address `addr`. -/
theorem Bucket.WF.MoveToBack_setAddress {b : Bucket} {n : Nat} (h : b.WF n) (e : Element)
    (he : e ∈ b.Queue) (addr : UDPAddr) :
    Queue.MoveToBack (b.setAddress e addr).Queue e
      = (b.Queue.filter fun x => x.Value.ID ≠ e.Value.ID) ++ [⟨e.ptr, ⟨e.Value.ID, addr⟩⟩] := by
  have hwf := h.setAddress e addr
  have he' : (⟨e.ptr, ⟨e.Value.ID, addr⟩⟩ : Element) ∈ (b.setAddress e addr).Queue := by
    rw [← Element.withAddress_self e addr]
    exact List.mem_map_of_mem _ he
  have hmv : Queue.MoveToBack (b.setAddress e addr).Queue e
      = Queue.MoveToBack (b.setAddress e addr).Queue ⟨e.ptr, ⟨e.Value.ID, addr⟩⟩ := by
    simp [Queue.MoveToBack, Queue.Remove]
  rw [hmv, hwf.MoveToBack_eq _ he']
  congr 1
  show (b.Queue.map (e.withAddress addr)).filter _ = _
  rw [List.filter_map]
  have hcongr : b.Queue.filter ((fun x : Element => decide (x.Value.ID ≠ e.Value.ID))
      ∘ e.withAddress addr) = b.Queue.filter fun x => x.Value.ID ≠ e.Value.ID := by
    apply List.filter_congr
    intro x _
    simp [Function.comp, Element.withAddress_ID]
  rw [hcongr]
  refine (List.map_congr_left ?_).trans (List.map_id _)
  intro x hx
  have hx' := (List.mem_filter.1 hx)
  show e.withAddress addr x = x
  apply Element.withAddress_of_ne
  intro hp
  have := List.inj_on_of_nodup_map h.ptrNodup hx'.1 he hp
  rw [this] at hx'
  simp at hx'

/-- C13. In every reachable table, when a peer with the identifier `id` is in the queue of
the bucket at `min(CPL(self.id, id), MaxIndex)`, `add(id, addr)` returns the same table for
every answer of the probes (it does not probe), leaves `MaxIndex`, every other bucket, the
identifiers of the queue and the keys of the map unchanged, makes the peer the last of its
queue while the other peers keep their order, and the stored address is `addr` (it has the
text of `addr`, and is `addr` itself when the text of the old address was different). -/
theorem add_known_identifier (t : BucketTree) (h : Reachable t) (id : NodeID) (addr : UDPAddr)
    (b : Bucket) (e : Element)
    (hb : t.bucket (Min (CommonPrefixLength t.Self.ID.val id.val) t.MaxIndex) = some b)
    (he : e ∈ b.Queue) (hid : e.Value.ID = id) :
    ∃ (t' : BucketTree) (b' : Bucket) (a' : UDPAddr),
      (∀ ping : Node → Bool, BucketTree.Add ping t id addr = some t') ∧
      t'.MaxIndex = t.MaxIndex ∧
      (∀ j : Int, j ≠ Min (CommonPrefixLength t.Self.ID.val id.val) t.MaxIndex →
        t'.bucket j = t.bucket j) ∧
      t'.bucket (Min (CommonPrefixLength t.Self.ID.val id.val) t.MaxIndex) = some b' ∧
      b'.Queue = (b.Queue.filter fun x => x.Value.ID ≠ id) ++ [⟨e.ptr, ⟨id, a'⟩⟩] ∧
      (∀ x : NodeID, x ∈ b'.Queue.map (fun y => y.Value.ID)
        ↔ x ∈ b.Queue.map (fun y => y.Value.ID)) ∧
      b'.Map.map Prod.fst = b.Map.map Prod.fst ∧
      a'.String = addr.String ∧
      (e.Value.Address.String ≠ addr.String → a' = addr) ∧
      t'.Get id = some (some ⟨id, a'⟩) := by
  obtain ⟨hc, -, -⟩ := h.inv
  have hcomm : CommonPrefixLength id.val t.Self.ID.val
      = CommonPrefixLength t.Self.ID.val id.val := CommonPrefixLength_comm _ _
  generalize hslot : Min (CommonPrefixLength t.Self.ID.val id.val) t.MaxIndex = slot at hb
  have hwf := hc.wf slot b hb
  obtain ⟨h0, h1⟩ := BucketTree.bucket_some_range hb
  have hget : GoMap.get b.Map id = some e := by rw [← hid]; exact hwf.inMap e he
  subst hid
  -- the result, whatever the new queue and map are
  have key : ∀ (b' : Bucket) (a' : UDPAddr),
      (∀ ping : Node → Bool, BucketTree.Add ping t e.Value.ID addr
        = some (t.setBucket slot b')) →
      b'.Queue = (b.Queue.filter fun x => x.Value.ID ≠ e.Value.ID)
        ++ [⟨e.ptr, ⟨e.Value.ID, a'⟩⟩] →
      b'.Map.map Prod.fst = b.Map.map Prod.fst →
      GoMap.get b'.Map e.Value.ID = some ⟨e.ptr, ⟨e.Value.ID, a'⟩⟩ →
      a'.String = addr.String → (e.Value.Address.String ≠ addr.String → a' = addr) →
      ∃ (t' : BucketTree) (b' : Bucket) (a' : UDPAddr),
        (∀ ping : Node → Bool, BucketTree.Add ping t e.Value.ID addr = some t') ∧
        t'.MaxIndex = t.MaxIndex ∧
        (∀ j : Int, j ≠ slot → t'.bucket j = t.bucket j) ∧
        t'.bucket slot = some b' ∧
        b'.Queue = (b.Queue.filter fun x => x.Value.ID ≠ e.Value.ID)
          ++ [⟨e.ptr, ⟨e.Value.ID, a'⟩⟩] ∧
        (∀ x : NodeID, x ∈ b'.Queue.map (fun y => y.Value.ID)
          ↔ x ∈ b.Queue.map (fun y => y.Value.ID)) ∧
        b'.Map.map Prod.fst = b.Map.map Prod.fst ∧
        a'.String = addr.String ∧
        (e.Value.Address.String ≠ addr.String → a' = addr) ∧
        t'.Get e.Value.ID = some (some ⟨e.Value.ID, a'⟩) := by
    intro b' a' hadd hq hm hg ha1 ha2
    have hbk := BucketTree.bucket_setBucket t slot
    refine ⟨t.setBucket slot b', b', a', hadd, rfl, ?_, ?_, hq, ?_, hm, ha1, ha2, ?_⟩
    · intro j hj
      rw [hbk j b' h0 h1, if_neg hj]
    · rw [hbk slot b' h0 h1, if_pos rfl]
    · intro x
      rw [hq]
      simp only [List.map_append, List.mem_append, List.mem_map, List.mem_filter,
        List.map_cons, List.map_nil, List.mem_singleton]
      constructor
      · rintro (⟨y, ⟨hy, -⟩, rfl⟩ | rfl)
        · exact ⟨y, hy, rfl⟩
        · exact ⟨e, he, rfl⟩
      · rintro ⟨y, hy, rfl⟩
        by_cases hye : y.Value.ID = e.Value.ID
        · exact Or.inr hye
        · exact Or.inl ⟨y, ⟨hy, by simpa using hye⟩, rfl⟩
    · have hs : Min (CommonPrefixLength e.Value.ID.val (t.setBucket slot b').Self.ID.val)
          (t.setBucket slot b').MaxIndex = slot := by
        rw [← hslot, ← hcomm]; rfl
      simp only [BucketTree.Get, hs, hbk slot b' h0 h1, if_true, hg]
  have hunfold : ∀ ping : Node → Bool, BucketTree.Add ping t e.Value.ID addr
      = some (t.setBucket slot
        { (if e.Value.Address.String ≠ addr.String then b.setAddress e addr else b) with
          Queue := Queue.MoveToBack
            (if e.Value.Address.String ≠ addr.String then b.setAddress e addr else b).Queue
            e }) := by
    intro ping
    simp only [BucketTree.Add, addDepth, hcomm, hslot]
    rw [Bucket.add]
    simp only [hb, hget]
  by_cases haddr : e.Value.Address.String ≠ addr.String
  · simp only [if_pos haddr] at hunfold
    refine key _ addr hunfold (hwf.MoveToBack_setAddress e he addr) ?_ ?_ rfl (fun _ => rfl)
    · show ((b.Map.map fun kv => (kv.1, e.withAddress addr kv.2)).map Prod.fst) = _
      rw [List.map_map]; rfl
    · show GoMap.get (b.Map.map fun kv => (kv.1, e.withAddress addr kv.2)) _ = _
      rw [GoMap.get_map, hget]
      simp [Element.withAddress_self]
  · simp only [if_neg haddr] at hunfold
    have hsame : e.Value.Address.String = addr.String := by
      by_contra hcon; exact haddr hcon
    refine key _ e.Value.Address hunfold (hwf.MoveToBack_eq e he) rfl hget hsame
      (fun hcon => absurd hcon haddr)

set_option maxRecDepth 1000000 in
/-- Witness of `add_known_identifier`: `add` of the peer `80` of `tableA` with a new
address. -/
theorem add_known_identifier_witness :
    (Reachable tableA ∧
      tableA.bucket (Min (CommonPrefixLength tableA.Self.ID.val (sampleID 0x80).val)
        tableA.MaxIndex) = some bucketA0 ∧
      (⟨0, samplePeer 0x80⟩ : Element) ∈ bucketA0.Queue) ∧
    ∃ (t' : BucketTree) (a' : UDPAddr),
      (∀ ping : Node → Bool,
        BucketTree.Add ping tableA (sampleID 0x80) (sampleAddr 9) = some t') ∧
      t'.Get (sampleID 0x80) = some (some ⟨sampleID 0x80, a'⟩) ∧
      a'.String = (sampleAddr 9).String :=
  ⟨⟨tableA_reachable, by decide, by decide⟩,
    (let ⟨t', _, a', h1, _, _, _, _, _, _, h8, _, h10⟩ :=
      add_known_identifier tableA tableA_reachable (sampleID 0x80) (sampleAddr 9) bucketA0
        ⟨0, samplePeer 0x80⟩ (by decide) (by decide) rfl
     ⟨t', a', h1, h10, h8⟩)⟩

/-- Moving the first cell of the queue to the back. -/
theorem Queue.MoveToBack_head (old : Element) (rest : List Element)
    (hn : ((old :: rest).map Element.ptr).Nodup) :
    Queue.MoveToBack (old :: rest) old = rest ++ [old] ∧
      Queue.Remove (old :: rest) old = rest := by
  have hrm : Queue.Remove (old :: rest) old = rest := by
    simp only [List.map_cons, List.nodup_cons] at hn
    simp only [Queue.Remove, List.filter_cons, ne_eq, not_true_eq_false, decide_False,
      Bool.false_eq_true, if_false, List.filter_eq_self]
    intro x hx
    simp only [decide_not, Bool.not_eq_true', decide_eq_false_iff_not]
    intro hp
    exact hn.1 (hp ▸ List.mem_map_of_mem _ hx)
  refine ⟨?_, hrm⟩
  unfold Queue.MoveToBack
  rw [Queue.find_ptr _ _ hn (List.mem_cons_self _ _), hrm]
  rfl

/-- The slot computed for the identifier of a peer of the table is the slot of its bucket. -/
theorem BucketTree.Placed.slot_of_mem {t : BucketTree} (hc : t.Core) (hp : t.Placed [])
    (i : Int) (b : Bucket) (e : Element) (hb : t.bucket i = some b) (he : e ∈ b.Queue) :
    Min (CommonPrefixLength e.Value.ID.val t.Self.ID.val) t.MaxIndex = i := by
  rw [t.cpl_eq]
  obtain ⟨h1, h2⟩ := hp i b hb e he
  have hmax : i ≤ t.MaxIndex := by
    by_contra hcon
    have := hc.absent i (by omega)
    rw [hb] at this; simp at this
  unfold Min
  by_cases hlt : i < t.MaxIndex
  · rcases h1 hlt with h | ⟨-, -, q, hq, -⟩
    · split <;> omega
    · simp at hq
  · have := h2 (by omega)
    split <;> omega

/-- The path of `add` for an unknown identifier in a full bucket that does not split. -/
theorem Bucket.add_unsplit (ping : Node → Bool) (t : BucketTree) (h : Reachable t) (id : NodeID)
    (addr : UDPAddr) (b : Bucket) (old : Element) (rest : List Element)
    (hb : t.bucket (Min (CommonPrefixLength t.Self.ID.val id.val) t.MaxIndex) = some b)
    (hget : GoMap.get b.Map id = none) (hfull : b.Queue.length = K)
    (hns : ¬ (Min (CommonPrefixLength t.Self.ID.val id.val) t.MaxIndex = t.MaxIndex ∧
      t.MaxIndex < NodeIDLength * 8 - 1))
    (hq : b.Queue = old :: rest) :
    BucketTree.Add ping t id addr
      = if ping old.Value = true then
          some (t.setBucket (Min (CommonPrefixLength t.Self.ID.val id.val) t.MaxIndex)
            { b with Queue := rest ++ [old] })
        else
          some ({ t with nextPtr := t.nextPtr + 1 }.setBucket
            (Min (CommonPrefixLength t.Self.ID.val id.val) t.MaxIndex)
            { b with
              Queue := rest ++ [(⟨t.nextPtr, ⟨id, addr⟩⟩ : Element)]
              Map := GoMap.set b.Map id ⟨t.nextPtr, ⟨id, addr⟩⟩ }) := by
  obtain ⟨hc, -, -⟩ := h.inv
  have hcomm : CommonPrefixLength id.val t.Self.ID.val
      = CommonPrefixLength t.Self.ID.val id.val := CommonPrefixLength_comm _ _
  simp only [BucketTree.Add, addDepth, hcomm]
  generalize Min (CommonPrefixLength t.Self.ID.val id.val) t.MaxIndex = slot at hb hns ⊢
  have hwf := hc.wf slot b hb
  have hidx := hc.index slot b hb
  have hlen : ¬ b.Map.length < K := by
    have := hwf.sizeLe
    omega
  have hsplit : ¬ (b.Index = t.MaxIndex ∧ b.Index < NodeIDLength * 8 - 1) := by
    rw [hidx]
    intro hcon
    apply hns
    refine ⟨hcon.1, ?_⟩
    have := hcon.2
    rw [hcon.1] at this
    exact this
  have hnd : ((old :: rest).map Element.ptr).Nodup := hq ▸ hwf.ptrNodup
  obtain ⟨hmv, hrm⟩ := Queue.MoveToBack_head old rest hnd
  rw [Bucket.add]
  simp only [hb, hget, hlen, if_false, hsplit, hq, hmv, hrm, Queue.PushBack]

/-- The unsplit path when the probe succeeds, for an identifier without a key. In every
reachable table, when `add(id, addr)` of an identifier that is no key of the map of the
bucket at `min(CPL(self.id, id), MaxIndex)` finds it full and not able to split, and the probe
of its front peer succeeds, then the newcomer is not stored (it is in no map and no queue,
`Get(id)` returns nothing), `MaxIndex`, the other buckets and the map are unchanged, the
queue holds the same peers, and the probed peer is the last of the queue while the other
peers keep their order. An identifier whose peer was replaced in this bucket still has its
key and is not covered. -/
theorem add_oldest_alive (t : BucketTree) (h : Reachable t) (ping : Node → Bool) (id : NodeID)
    (addr : UDPAddr) (b : Bucket) (old : Element) (rest : List Element)
    (hb : t.bucket (Min (CommonPrefixLength t.Self.ID.val id.val) t.MaxIndex) = some b)
    (hget : GoMap.get b.Map id = none) (hfull : b.Queue.length = K)
    (hns : ¬ (Min (CommonPrefixLength t.Self.ID.val id.val) t.MaxIndex = t.MaxIndex ∧
      t.MaxIndex < NodeIDLength * 8 - 1))
    (hq : b.Queue = old :: rest) (hping : ping old.Value = true) :
    ∃ (t' : BucketTree) (b' : Bucket),
      BucketTree.Add ping t id addr = some t' ∧
      t'.Get id = some none ∧
      t'.MaxIndex = t.MaxIndex ∧
      (∀ j : Int, j ≠ Min (CommonPrefixLength t.Self.ID.val id.val) t.MaxIndex →
        t'.bucket j = t.bucket j) ∧
      t'.bucket (Min (CommonPrefixLength t.Self.ID.val id.val) t.MaxIndex) = some b' ∧
      b'.Queue = rest ++ [old] ∧ b'.Map = b.Map ∧
      (∀ x : Element, x ∈ b'.Queue ↔ x ∈ b.Queue) ∧
      (∀ x ∈ b'.Queue, x.Value.ID ≠ id) := by
  have hadd := Bucket.add_unsplit ping t h id addr b old rest hb hget hfull hns hq
  rw [if_pos hping] at hadd
  obtain ⟨hc, -, -⟩ := h.inv
  have hcomm : CommonPrefixLength id.val t.Self.ID.val
      = CommonPrefixLength t.Self.ID.val id.val := CommonPrefixLength_comm _ _
  generalize hslot : Min (CommonPrefixLength t.Self.ID.val id.val) t.MaxIndex = slot
    at hb hns hadd
  obtain ⟨h0, h1⟩ := BucketTree.bucket_some_range hb
  have hwf := hc.wf slot b hb
  have hbk := BucketTree.bucket_setBucket t slot
  refine ⟨_, { b with Queue := rest ++ [old] }, hadd, ?_, rfl, ?_, ?_, rfl, rfl, ?_, ?_⟩
  · have hs : Min (CommonPrefixLength id.val
        (t.setBucket slot { b with Queue := rest ++ [old] }).Self.ID.val)
        (t.setBucket slot { b with Queue := rest ++ [old] }).MaxIndex = slot := by
      rw [← hslot, ← hcomm]; rfl
    simp only [BucketTree.Get, hs, hbk slot _ h0 h1, if_true, hget]
  · intro j hj
    rw [hbk j _ h0 h1, if_neg hj]
  · rw [hbk slot _ h0 h1, if_pos rfl]
  · intro x
    rw [hq]
    simp only [List.mem_append, List.mem_cons, List.not_mem_nil, or_false]
    constructor
    · rintro (hx | hx)
      · exact Or.inr hx
      · exact Or.inl hx
    · rintro (hx | hx)
      · exact Or.inr hx
      · exact Or.inl hx
  · intro x hx hid
    have hxq : x ∈ b.Queue := by
      rw [hq]
      simp only [List.mem_append, List.mem_singleton] at hx
      rcases hx with hx | hx
      · exact List.mem_cons_of_mem _ hx
      · rw [hx]; exact List.mem_cons_self _ _
    have := hwf.inMap x hxq
    rw [hid, hget] at this
    simp at this

/-- C15 (the code diverges). In every reachable table, when `add(id, addr)` of an identifier
unknown to the bucket at `min(CPL(self.id, id), MaxIndex)` finds it full and not able to split,
and the probe of its front peer fails, then the front peer leaves the queue, the newcomer is
the last of the queue behind the other peers in their order, and `Get(id)` returns it with the
address `addr`; but the key of the front peer stays in the map, and `Get` of its identifier
still returns it. -/
theorem add_oldest_dead (t : BucketTree) (h : Reachable t) (ping : Node → Bool) (id : NodeID)
    (addr : UDPAddr) (b : Bucket) (old : Element) (rest : List Element)
    (hb : t.bucket (Min (CommonPrefixLength t.Self.ID.val id.val) t.MaxIndex) = some b)
    (hget : GoMap.get b.Map id = none) (hfull : b.Queue.length = K)
    (hns : ¬ (Min (CommonPrefixLength t.Self.ID.val id.val) t.MaxIndex = t.MaxIndex ∧
      t.MaxIndex < NodeIDLength * 8 - 1))
    (hq : b.Queue = old :: rest) (hping : ping old.Value = false) :
    ∃ (t' : BucketTree) (b' : Bucket),
      BucketTree.Add ping t id addr = some t' ∧
      t'.bucket (Min (CommonPrefixLength t.Self.ID.val id.val) t.MaxIndex) = some b' ∧
      b'.Queue = rest ++ [⟨t.nextPtr, ⟨id, addr⟩⟩] ∧
      (∀ x ∈ b'.Queue, x.Value.ID ≠ old.Value.ID) ∧
      t'.Get id = some (some ⟨id, addr⟩) ∧
      GoMap.get b'.Map old.Value.ID = some old ∧
      t'.Get old.Value.ID = some (some old.Value) := by
  have hadd := Bucket.add_unsplit ping t h id addr b old rest hb hget hfull hns hq
  rw [if_neg (by simp [hping])] at hadd
  obtain ⟨hc, hp, -⟩ := h.inv
  have hcomm : CommonPrefixLength id.val t.Self.ID.val
      = CommonPrefixLength t.Self.ID.val id.val := CommonPrefixLength_comm _ _
  have hold : old ∈ b.Queue := by rw [hq]; exact List.mem_cons_self _ _
  have hslot_old := hp.slot_of_mem hc _ b old hb hold
  generalize hslot : Min (CommonPrefixLength t.Self.ID.val id.val) t.MaxIndex = slot
    at hb hns hadd hslot_old
  obtain ⟨h0, h1⟩ := BucketTree.bucket_some_range hb
  have hwf := hc.wf slot b hb
  have hne : old.Value.ID ≠ id := by
    intro hid
    have := hwf.inMap old hold
    rw [hid, hget] at this
    simp at this
  have hgold : GoMap.get (GoMap.set b.Map id ⟨t.nextPtr, ⟨id, addr⟩⟩) old.Value.ID
      = some old := by
    rw [GoMap.get_set, if_neg hne]
    exact hwf.inMap old hold
  have hbk := BucketTree.bucket_setBucket { t with nextPtr := t.nextPtr + 1 } slot
  refine ⟨_, { b with
    Queue := rest ++ [(⟨t.nextPtr, ⟨id, addr⟩⟩ : Element)]
    Map := GoMap.set b.Map id ⟨t.nextPtr, ⟨id, addr⟩⟩ }, hadd, ?_, rfl, ?_, ?_, hgold, ?_⟩
  · rw [hbk slot _ h0 h1, if_pos rfl]
  · intro x hx hid
    simp only [List.mem_append, List.mem_singleton] at hx
    rcases hx with hx | hx
    · have hxq : x ∈ b.Queue := by rw [hq]; exact List.mem_cons_of_mem _ hx
      have := hwf.eq_of_ID_eq hxq hold hid
      subst this
      have hnd := hwf.ptrNodup
      rw [hq] at hnd
      simp only [List.map_cons, List.nodup_cons] at hnd
      exact hnd.1 (List.mem_map_of_mem _ hx)
    · subst hx
      exact hne hid.symm
  · have hs : Min (CommonPrefixLength id.val t.Self.ID.val) t.MaxIndex = slot := by
      rw [← hslot, ← hcomm]
    simp only [BucketTree.Get]
    show (match BucketTree.bucket _ (Min (CommonPrefixLength id.val t.Self.ID.val) t.MaxIndex)
      with
      | none => none
      | some bucket =>
        match GoMap.get bucket.Map id with
        | none => some none
        | some ptrElement => some (some ptrElement.Value)) = _
    rw [hs, hbk slot _ h0 h1, if_pos rfl]
    simp only [GoMap.get_set, if_true]
  · simp only [BucketTree.Get]
    show (match BucketTree.bucket _
        (Min (CommonPrefixLength old.Value.ID.val t.Self.ID.val) t.MaxIndex) with
      | none => none
      | some bucket =>
        match GoMap.get bucket.Map old.Value.ID with
        | none => some none
        | some ptrElement => some (some ptrElement.Value)) = _
    rw [hslot_old, hbk slot _ h0 h1, if_pos rfl]
    simp only [hgold]

set_option maxRecDepth 1000000 in
/-- Witness of `add_oldest_alive`: `add` of the peer `88` to `tableA`, whose bucket 0 is
full and is not the last bucket, when the probe of the peer `80` succeeds. -/
theorem add_oldest_alive_witness :
    (Reachable tableA ∧
      tableA.bucket (Min (CommonPrefixLength tableA.Self.ID.val (sampleID 0x88).val)
        tableA.MaxIndex) = some bucketA0 ∧
      GoMap.get bucketA0.Map (sampleID 0x88) = none ∧ bucketA0.Queue.length = K ∧
      bucketA0.Queue = ⟨0, samplePeer 0x80⟩
        :: sampleCells 1 [0x81, 0x82, 0x83, 0x84, 0x85, 0x86, 0x87]) ∧
    ∃ t' : BucketTree,
      BucketTree.Add (fun _ => true) tableA (sampleID 0x88) (sampleAddr 0x88) = some t' ∧
      t'.Get (sampleID 0x88) = some none ∧ t'.MaxIndex = tableA.MaxIndex :=
  ⟨⟨tableA_reachable, by decide, by decide, by decide, by decide⟩,
    (let ⟨t', _, h1, h2, h3, _⟩ :=
      add_oldest_alive tableA tableA_reachable (fun _ => true) (sampleID 0x88)
        (sampleAddr 0x88) bucketA0 ⟨0, samplePeer 0x80⟩
        (sampleCells 1 [0x81, 0x82, 0x83, 0x84, 0x85, 0x86, 0x87])
        (by decide) (by decide) (by decide) (by decide) (by decide) rfl
     ⟨t', h1, h2, h3⟩)⟩

set_option maxRecDepth 1000000 in
/-- Witness of `add_oldest_dead`: `add` of the peer `88` to `tableA` when the probe of the
peer `80` fails; afterwards `Get(80 00..00)` still returns the peer `80`. -/
theorem add_oldest_dead_witness :
    (Reachable tableA ∧
      tableA.bucket (Min (CommonPrefixLength tableA.Self.ID.val (sampleID 0x88).val)
        tableA.MaxIndex) = some bucketA0 ∧
      GoMap.get bucketA0.Map (sampleID 0x88) = none ∧ bucketA0.Queue.length = K ∧
      bucketA0.Queue = ⟨0, samplePeer 0x80⟩
        :: sampleCells 1 [0x81, 0x82, 0x83, 0x84, 0x85, 0x86, 0x87]) ∧
    ∃ t' : BucketTree,
      BucketTree.Add (fun _ => false) tableA (sampleID 0x88) (sampleAddr 0x88) = some t' ∧
      t'.Get (sampleID 0x88) = some (some (samplePeer 0x88)) ∧
      t'.Get (sampleID 0x80) = some (some (samplePeer 0x80)) :=
  ⟨⟨tableA_reachable, by decide, by decide, by decide, by decide⟩,
    (let ⟨t', _, h1, _, _, _, h5, _, h7⟩ :=
      add_oldest_dead tableA tableA_reachable (fun _ => false) (sampleID 0x88)
        (sampleAddr 0x88) bucketA0 ⟨0, samplePeer 0x80⟩
        (sampleCells 1 [0x81, 0x82, 0x83, 0x84, 0x85, 0x86, 0x87])
        (by decide) (by decide) (by decide) (by decide) (by decide) rfl
     ⟨t', h1, h5, h7⟩)⟩

set_option maxRecDepth 1000000 in
/-- C17 (the code diverges). The function `update` answers from the map, not from the queue:
in the reachable table `tableB`, where the peer `80` was replaced in bucket 0 and only its
key is left, `update(80 00..00)` returns ok and leaves the table as it is, although no peer
with that identifier is in a queue; on a known peer of the queue (`81`) it returns ok, and on
an identifier without key (`89`) it fails and leaves the table as it is. -/
theorem update_of_evicted_peer :
    Reachable tableB ∧
    (tableB.bucket (Min (CommonPrefixLength tableB.Self.ID.val (sampleID 0x80).val)
      tableB.MaxIndex)).map (fun b => b.Queue.map fun e => e.Value.ID)
      = some ([0x81, 0x82, 0x83, 0x84, 0x85, 0x86, 0x87, 0x88].map sampleID) ∧
    tableB.Update (sampleID 0x80) = some (true, tableB) ∧
    (tableB.Update (sampleID 0x81)).map Prod.fst = some true ∧
    tableB.Update (sampleID 0x89) = some (false, tableB) :=
  ⟨tableB_reachable, by decide, by decide, by decide, by decide⟩

set_option maxRecDepth 1000000 in
/-- C16 (the code diverges). In the reachable table `tableB` the identifier `80 00..00` is
unknown, it is in no queue: the peer `80` was replaced in bucket 0 and only its key is left in
the map. Bucket 0, the bucket of this identifier, is full with the peers `81`, .., `88` and
can not split, `MaxIndex` being 1. `Add(80 00..00, 10.0.0.9:54321)` with every probe
succeeding finds the key and takes the path of a familiar node, without a probe: afterwards
`Get(80 00..00)` returns a peer, with the new address, and the queue of bucket 0 is as it
was, the front peer `81` still at the front and not at the back. -/
theorem add_of_evicted_peer :
    Reachable tableB ∧
    (∀ ob ∈ tableB.Buckets, ∀ b ∈ ob, ∀ e ∈ b.Queue, e.Value.ID ≠ sampleID 0x80) ∧
    Min (CommonPrefixLength tableB.Self.ID.val (sampleID 0x80).val) tableB.MaxIndex = 0 ∧
    tableB.MaxIndex = 1 ∧
    (tableB.bucket 0).map (fun b => b.Queue.map fun e => e.Value)
      = some ([0x81, 0x82, 0x83, 0x84, 0x85, 0x86, 0x87, 0x88].map samplePeer) ∧
    (tableB.bucket 0).map (fun b => b.Queue.length) = some K ∧
    (BucketTree.Add (fun _ => true) tableB (sampleID 0x80) (sampleAddr 9)).bind
      (fun t => t.Get (sampleID 0x80)) = some (some ⟨sampleID 0x80, sampleAddr 9⟩) ∧
    (BucketTree.Add (fun _ => true) tableB (sampleID 0x80) (sampleAddr 9)).map
      (fun t => (t.bucket 0).map fun b => b.Queue.map fun e => e.Value)
      = some (some ([0x81, 0x82, 0x83, 0x84, 0x85, 0x86, 0x87, 0x88].map samplePeer)) ∧
    (BucketTree.Add (fun _ => false) tableB (sampleID 0x80) (sampleAddr 9)).map
      (fun t => (t.bucket 0, t.bucket 1, t.MaxIndex))
      = (BucketTree.Add (fun _ => true) tableB (sampleID 0x80) (sampleAddr 9)).map
        (fun t => (t.bucket 0, t.bucket 1, t.MaxIndex)) :=
  ⟨tableB_reachable, by decide, by decide, by decide, by decide, by decide, by decide,
    by decide, by decide⟩

/-! ## Splits that follow each other -/

/-- In a bucket whose map has as many keys as its queue has cells, every key is the
identifier of a cell of the queue. -/
theorem Bucket.WF.key_in_queue {b : Bucket} {n : Nat} (h : b.WF n)
    (heq : b.Map.length = b.Queue.length) (k : NodeID) (hk : k ∈ b.Map.map Prod.fst) :
    ∃ e ∈ b.Queue, e.Value.ID = k := by
  have hsub : (b.Queue.map fun e => e.Value.ID) ⊆ b.Map.map Prod.fst := by
    intro x hx
    obtain ⟨e, he, rfl⟩ := List.mem_map.1 hx
    have := h.inMap e he
    by_contra hcon
    rw [(GoMap.get_none_iff _ _).2 hcon] at this
    simp at this
  have hperm := (List.subperm_of_subset h.ids_nodup hsub).perm_of_length_le
    (by simp [heq])
  have := hperm.mem_iff.2 hk
  obtain ⟨e, he, hid⟩ := List.mem_map.1 this
  exact ⟨e, he, hid⟩

/-- An identifier that is in no cell of such a bucket is not a key of its map. -/
theorem Bucket.WF.get_none_of_not_mem {b : Bucket} {n : Nat} (h : b.WF n)
    (heq : b.Map.length = b.Queue.length) (id : NodeID)
    (hid : ∀ e ∈ b.Queue, e.Value.ID ≠ id) : GoMap.get b.Map id = none := by
  rw [GoMap.get_none_iff]
  intro hk
  obtain ⟨e, he, he'⟩ := h.key_in_queue heq id hk
  exact hid e he he'

/-- The transfer loop puts into the next bucket at most the peers that do not stay. -/
theorem Bucket.transfer_count (ping : Node → Bool) (d : Nat) (m : Int) (hm : 0 ≤ m) :
    ∀ (rest : List Element) (t : BucketTree), t.Splitting m rest →
      ∀ t2, Bucket.transfer (fun t v => Bucket.add ping (d + 1) t (m + 1) v) m m rest t
          = some t2 →
      ∀ nb nb2, t.bucket (m + 1) = some nb → t2.bucket (m + 1) = some nb2 →
        nb2.Map.length + (rest.filter fun p => t.cpl p.Value.ID = m).length
          ≤ nb.Map.length + rest.length := by
  intro rest
  induction rest with
  | nil =>
    intro t _ t2 htr nb nb2 hnb hnb2
    simp only [Bucket.transfer, Option.some.injEq] at htr
    subst htr
    rw [hnb] at hnb2
    simp only [Option.some.injEq] at hnb2
    subst hnb2
    simp
  | cons p rest ih =>
    intro t s t2 htr nb nb2 hnb hnb2
    obtain ⟨b, hb⟩ := s.core.mat m hm (by have := s.max; omega)
    by_cases hcpl : CommonPrefixLength t.Self.ID.val p.Value.ID.val ≠ m
    · obtain ⟨t1, hadd, s1, hself1⟩ := s.move ping d hm hcpl b hb
      simp only [Bucket.transfer, hcpl, ne_eq, not_false_eq_true, if_true, hb, hadd] at htr
      obtain ⟨h0, h1⟩ := BucketTree.bucket_some_range hb
      have hnb' : (t.setBucket m { b with
          Queue := Queue.Remove b.Queue p
          Map := GoMap.delete b.Map p.Value.ID }).bucket (m + 1) = some nb := by
        rw [BucketTree.bucket_setBucket t m (m + 1) _ h0 h1, if_neg (by omega)]
        exact hnb
      have hcnt := s.count nb hnb
      simp only [List.length_cons] at hcnt
      have hls1 := Bucket.add_localStep ping (d + 1) _ t1 (m + 1) p.Value nb hnb'
        (s.core.wf _ nb hnb) (Or.inr (Or.inl (by omega))) hadd
      obtain ⟨c0, nb1, hc0, hnb1, -, -, hlen1, -⟩ := hls1.here
      rw [hnb'] at hc0
      simp only [Option.some.injEq] at hc0
      subst hc0
      have := ih t1 s1 t2 htr nb1 nb2 hnb1 hnb2
      have hf : (List.filter (fun p => decide (t.cpl p.Value.ID = m)) (p :: rest))
          = List.filter (fun p => decide (t1.cpl p.Value.ID = m)) rest := by
        have hp : ¬ t.cpl p.Value.ID = m := hcpl
        simp only [List.filter_cons, hp, decide_False, Bool.false_eq_true, if_false]
        simp [BucketTree.cpl, hself1]
      rw [hf]
      simp only [List.length_cons]
      omega
    · have hcpl' : t.cpl p.Value.ID = m := by
        simpa [BucketTree.cpl] using hcpl
      simp only [Bucket.transfer, hcpl, if_false] at htr
      have := ih t (s.stay hcpl') t2 htr nb nb2 hnb hnb2
      simp only [List.filter_cons, hcpl', decide_True, if_true, List.length_cons]
      omega

/-- Split of the full frontier bucket by `add`: the call returns, `MaxIndex` grows by at
least one, and by exactly one when the new peer or a peer of the bucket stays in the slot
that was split, or when the new frontier is the last slot. -/
theorem Bucket.add_split (ping : Node → Bool) (d : Nat) (t : BucketTree) (node : Node)
    (b : Bucket) (hc : t.Core) (hp : t.Placed []) (ht : t.Tidy)
    (hb : t.bucket t.MaxIndex = some b) (hget : GoMap.get b.Map node.ID = none)
    (hfull : b.Queue.length = K) (hdeep : t.MaxIndex < NodeIDLength * 8 - 1)
    (hge : t.MaxIndex ≤ t.cpl node.ID)
    (hd : (NodeIDLength * 8 : Int) ≤ ((d + 2 : Nat) : Int) + t.MaxIndex) :
    ∃ t', Bucket.add ping (d + 2) t t.MaxIndex node = some t' ∧ t'.Core ∧
      t.MaxIndex + 1 ≤ t'.MaxIndex ∧
      ((t.cpl node.ID = t.MaxIndex ∨ (∃ e ∈ b.Queue, t.cpl e.Value.ID = t.MaxIndex) ∨
          t.MaxIndex + 1 = NodeIDLength * 8 - 1) → t'.MaxIndex = t.MaxIndex + 1) := by
  have hwf := hc.wf _ b hb
  have hidx := hc.index _ b hb
  have hbeq : b.Map.length = b.Queue.length := by
    rcases ht _ b hb with h | ⟨-, h⟩
    · exact h
    · exact absurd ⟨rfl, hdeep⟩ h
  have hfullm : ¬ b.Map.length < K := by rw [hbeq, hfull]; omega
  have hnr : ¬ (t.MaxIndex + 1 < 0 ∨ (t.Buckets.length : Int) ≤ t.MaxIndex + 1) := by
    have := hc.lo
    rw [hc.len]
    simp only [NodeIDLength] at hdeep ⊢
    omega
  have hstart := BucketTree.Splitting.start hc hp ht b hb hdeep
  obtain ⟨t2, htr, hc2, hp2, ht2, hmax2, hself2⟩ :=
    Bucket.transfer_all ping d t.MaxIndex hc.lo b.Queue _ hstart
  have hself : t2.Self = t.Self := by rw [hself2]; rfl
  have hcplt : CommonPrefixLength node.ID.val t2.Self.ID.val
      = CommonPrefixLength node.ID.val t.Self.ID.val := by rw [hself]
  have hd2 : (NodeIDLength * 8 : Int) ≤ ((d + 1 : Nat) : Int) + t2.MaxIndex := by
    rw [hmax2]; push_cast at hd ⊢; omega
  have hlo := hc.lo
  rw [Bucket.add]
  simp only [hb, hget, hfullm, if_false, hidx, true_and, hdeep, if_true,
    hnr, htr, hcplt, t.cpl_eq]
  by_cases hne : t.cpl node.ID ≠ t.MaxIndex
  · simp only [hne, ne_eq, not_false_eq_true, if_true]
    obtain ⟨t', r0, r1, -, -, -, r5⟩ := Bucket.add_inv ping (d + 1) t2 (t.MaxIndex + 1) node
      hc2 hp2 ht2
      (by
        rw [hcplt, t.cpl_eq, hmax2]
        unfold Min; split <;> omega) hd2
    refine ⟨t', r0, r1, by omega, ?_⟩
    intro hcond
    obtain ⟨nb2, hnb2⟩ := hc2.mat (t.MaxIndex + 1) (by omega) (by omega)
    have hns : GoMap.get nb2.Map node.ID ≠ none ∨ nb2.Map.length < K ∨
        ¬ (nb2.Index = t2.MaxIndex ∧ nb2.Index < NodeIDLength * 8 - 1) := by
      rcases hcond with h | ⟨e, he, hst⟩ | h
      · exact h.elim
      · right; left
        have hnb : (t.addBucket (t.MaxIndex + 1)
            { Index := t.MaxIndex + 1, Map := [], Queue := [] }).bucket (t.MaxIndex + 1)
              = some { Index := t.MaxIndex + 1, Map := [], Queue := [] } := by
          rw [BucketTree.addBucket_bucket t hc hdeep, if_pos rfl]
        have hcount := Bucket.transfer_count ping d t.MaxIndex hc.lo b.Queue _ hstart t2 htr
          _ nb2 hnb hnb2
        have hpos : 0 < (b.Queue.filter fun p =>
            decide ((t.addBucket (t.MaxIndex + 1)
              { Index := t.MaxIndex + 1, Map := [], Queue := [] }).cpl p.Value.ID
                = t.MaxIndex)).length := by
          apply List.length_pos_of_mem (a := e)
          rw [List.mem_filter]
          exact ⟨he, by simpa using hst⟩
        simp only [List.length_nil, zero_add] at hcount
        omega
      · right; right
        rw [hc2.index _ nb2 hnb2]
        intro hh
        omega
    have hls := Bucket.add_localStep ping (d + 1) t2 t' (t.MaxIndex + 1) node nb2 hnb2
      (hc2.wf _ nb2 hnb2) hns r0
    rw [hls.max, hmax2]
  · simp only [hne, if_false]
    obtain ⟨t', r0, r1, -, -, -, r5⟩ := Bucket.add_inv ping (d + 1) t2 t.MaxIndex node
      hc2 hp2 ht2
      (by
        rw [hcplt, t.cpl_eq, hmax2]
        unfold Min; split <;> omega) hd2
    refine ⟨t', r0, r1, by omega, ?_⟩
    intro _
    obtain ⟨b2, hb2⟩ := hc2.mat t.MaxIndex hlo (by omega)
    have hls := Bucket.add_localStep ping (d + 1) t2 t' t.MaxIndex node b2 hb2
      (hc2.wf _ b2 hb2)
      (Or.inr (Or.inr (by
        rw [hc2.index _ b2 hb2]
        intro hh
        omega))) r0
    rw [hls.max, hmax2]

set_option maxRecDepth 1000000 in
theorem tableC_reachable : Reachable tableC :=
  addAll_reachable false _ _ _ (Reachable.init (sampleID 0))
    (getD_of_isSome _ (NewBucketTree (sampleID 0)) (by decide))

set_option maxRecDepth 1000000 in
/-- C14 (counterexample). The table `tableC` of the peer `00..00` is reachable, its
`MaxIndex` is 0, below the last slot, its frontier bucket holds the `K` peers `20`, ..,
`27`, and the identifier `28 00..00` is in no bucket and has common prefix length 2 with the
local identifier; yet `Add` of it raises `MaxIndex` from 0 to 3, whatever the probes answer:
the eight peers and the newcomer all go on to the next bucket twice more, and each time the
full frontier bucket splits again. -/
theorem add_splits_three_times :
    Reachable tableC ∧ tableC.MaxIndex = 0 ∧ tableC.MaxIndex < NodeIDLength * 8 - 1 ∧
    tableC.bucket tableC.MaxIndex = some bucketC0 ∧ bucketC0.Queue.length = K ∧
    (∀ ob ∈ tableC.Buckets, ∀ b ∈ ob, ∀ e ∈ b.Queue, e.Value.ID ≠ sampleID 0x28) ∧
    tableC.MaxIndex ≤ CommonPrefixLength tableC.Self.ID.val (sampleID 0x28).val ∧
    (BucketTree.Add (fun _ => false) tableC (sampleID 0x28) (sampleAddr 0x28)).map
      (fun t => t.MaxIndex) = some 3 ∧
    (BucketTree.Add (fun _ => true) tableC (sampleID 0x28) (sampleAddr 0x28)).map
      (fun t => t.MaxIndex) = some 3 ∧
    ¬ (∀ (ping : Node → Bool) (t' : BucketTree),
        BucketTree.Add ping tableC (sampleID 0x28) (sampleAddr 0x28) = some t' →
        t'.MaxIndex = tableC.MaxIndex + 1) := by
  have hf : (BucketTree.Add (fun _ => false) tableC (sampleID 0x28) (sampleAddr 0x28)).map
      (fun t => t.MaxIndex) = some 3 := by decide
  refine ⟨tableC_reachable, by decide, by decide, by decide, by decide, by decide, by decide,
    hf, by decide, ?_⟩
  intro hall
  cases hadd : BucketTree.Add (fun _ => false) tableC (sampleID 0x28) (sampleAddr 0x28) with
  | none => rw [hadd] at hf; simp at hf
  | some t' =>
    have h1 := hall _ t' hadd
    rw [hadd] at hf
    simp only [Option.map_some', Option.some.injEq] at hf
    rw [hf] at h1
    revert h1
    decide

/-- C14 (amended). For every reachable table with `MaxIndex < NodeIDLength*8 - 1` whose
frontier bucket holds `K` peers, and every identifier `id` that is none of these peers,
with `CPL(self.id, id) >= MaxIndex`: `Add(id, addr)` returns for every outcome of the
liveness probes, and it raises `MaxIndex` by at least 1, to at most `NodeIDLength*8 - 1`;
it raises it by exactly 1 when `id` or one of the `K` peers of the frontier bucket has
common prefix length exactly `MaxIndex` with the local identifier, or when `MaxIndex + 1`
is the last slot. -/
theorem add_splits_frontier (t : BucketTree) (h : Reachable t) (ping : Node → Bool)
    (id : NodeID) (addr : UDPAddr) (b : Bucket)
    (hlt : t.MaxIndex < NodeIDLength * 8 - 1)
    (hb : t.bucket t.MaxIndex = some b) (hfull : b.Queue.length = K)
    (hnew : ∀ e ∈ b.Queue, e.Value.ID ≠ id)
    (hcpl : t.MaxIndex ≤ CommonPrefixLength t.Self.ID.val id.val) :
    ∃ t', BucketTree.Add ping t id addr = some t' ∧
      t.MaxIndex + 1 ≤ t'.MaxIndex ∧ t'.MaxIndex ≤ NodeIDLength * 8 - 1 ∧
      ((CommonPrefixLength t.Self.ID.val id.val = t.MaxIndex ∨
        (∃ e ∈ b.Queue, CommonPrefixLength t.Self.ID.val e.Value.ID.val = t.MaxIndex) ∨
        t.MaxIndex + 1 = NodeIDLength * 8 - 1) → t'.MaxIndex = t.MaxIndex + 1) := by
  obtain ⟨hc, hp, ht⟩ := h.inv
  have hwf := hc.wf _ b hb
  have hbeq : b.Map.length = b.Queue.length := by
    rcases ht _ b hb with h | ⟨-, h⟩
    · exact h
    · exact absurd ⟨rfl, hlt⟩ h
  have hget := hwf.get_none_of_not_mem hbeq id hnew
  have hlo := hc.lo
  have hslot : Min (CommonPrefixLength id.val t.Self.ID.val) t.MaxIndex = t.MaxIndex := by
    rw [CommonPrefixLength_comm]
    unfold Min
    split <;> omega
  obtain ⟨t', hadd, hc', hge, hex⟩ := Bucket.add_split ping (NodeIDLength * 8 - 1) t
    ⟨id, addr⟩ b hc hp ht hb hget hfull hlt hcpl
    (by simp only [NodeIDLength]; push_cast; omega)
  refine ⟨t', ?_, hge, ?_, hex⟩
  · simp only [BucketTree.Add, hslot]
    exact hadd
  · have := hc'.hi
    omega

set_option maxRecDepth 1000000 in
/-- Witness of `add_splits_frontier`: `Add` of the peer `80`, which differs from the local
identifier in the first bit, to `tableC` raises `MaxIndex` from 0 to 1. -/
theorem add_splits_frontier_witness :
    (Reachable tableC ∧ tableC.MaxIndex < NodeIDLength * 8 - 1 ∧
      tableC.bucket tableC.MaxIndex = some bucketC0 ∧ bucketC0.Queue.length = K ∧
      (∀ e ∈ bucketC0.Queue, e.Value.ID ≠ sampleID 0x80) ∧
      tableC.MaxIndex ≤ CommonPrefixLength tableC.Self.ID.val (sampleID 0x80).val ∧
      CommonPrefixLength tableC.Self.ID.val (sampleID 0x80).val = tableC.MaxIndex) ∧
    ∃ t' : BucketTree,
      BucketTree.Add (fun _ => false) tableC (sampleID 0x80) (sampleAddr 0x80) = some t' ∧
      t'.MaxIndex = tableC.MaxIndex + 1 :=
  ⟨⟨tableC_reachable, by decide, by decide, by decide, by decide, by decide, by decide⟩,
    (let ⟨t', h1, _, _, h4⟩ :=
      add_splits_frontier tableC tableC_reachable (fun _ => false) (sampleID 0x80)
        (sampleAddr 0x80) bucketC0 (by decide) (by decide) (by decide) (by decide)
        (by decide)
     ⟨t', h1, h4 (Or.inl (by decide))⟩)⟩

/-! ## The table of the outgoing requests -/

theorem CookieMap.get_after_delete (m : List (Cookie × Chan)) (k n : Cookie) :
    CookieMap.get (CookieMap.delete m k) n = if n = k then none else CookieMap.get m n := by
  induction m with
  | nil => simp [CookieMap.get, CookieMap.delete]
  | cons kv m ih =>
    unfold CookieMap.get CookieMap.delete at ih ⊢
    by_cases h1 : kv.1 = k <;> by_cases h2 : kv.1 = n <;> by_cases h3 : n = k <;>
      simp_all [List.filter_cons, List.find?_cons]

theorem CookieMap.get_after_set (m : List (Cookie × Chan)) (k n : Cookie) (v : Chan) :
    CookieMap.get (CookieMap.set m k v) n = if n = k then some v else CookieMap.get m n := by
  have hd := CookieMap.get_after_delete m k n
  unfold CookieMap.get CookieMap.set at *
  rw [List.find?_append]
  by_cases h : n = k
  · subst h
    simp only [if_true] at hd ⊢
    rw [Option.map_eq_none'] at hd
    rw [hd]
    simp
  · simp only [h, if_false] at hd ⊢
    cases hf : List.find? (fun kv => decide (kv.1 = n)) (CookieMap.delete m k) with
    | some x => rw [hf] at hd; simpa using hd
    | none =>
      rw [hf] at hd
      have : ¬ k = n := fun h' => h h'.symm
      simp only [Option.map_none'] at hd
      simp [this, ← hd]

/-- C18. For every table, nonce `n`, channel `s` and time: when `n` is a key of the map,
`Add(n, s)` returns `nil` and the table is the same, so that `Get(n)` still returns the
channel registered before; when `n` is no key of the map, `Add(n, s)` returns the nonce,
`Get(n)` then returns `s`, the queue is the former queue with one member for `n`, stamped
with the time of the call, at its back, `Get` of every other nonce returns what it returned
before, and no channel is closed. `Get` returns the table it was called on. -/
theorem register_lookup (table : CookieTable) (n : Cookie) (s : Chan) (now : Int) :
    (∀ s0, (table.Get n).1 = some s0 →
      table.Add n s now = (none, table) ∧ ((table.Add n s now).2.Get n).1 = some s0) ∧
    ((table.Get n).1 = none →
      (table.Add n s now).1 = some n ∧
      ((table.Add n s now).2.Get n).1 = some s ∧
      (table.Add n s now).2.Queue = table.Queue ++ [⟨n, now⟩] ∧
      (∀ m, m ≠ n → ((table.Add n s now).2.Get m).1 = (table.Get m).1) ∧
      (table.Add n s now).2.closed = table.closed) ∧
    (∀ m, (table.Get m).2 = table) := by
  have hget : ∀ (t : CookieTable) (m : Cookie), (t.Get m).1 = CookieMap.get t.Map m := by
    intro t m
    unfold CookieTable.Get
    cases CookieMap.get t.Map m <;> rfl
  refine ⟨?_, ?_, ?_⟩
  · intro s0 h0
    rw [hget] at h0
    have hadd : table.Add n s now = (none, table) := by
      simp only [CookieTable.Add, h0]
    rw [hadd]
    exact ⟨rfl, by rw [hget]; exact h0⟩
  · intro h0
    rw [hget] at h0
    have hadd : table.Add n s now = (some n,
        { table with
          Map := CookieMap.set table.Map n s
          Queue := table.Queue ++ [⟨n, now⟩] }) := by
      simp only [CookieTable.Add, h0]
    rw [hadd]
    refine ⟨rfl, ?_, rfl, ?_, rfl⟩
    · rw [hget]
      simp only [CookieMap.get_after_set, if_true]
    · intro m hm
      rw [hget, hget]
      simp only [CookieMap.get_after_set, hm, if_false]
  · intro m
    unfold CookieTable.Get
    cases CookieMap.get table.Map m <;> rfl

/-- Witness of `register_lookup`: in `cookieTableA` the nonce `sampleCookie` is registered
with the channel 0 and `sampleCookie2` is not registered. -/
theorem register_lookup_witness :
    ((cookieTableA.Get sampleCookie).1 = some 0 ∧
      cookieTableA.Add sampleCookie 5 Second = (none, cookieTableA) ∧
      ((cookieTableA.Add sampleCookie 5 Second).2.Get sampleCookie).1 = some 0) ∧
    ((cookieTableA.Get sampleCookie2).1 = none ∧
      (cookieTableA.Add sampleCookie2 1 Second).1 = some sampleCookie2 ∧
      ((cookieTableA.Add sampleCookie2 1 Second).2.Get sampleCookie2).1 = some 1 ∧
      ((cookieTableA.Add sampleCookie2 1 Second).2.Get sampleCookie).1 = some 0) :=
  ⟨⟨by decide,
      (register_lookup cookieTableA sampleCookie 5 Second).1 0 (by decide)⟩,
    ⟨by decide,
      ((register_lookup cookieTableA sampleCookie2 1 Second).2.1 (by decide)).1,
      ((register_lookup cookieTableA sampleCookie2 1 Second).2.1 (by decide)).2.1,
      by decide⟩⟩

/-- A member of the queue is past the timeout at the time `tNow` for the test of the sweep
exactly when the time since its stamp is at least `RequestTimeout` seconds. -/
theorem Duration.secondsLt_Sub (tNow ts : Int) :
    Duration.secondsLt (Time.Sub tNow ts) RequestTimeout = true
      ↔ tNow - ts < RequestTimeout * Second := by
  unfold Duration.secondsLt Time.Sub RequestTimeout Second
  simp only [decide_eq_true_eq]
  split
  · constructor <;> intro <;> omega
  · split
    · constructor <;> intro <;> omega
    · rfl

theorem CookieMap.mem_of_get {m : List (Cookie × Chan)} {k : Cookie} {c : Chan}
    (h : CookieMap.get m k = some c) : (k, c) ∈ m := by
  unfold CookieMap.get at h
  cases hf : m.find? (fun kv => kv.1 = k) with
  | none => rw [hf] at h; simp at h
  | some kv =>
    rw [hf] at h
    simp only [Option.map_some', Option.some.injEq] at h
    have h1 := List.find?_some hf
    have h2 := List.mem_of_find?_eq_some hf
    simp only [decide_eq_true_eq] at h1
    rw [← h1, ← h]
    exact h2

theorem CookieMap.delete_values {m : List (Cookie × Chan)} {k : Cookie} {c : Chan}
    (hnd : (m.map Prod.snd).Nodup) (h : CookieMap.get m k = some c) :
    ((CookieMap.delete m k).map Prod.snd).Nodup ∧
      c ∉ (CookieMap.delete m k).map Prod.snd ∧
      ∀ x ∈ (CookieMap.delete m k).map Prod.snd, x ∈ m.map Prod.snd := by
  have hsub : ((CookieMap.delete m k).map Prod.snd).Sublist (m.map Prod.snd) :=
    List.Sublist.map _ (List.filter_sublist _)
  refine ⟨hnd.sublist hsub, ?_, fun x hx => hsub.subset hx⟩
  intro hc
  obtain ⟨kv, hkv, hkc⟩ := List.mem_map.1 hc
  unfold CookieMap.delete at hkv
  rw [List.mem_filter] at hkv
  obtain ⟨hkv1, hkv2⟩ := hkv
  simp only [ne_eq, decide_not, Bool.not_eq_eq_eq_not, Bool.not_true,
    decide_eq_false_iff_not] at hkv2
  have hmem := CookieMap.mem_of_get h
  have hinj := List.inj_on_of_nodup_map hnd hkv1 hmem (by simpa using hkc)
  exact hkv2 (by rw [hinj])

/-- What the loop of the sweep does, from any member on, in a table whose channels are
distinct and open: it returns; a nonce is a key of the map afterwards exactly when it was one
and no member of the longest run of members past the timeout has it; the channels closed by it
are those of these members; the queue that is left is a final part of the former queue and
holds every member from the first one on that is not past the timeout. -/
theorem CookieTable.sweepLoop_spec (tNow : Int) :
    ∀ (q : List QueueMember) (prev : Option QueueMember) (map : List (Cookie × Chan))
      (closed : List Chan),
      (map.map Prod.snd).Nodup → (∀ c ∈ map.map Prod.snd, c ∉ closed) →
      ∃ t', CookieTable.sweepLoop tNow prev q map closed = some t' ∧
        (∀ n, CookieMap.get t'.Map n =
          if n ∈ (q.takeWhile fun r => !Duration.secondsLt (Time.Sub tNow r.timestamp)
              RequestTimeout).map QueueMember.ptrCookie
          then none else CookieMap.get map n) ∧
        (∀ c, c ∈ t'.closed ↔ c ∈ closed ∨
          ∃ r ∈ q.takeWhile fun r => !Duration.secondsLt (Time.Sub tNow r.timestamp)
              RequestTimeout, CookieMap.get map r.ptrCookie = some c) ∧
        (t'.Map.map Prod.snd).Nodup ∧ (∀ c ∈ t'.Map.map Prod.snd, c ∉ t'.closed) ∧
        (q.dropWhile fun r => !Duration.secondsLt (Time.Sub tNow r.timestamp)
              RequestTimeout) <:+ t'.Queue ∧
        t'.Queue <:+ prev.toList ++ q := by
  intro q
  induction q with
  | nil =>
    intro prev map closed hnd hop
    refine ⟨_, rfl, ?_, ?_, hnd, hop, ?_, ?_⟩
    · intro n; simp
    · intro c; simp
    · simp
    · simp
  | cons p rest ih =>
    intro prev map closed hnd hop
    by_cases hy : Duration.secondsLt (Time.Sub tNow p.timestamp) RequestTimeout = true
    · refine ⟨⟨map, p :: rest, closed⟩, by simp only [CookieTable.sweepLoop, hy, if_true],
        ?_, ?_, hnd, hop, ?_, ?_⟩
      · intro n; simp [List.takeWhile_cons, hy]
      · intro c; simp [List.takeWhile_cons, hy]
      · simp [List.dropWhile_cons, hy]
      · exact List.suffix_append _ _
    · cases hg : CookieMap.get map p.ptrCookie with
      | some channel =>
        have hch : channel ∉ closed :=
          hop channel (List.mem_map.2 ⟨_, CookieMap.mem_of_get hg, rfl⟩)
        obtain ⟨d1, d2, d3⟩ := CookieMap.delete_values hnd hg
        obtain ⟨t', h0, h1, h2, h3, h4, h5, h6⟩ := ih (some p)
          (CookieMap.delete map p.ptrCookie) (closed ++ [channel]) d1
          (by
            intro c hc hcl
            rw [List.mem_append, List.mem_singleton] at hcl
            rcases hcl with hcl | hcl
            · exact hop c (d3 c hc) hcl
            · exact d2 (hcl ▸ hc))
        refine ⟨t', by simp only [CookieTable.sweepLoop, hy, hg, hch, if_false]; exact h0,
          ?_, ?_, h3, h4, ?_, ?_⟩
        · intro n
          rw [h1 n, CookieMap.get_after_delete]
          simp only [List.takeWhile_cons, hy, Bool.not_false, if_true, List.map_cons,
            List.mem_cons]
          by_cases hn : n = p.ptrCookie
          · simp [hn]
          · simp [hn]
        · intro c
          rw [h2 c]
          simp only [List.takeWhile_cons, hy, Bool.not_false, if_true, List.mem_cons,
            List.mem_append, List.mem_singleton, CookieMap.get_after_delete, List.not_mem_nil,
            or_false]
          constructor
          · rintro ((hc | hc) | ⟨r, hr, hrc⟩)
            · exact Or.inl hc
            · exact Or.inr ⟨p, Or.inl rfl, by rw [hg, hc]⟩
            · split at hrc
              · simp at hrc
              · exact Or.inr ⟨r, Or.inr hr, hrc⟩
          · rintro (hc | ⟨r, hr | hr, hrc⟩)
            · exact Or.inl (Or.inl hc)
            · subst hr
              rw [hg] at hrc
              simp only [Option.some.injEq] at hrc
              exact Or.inl (Or.inr hrc.symm)
            · by_cases hrp : r.ptrCookie = p.ptrCookie
              · rw [hrp, hg] at hrc
                simp only [Option.some.injEq] at hrc
                exact Or.inl (Or.inr hrc.symm)
              · exact Or.inr ⟨r, hr, by rw [if_neg hrp]; exact hrc⟩
        · simpa [List.dropWhile_cons, hy] using h5
        · simp only [Option.toList_some, List.singleton_append] at h6
          exact h6.trans (List.suffix_append _ _)
      | none =>
        have hdel : CookieMap.delete map p.ptrCookie = map := by
          unfold CookieMap.delete
          rw [List.filter_eq_self]
          intro kv hkv
          simp only [ne_eq, decide_not, Bool.not_eq_eq_eq_not, Bool.not_true,
            decide_eq_false_iff_not]
          intro hk
          unfold CookieMap.get at hg
          rw [Option.map_eq_none', List.find?_eq_none] at hg
          exact hg kv hkv (by simpa using hk)
        obtain ⟨t', h0, h1, h2, h3, h4, h5, h6⟩ := ih (some p) map closed hnd hop
        refine ⟨t', by simp only [CookieTable.sweepLoop, hy, hg, hdel, if_false]; exact h0,
          ?_, ?_, h3, h4, ?_, ?_⟩
        · intro n
          rw [h1 n]
          simp only [List.takeWhile_cons, hy, Bool.not_false, if_true, List.map_cons,
            List.mem_cons]
          by_cases hn : n = p.ptrCookie
          · simp [hn, hg]
          · simp [hn]
        · intro c
          rw [h2 c]
          simp only [List.takeWhile_cons, hy, Bool.not_false, if_true, List.mem_cons]
          constructor
          · rintro (hc | ⟨r, hr, hrc⟩)
            · exact Or.inl hc
            · exact Or.inr ⟨r, Or.inr hr, hrc⟩
          · rintro (hc | ⟨r, hr | hr, hrc⟩)
            · exact Or.inl hc
            · subst hr
              rw [hg] at hrc
              simp at hrc
            · exact Or.inr ⟨r, hr, hrc⟩
        · simpa [List.dropWhile_cons, hy] using h5
        · simp only [Option.toList_some, List.singleton_append] at h6
          exact h6.trans (List.suffix_append _ _)

theorem CookieTable.Get_fst (table : CookieTable) (n : Cookie) :
    (table.Get n).1 = CookieMap.get table.Map n := by
  unfold CookieTable.Get
  cases CookieMap.get table.Map n <;> rfl

/-- In a queue with stamps that do not decrease, every member past the timeout is in the
run of such members that the queue starts with. -/
theorem QueueMember.mem_takeWhile (tNow : Int) :
    ∀ q : List QueueMember, (q.map QueueMember.timestamp).Pairwise (fun a b => a ≤ b) →
      ∀ r ∈ q, RequestTimeout * Second ≤ tNow - r.timestamp →
        r ∈ q.takeWhile fun r => !Duration.secondsLt (Time.Sub tNow r.timestamp)
          RequestTimeout := by
  intro q
  induction q with
  | nil => intro _ r hr; simp at hr
  | cons p rest ih =>
    intro hs r hr hexp
    simp only [List.map_cons, List.pairwise_cons, List.mem_map, forall_exists_index,
      and_imp, forall_apply_eq_imp_iff₂] at hs
    have hp : Duration.secondsLt (Time.Sub tNow p.timestamp) RequestTimeout = false := by
      rw [Bool.eq_false_iff, ne_eq, Duration.secondsLt_Sub]
      rcases List.mem_cons.1 hr with h | h
      · subst h; omega
      · have := hs.1 r h
        omega
    simp only [List.takeWhile_cons, hp, Bool.not_false, if_true, List.mem_cons]
    rcases List.mem_cons.1 hr with h | h
    · exact Or.inl h
    · exact Or.inr (ih hs.2 r h hexp)

theorem QueueMember.of_mem_takeWhile (tNow : Int) (q : List QueueMember) (r : QueueMember)
    (h : r ∈ q.takeWhile fun r => !Duration.secondsLt (Time.Sub tNow r.timestamp)
      RequestTimeout) :
    r ∈ q ∧ RequestTimeout * Second ≤ tNow - r.timestamp := by
  refine ⟨(List.takeWhile_sublist _).subset h, ?_⟩
  have := List.mem_takeWhile_imp h
  simp only [Bool.not_eq_eq_eq_not, Bool.not_true] at this
  rw [Bool.eq_false_iff, ne_eq, Duration.secondsLt_Sub] at this
  omega

/-- C19 (counterexample). In `cookieTableA` the only member of the queue, for the nonce
`sampleCookie` registered with the open channel 0, has the stamp 0; at the sweep 60 seconds
later its age is at most `RequestTimeout`, and yet the sweep closes the channel and deletes
the nonce from the map. -/
theorem sweep_at_the_timeout :
    (cookieTableA.Queue.map QueueMember.timestamp).Pairwise (fun a b => a ≤ b) ∧
    cookieTableA.Queue = [⟨sampleCookie, 0⟩] ∧
    (cookieTableA.Get sampleCookie).1 = some 0 ∧ 0 ∉ cookieTableA.closed ∧
    60 * Second - 0 ≤ RequestTimeout * Second ∧
    ∃ t', cookieTableA.sweep (60 * Second) = some t' ∧
      (t'.Get sampleCookie).1 = none ∧ 0 ∈ t'.closed :=
  ⟨by decide, by decide, by decide, by decide, by decide,
    ⟨⟨[], [⟨sampleCookie, 0⟩], [0]⟩, by decide, by decide, by decide⟩⟩

/-- C19 (amended). For every table whose queue has stamps that do not decrease and whose
channels are distinct and open, and every time `tNow`, one pass of the sweep returns, and:
every nonce with a member whose age `tNow - timestamp` is at least `RequestTimeout`
(60 s) is no key of the map afterwards, and the channel it had is closed; every nonce
without such a member has the channel it had, if any, and this channel is still open; no
other channel is closed; every member whose age is below `RequestTimeout` is still in
the queue, which is a final part of the former queue. -/
theorem sweep_spec (table : CookieTable) (tNow : Int)
    (hsorted : (table.Queue.map QueueMember.timestamp).Pairwise (fun a b => a ≤ b))
    (hdist : (table.Map.map Prod.snd).Nodup)
    (hopen : ∀ c ∈ table.Map.map Prod.snd, c ∉ table.closed) :
    ∃ table', table.sweep tNow = some table' ∧
      (∀ r ∈ table.Queue, RequestTimeout * Second ≤ tNow - r.timestamp →
        (table'.Get r.ptrCookie).1 = none ∧
        ∀ c, (table.Get r.ptrCookie).1 = some c → c ∈ table'.closed) ∧
      (∀ n, (∀ r ∈ table.Queue, r.ptrCookie = n → tNow - r.timestamp < RequestTimeout * Second) →
        (table'.Get n).1 = (table.Get n).1 ∧
        ∀ c, (table.Get n).1 = some c → c ∉ table'.closed) ∧
      (∀ c ∈ table'.closed, c ∈ table.closed ∨
        ∃ r ∈ table.Queue, RequestTimeout * Second ≤ tNow - r.timestamp ∧
          (table.Get r.ptrCookie).1 = some c) ∧
      (∀ r ∈ table.Queue, tNow - r.timestamp < RequestTimeout * Second → r ∈ table'.Queue) ∧
      table'.Queue <:+ table.Queue := by
  obtain ⟨t', h0, h1, h2, h3, h4, h5, h6⟩ :=
    CookieTable.sweepLoop_spec tNow table.Queue none table.Map table.closed hdist hopen
  refine ⟨t', h0, ?_, ?_, ?_, ?_, by simpa using h6⟩
  · intro r hr hexp
    have hmem := QueueMember.mem_takeWhile tNow table.Queue hsorted r hr hexp
    constructor
    · rw [CookieTable.Get_fst, h1, if_pos (List.mem_map.2 ⟨r, hmem, rfl⟩)]
    · intro c hc
      rw [CookieTable.Get_fst] at hc
      exact (h2 c).2 (Or.inr ⟨r, hmem, hc⟩)
  · intro n hn
    have hnot : n ∉ (table.Queue.takeWhile fun r =>
        !Duration.secondsLt (Time.Sub tNow r.timestamp) RequestTimeout).map
          QueueMember.ptrCookie := by
      intro hmem
      obtain ⟨r, hr, hrn⟩ := List.mem_map.1 hmem
      obtain ⟨hrq, hexp⟩ := QueueMember.of_mem_takeWhile tNow _ r hr
      have := hn r hrq hrn
      omega
    constructor
    · rw [CookieTable.Get_fst, CookieTable.Get_fst, h1, if_neg hnot]
    · intro c hc hcl
      rw [CookieTable.Get_fst] at hc
      rcases (h2 c).1 hcl with hcl | ⟨r, hr, hrc⟩
      · exact hopen c (List.mem_map.2 ⟨_, CookieMap.mem_of_get hc, rfl⟩) hcl
      · obtain ⟨hrq, hexp⟩ := QueueMember.of_mem_takeWhile tNow _ r hr
        have hinj := List.inj_on_of_nodup_map hdist (CookieMap.mem_of_get hc)
          (CookieMap.mem_of_get hrc) rfl
        have hnr : n = r.ptrCookie := congrArg Prod.fst hinj
        have := hn r hrq hnr.symm
        omega
  · intro c hc
    rcases (h2 c).1 hc with hcl | ⟨r, hr, hrc⟩
    · exact Or.inl hcl
    · obtain ⟨hrq, hexp⟩ := QueueMember.of_mem_takeWhile tNow _ r hr
      exact Or.inr ⟨r, hrq, hexp, by rw [CookieTable.Get_fst]; exact hrc⟩
  · intro r hr hyoung
    apply h5.subset
    have hsplit := List.takeWhile_append_dropWhile
      (fun r => !Duration.secondsLt (Time.Sub tNow r.timestamp) RequestTimeout) table.Queue
    rw [← hsplit, List.mem_append] at hr
    rcases hr with hr | hr
    · have := (QueueMember.of_mem_takeWhile tNow _ r hr).2
      omega
    · exact hr

/-- Witness of `sweep_spec`: the sweep of `cookieTableB` at the 60th second closes the
channel 0 of `sampleCookie`, stamped 0, and deletes this nonce, and it leaves
`sampleCookie2`, stamped one second later, with its channel 1, not closed. -/
theorem sweep_spec_witness :
    ((cookieTableB.Queue.map QueueMember.timestamp).Pairwise (fun a b => a ≤ b) ∧
      (cookieTableB.Map.map Prod.snd).Nodup ∧
      (∀ c ∈ cookieTableB.Map.map Prod.snd, c ∉ cookieTableB.closed)) ∧
    ∃ table', cookieTableB.sweep (60 * Second) = some table' ∧
      (table'.Get sampleCookie).1 = none ∧ 0 ∈ table'.closed ∧
      (table'.Get sampleCookie2).1 = some 1 ∧ 1 ∉ table'.closed :=
  ⟨⟨by decide, by decide, by decide⟩,
    (let ⟨t', h0, h1, h2, _⟩ :=
      sweep_spec cookieTableB (60 * Second) (by decide) (by decide) (by decide)
     ⟨t', h0,
      (h1 ⟨sampleCookie, 0⟩ (by decide) (by decide)).1,
      (h1 ⟨sampleCookie, 0⟩ (by decide) (by decide)).2 0 (by decide),
      (h2 sampleCookie2 (by decide)).1.trans (by decide),
      (h2 sampleCookie2 (by decide)).2 1 (by decide)⟩)⟩

/-- What holds of every table made by `Add` and the sweep: the stamps of the queue do not
decrease and are not after the time of the last call, the channels of the map are distinct
and open, and every key of the map has a member in the queue. -/
theorem CookieTable.Reachable.sound {t : Int} {table : CookieTable}
    (h : CookieTable.Reachable t table) :
    (table.Queue.map QueueMember.timestamp).Pairwise (fun a b => a ≤ b) ∧
    (∀ r ∈ table.Queue, r.timestamp ≤ t) ∧
    (table.Map.map Prod.snd).Nodup ∧
    (∀ c ∈ table.Map.map Prod.snd, c ∉ table.closed) ∧
    (∀ n c, CookieMap.get table.Map n = some c → ∃ r ∈ table.Queue, r.ptrCookie = n) := by
  induction h with
  | init t0 =>
    refine ⟨by simp [NewCookieTable], by simp [NewCookieTable], by simp [NewCookieTable],
      by simp [NewCookieTable], ?_⟩
    intro n c hc
    simp [NewCookieTable, CookieMap.get] at hc
  | @add t table now ptrCookie channel _ hle hcl hfresh ih =>
    obtain ⟨i1, i2, i3, i4, i5⟩ := ih
    cases hg : CookieMap.get table.Map ptrCookie with
    | some c0 =>
      have hadd : table.Add ptrCookie channel now = (none, table) := by
        simp only [CookieTable.Add, hg]
      rw [hadd]
      exact ⟨i1, fun r hr => le_trans (i2 r hr) hle, i3, i4, i5⟩
    | none =>
      have hadd : table.Add ptrCookie channel now = (some ptrCookie,
          { table with
            Map := CookieMap.set table.Map ptrCookie channel
            Queue := table.Queue ++ [⟨ptrCookie, now⟩] }) := by
        simp only [CookieTable.Add, hg]
      rw [hadd]
      have hsub : ((CookieMap.delete table.Map ptrCookie).map Prod.snd).Sublist
          (table.Map.map Prod.snd) := List.Sublist.map _ (List.filter_sublist _)
      refine ⟨?_, ?_, ?_, ?_, ?_⟩
      · simp only [List.map_append, List.map_cons, List.map_nil]
        rw [List.pairwise_append]
        refine ⟨i1, List.pairwise_singleton _ _, ?_⟩
        intro a ha b hb
        rw [List.mem_singleton] at hb
        obtain ⟨r, hr, rfl⟩ := List.mem_map.1 ha
        rw [hb]
        exact le_trans (i2 r hr) hle
      · intro r hr
        simp only [List.mem_append, List.mem_singleton] at hr
        rcases hr with hr | hr
        · exact le_trans (i2 r hr) hle
        · rw [hr]
      · simp only [CookieMap.set, List.map_append, List.map_cons, List.map_nil]
        rw [List.nodup_append]
        refine ⟨i3.sublist hsub, List.nodup_singleton _, ?_⟩
        intro a ha hb
        rw [List.mem_singleton] at hb
        exact hfresh (hb ▸ hsub.subset ha)
      · intro c hc
        simp only [CookieMap.set, List.map_append, List.map_cons, List.map_nil,
          List.mem_append, List.mem_singleton] at hc
        rcases hc with hc | hc
        · exact i4 c (hsub.subset hc)
        · rw [hc]; exact hcl
      · intro n c hc
        simp only [CookieMap.get_after_set] at hc
        by_cases hn : n = ptrCookie
        · exact ⟨⟨ptrCookie, now⟩, by simp, hn.symm⟩
        · rw [if_neg hn] at hc
          obtain ⟨r, hr, hrn⟩ := i5 n c hc
          exact ⟨r, List.mem_append_left _ hr, hrn⟩
  | @sweep t table table' tNow _ hle hsw ih =>
    obtain ⟨i1, i2, i3, i4, i5⟩ := ih
    obtain ⟨t', h0, h1, h2, h3, h4, h5, h6⟩ :=
      CookieTable.sweepLoop_spec tNow table.Queue none table.Map table.closed i3 i4
    have heq : table' = t' := by
      unfold CookieTable.sweep at hsw
      rw [h0] at hsw
      exact (Option.some.inj hsw).symm
    subst heq
    simp only [Option.toList_none, List.nil_append] at h6
    refine ⟨i1.sublist (List.Sublist.map _ h6.sublist),
      fun r hr => le_trans (i2 r (h6.subset hr)) hle, h3, h4, ?_⟩
    intro n c hc
    rw [h1] at hc
    split at hc
    · simp at hc
    · rename_i hnot
      obtain ⟨r, hr, hrn⟩ := i5 n c hc
      have hsplit := List.takeWhile_append_dropWhile
        (fun r => !Duration.secondsLt (Time.Sub tNow r.timestamp) RequestTimeout) table.Queue
      rw [← hsplit, List.mem_append] at hr
      rcases hr with hr | hr
      · exact absurd (List.mem_map.2 ⟨r, hr, hrn⟩) hnot
      · exact ⟨r, h5.subset hr, hrn⟩

/-- On every table made by `Add` and the sweep, the sweep returns. -/
theorem CookieTable.Reachable.sweep_returns {t : Int} {table : CookieTable}
    (h : CookieTable.Reachable t table) (tNow : Int) :
    ∃ table', table.sweep tNow = some table' := by
  obtain ⟨-, -, i3, i4, -⟩ := h.sound
  obtain ⟨t', h0, -⟩ :=
    CookieTable.sweepLoop_spec tNow table.Queue none table.Map table.closed i3 i4
  exact ⟨t', h0⟩

theorem cookieTableA_reachable : CookieTable.Reachable 0 cookieTableA :=
  CookieTable.Reachable.add 0 sampleCookie 0 (CookieTable.Reachable.init 0) (le_refl _)
    (by decide) (by decide)

theorem cookieTableC_reachable : CookieTable.Reachable (90 * Second) cookieTableC :=
  CookieTable.Reachable.sweep (90 * Second) cookieTableA_reachable (by decide) (by decide)

theorem cookieTableD_reachable : CookieTable.Reachable (91 * Second) cookieTableD :=
  CookieTable.Reachable.add (91 * Second) sampleCookie 2 cookieTableC_reachable (by decide)
    (by decide) (by decide)

/-- C20 (failing case). From the empty table, `Add` of `sampleCookie` at the time 0 and
then the sweep 90 seconds later give `cookieTableC`: the map has no key, yet the queue still
holds the member of `sampleCookie`, the last member that the sweep found past the timeout.
`Add` of the same nonce one second later succeeds and gives `cookieTableD`, whose queue holds
two members for the one key of the map. -/
theorem sweep_leaves_last_member :
    CookieTable.Reachable (90 * Second) cookieTableC ∧
    cookieTableC.Map = [] ∧ cookieTableC.Queue = [⟨sampleCookie, 0⟩] ∧
    (cookieTableC.Get sampleCookie).1 = none ∧
    (∃ r ∈ cookieTableC.Queue, r.ptrCookie = sampleCookie) ∧
    CookieTable.Reachable (91 * Second) cookieTableD ∧
    cookieTableD.Map = [(sampleCookie, 2)] ∧
    cookieTableD.Queue = [⟨sampleCookie, 0⟩, ⟨sampleCookie, 91 * Second⟩] ∧
    (cookieTableD.Queue.filter fun r => r.ptrCookie = sampleCookie).length = 2 :=
  ⟨cookieTableC_reachable, by decide, by decide, by decide, by decide,
    cookieTableD_reachable, by decide, by decide, by decide⟩

/-! ## `NewDatagram` -/

theorem Dumps_length (d : Datagram) : d.Dumps.length = d.Payload.length + 51 := by
  rw [Dumps_eq]
  have hc : d.MagicCookie.val.length = 20 := d.MagicCookie.property
  have hi : d.SourceNode.ID.val.length = 20 := d.SourceNode.ID.property
  simp [hc, hi, le64_length]
  omega

/-- C22. For every kind, direction, nonce, source peer, payload and time, `NewDatagram`
called with the nonce returns `nil` exactly when the datagram of these fields has a `Dumps`
of more than `MaxPackageSize` = 1460 bytes, that is when the payload has more than 1409
bytes; when it returns a datagram, this is the datagram of these fields, stamped with the
time, and its `Dumps` has at most 1460 bytes. Called without a nonce, it returns `nil` when
the random source fails and behaves as if called with the random nonce otherwise, so that
every datagram it returns has a `Dumps` of at most 1460 bytes. -/
theorem NewDatagram_oversize (rand : Option Cookie) (now : Int) (msgType : Byte) (isReq : Bool)
    (cookie : Cookie) (sourceNode : Node) (payload : List Byte) :
    (NewDatagram rand now msgType isReq (some cookie) sourceNode payload = none ↔
      MaxPackageSize < (Datagram.Dumps
        ⟨msgType, isReq, cookie, sourceNode, (now % 2 ^ 64).toNat, payload⟩).length) ∧
    (NewDatagram rand now msgType isReq (some cookie) sourceNode payload = none ↔
      1409 < payload.length) ∧
    (∀ d, NewDatagram rand now msgType isReq (some cookie) sourceNode payload = some d →
      d = ⟨msgType, isReq, cookie, sourceNode, (now % 2 ^ 64).toNat, payload⟩ ∧
      d.Dumps.length ≤ MaxPackageSize) ∧
    NewDatagram none now msgType isReq none sourceNode payload = none ∧
    NewDatagram (some cookie) now msgType isReq none sourceNode payload
      = NewDatagram rand now msgType isReq (some cookie) sourceNode payload := by
  have hnew : NewDatagram rand now msgType isReq (some cookie) sourceNode payload
      = if NodeIDLength + CookieLength + payload.length + 11 > MaxPackageSize then none
        else some ⟨msgType, isReq, cookie, sourceNode, (now % 2 ^ 64).toNat, payload⟩ := rfl
  refine ⟨?_, ?_, ?_, rfl, rfl⟩
  · rw [hnew, Dumps_length]
    simp only [NodeIDLength, CookieLength, MaxPackageSize]
    split <;> simp <;> omega
  · rw [hnew]
    simp only [NodeIDLength, CookieLength, MaxPackageSize]
    split <;> simp <;> omega
  · intro d hd
    rw [hnew] at hd
    split at hd
    · simp at hd
    · rename_i hle
      simp only [Option.some.injEq] at hd
      subst hd
      refine ⟨rfl, ?_⟩
      rw [Dumps_length]
      simp only [NodeIDLength, CookieLength, MaxPackageSize] at hle ⊢
      omega

/-- Witness of `NewDatagram_oversize`: a payload of 1410 bytes is refused, and the empty
payload of a probe gives `sampleProbe`, whose `Dumps` fits. -/
theorem NewDatagram_oversize_witness :
    NewDatagram none 258 Ping true (some sampleCookie) ⟨sampleID 0, sampleAddr 1⟩
      (List.replicate 1410 0) = none ∧
    NewDatagram none 258 Ping true (some sampleCookie) ⟨sampleID 0, sampleAddr 1⟩ NewPing
      = some sampleProbe ∧
    sampleProbe.Dumps.length ≤ MaxPackageSize :=
  ⟨(NewDatagram_oversize none 258 Ping true sampleCookie ⟨sampleID 0, sampleAddr 1⟩
      (List.replicate 1410 0)).2.1.2 (by rw [List.length_replicate]; decide),
    by decide,
    ((NewDatagram_oversize none 258 Ping true sampleCookie ⟨sampleID 0, sampleAddr 1⟩
      NewPing).2.2.1 sampleProbe (by decide)).2⟩

/-- A registration that is alone with its nonce outlives the timeout. In a table made by
`Add` and the sweep, let the nonce `n` have the open channel `s` and let every member of the
queue with this nonce be stamped `t0` or later. Then the same holds after any `Add`, and
after any sweep at a time before `t0 + RequestTimeout`. -/
theorem CookieTable.Reachable.lifetime {t : Int} {table : CookieTable}
    (h : CookieTable.Reachable t table) (n : Cookie) (s : Chan) (t0 : Int)
    (hget : (table.Get n).1 = some s) (hopen : s ∉ table.closed)
    (hstamp : ∀ r ∈ table.Queue, r.ptrCookie = n → t0 ≤ r.timestamp) :
    (∀ (m : Cookie) (c : Chan) (now : Int),
      ((table.Add m c now).2.Get n).1 = some s ∧ s ∉ (table.Add m c now).2.closed ∧
      ∀ r ∈ (table.Add m c now).2.Queue, r.ptrCookie = n → t0 ≤ r.timestamp) ∧
    (∀ tNow : Int, tNow < t0 + RequestTimeout * Second →
      ∃ table', table.sweep tNow = some table' ∧
        (table'.Get n).1 = some s ∧ s ∉ table'.closed ∧
        ∀ r ∈ table'.Queue, r.ptrCookie = n → t0 ≤ r.timestamp) := by
  obtain ⟨-, -, i3, i4, -⟩ := h.sound
  rw [CookieTable.Get_fst] at hget
  constructor
  · intro m c now
    cases hg : CookieMap.get table.Map m with
    | some c0 =>
      have hadd : table.Add m c now = (none, table) := by
        simp only [CookieTable.Add, hg]
      rw [hadd, CookieTable.Get_fst]
      exact ⟨hget, hopen, hstamp⟩
    | none =>
      have hadd : table.Add m c now = (some m,
          { table with
            Map := CookieMap.set table.Map m c
            Queue := table.Queue ++ [⟨m, now⟩] }) := by
        simp only [CookieTable.Add, hg]
      have hmn : n ≠ m := by
        intro hmn
        rw [hmn, hg] at hget
        simp at hget
      rw [hadd, CookieTable.Get_fst]
      refine ⟨?_, hopen, ?_⟩
      · simp only [CookieMap.get_after_set, hmn, if_false]
        exact hget
      · intro r hr hrn
        simp only [List.mem_append, List.mem_singleton] at hr
        rcases hr with hr | hr
        · exact hstamp r hr hrn
        · subst hr
          exact absurd hrn.symm hmn
  · intro tNow hlt
    obtain ⟨t', h0, h1, h2, -, -, -, h6⟩ :=
      CookieTable.sweepLoop_spec tNow table.Queue none table.Map table.closed i3 i4
    simp only [Option.toList_none, List.nil_append] at h6
    have hnot : ∀ r ∈ table.Queue.takeWhile (fun r =>
        !Duration.secondsLt (Time.Sub tNow r.timestamp) RequestTimeout),
        r.ptrCookie ≠ n := by
      intro r hr hrn
      obtain ⟨hrq, hexp⟩ := QueueMember.of_mem_takeWhile tNow _ r hr
      have := hstamp r hrq hrn
      omega
    refine ⟨t', h0, ?_, ?_, fun r hr hrn => hstamp r (h6.subset hr) hrn⟩
    · rw [CookieTable.Get_fst, h1, if_neg]
      · exact hget
      · intro hmem
        obtain ⟨r, hr, hrn⟩ := List.mem_map.1 hmem
        exact hnot r hr hrn
    · intro hcl
      rcases (h2 s).1 hcl with hcl | ⟨r, hr, hrc⟩
      · exact hopen hcl
      · have hinj := List.inj_on_of_nodup_map i3 (CookieMap.mem_of_get hget)
          (CookieMap.mem_of_get hrc) rfl
        exact hnot r hr (congrArg Prod.fst hinj).symm

/-- C21 (failing case). After `Add` of `sampleCookie` at the time 0 and the sweep at the
90th second, which leaves the member of this nonce in the queue (`cookieTableC`), `Add` of
the same nonce with the fresh channel 2 at the 91st second succeeds (`cookieTableD`). The
sweep at the 120th second, 29 seconds later and so before the 91st second plus
`RequestTimeout`, finds the old member past the timeout, closes the channel 2 and deletes the
nonce from the map. -/
theorem sweep_closes_young_sink :
    CookieTable.Reachable (90 * Second) cookieTableC ∧
    2 ∉ cookieTableC.closed ∧ 2 ∉ cookieTableC.Map.map Prod.snd ∧
    cookieTableC.Add sampleCookie 2 (91 * Second) = (some sampleCookie, cookieTableD) ∧
    (cookieTableD.Get sampleCookie).1 = some 2 ∧ 2 ∉ cookieTableD.closed ∧
    91 * Second ≤ 120 * Second ∧ 120 * Second < 91 * Second + RequestTimeout * Second ∧
    ∃ t', cookieTableD.sweep (120 * Second) = some t' ∧
      CookieTable.Reachable (120 * Second) t' ∧
      (t'.Get sampleCookie).1 = none ∧ 2 ∈ t'.closed :=
  ⟨cookieTableC_reachable, by decide, by decide, by decide, by decide, by decide, by decide,
    by decide,
    ⟨⟨[], [⟨sampleCookie, 91 * Second⟩], [0, 2]⟩, by decide,
      CookieTable.Reachable.sweep (120 * Second) cookieTableD_reachable (by decide)
        (by decide),
      by decide, by decide⟩⟩

/-! ## XOR distance and common prefix length -/

set_option maxRecDepth 100000 in
theorem LeadingZeros8_bounds (z : Byte) :
    LeadingZeros8 z < 8 →
      2 ^ (7 - LeadingZeros8 z) ≤ z.val ∧ z.val < 2 ^ (8 - LeadingZeros8 z) := by
  revert z; decide

theorem bigEndian_lt (a : List Byte) : bigEndian a < 256 ^ a.length := by
  induction a with
  | nil => simp [bigEndian]
  | cons x a ih =>
    have hx := x.isLt
    simp only [bigEndian, List.length_cons, pow_succ]
    nlinarith [Nat.zero_le (256 ^ a.length)]

/-- The big-endian value of the xor of two byte strings of the same length is below
`2 ^ (bits - cpl)`, and at least `2 ^ (bits - 1 - cpl)` when the strings differ, `cpl` being
what the loop of `CommonPrefixLength` counts. -/
theorem bigEndian_xor_bounds (a : List Byte) :
    ∀ b : List Byte, a.length = b.length →
      bigEndian (List.zipWith (fun x y => x ^^^ y) a b)
          < 2 ^ (8 * a.length - CommonPrefixLength.loop a b 0) ∧
        (CommonPrefixLength.loop a b 0 < 8 * a.length →
          2 ^ (8 * a.length - 1 - CommonPrefixLength.loop a b 0)
            ≤ bigEndian (List.zipWith (fun x y => x ^^^ y) a b)) := by
  induction a with
  | nil =>
    intro b hlen
    cases b with
    | nil => simp [bigEndian, CommonPrefixLength.loop]
    | cons y b => simp at hlen
  | cons x a ih =>
    intro b hlen
    cases b with
    | nil => simp at hlen
    | cons y b =>
      simp only [List.length_cons, Nat.add_right_cancel_iff] at hlen
      obtain ⟨ih1, ih2⟩ := ih b hlen
      have hzl : (List.zipWith (fun x y => x ^^^ y) a b).length = a.length := by
        simp [hlen]
      have hv := bigEndian_lt (List.zipWith (fun x y => x ^^^ y) a b)
      rw [hzl] at hv
      have h256 : (256 : Nat) ^ a.length = 2 ^ (8 * a.length) := by
        rw [show (256 : Nat) = 2 ^ 8 by norm_num, ← pow_mul]
      obtain ⟨hle8, -, -, hz⟩ := LeadingZeros8_spec (x ^^^ y)
      simp only [List.zipWith_cons_cons, bigEndian, hzl, List.length_cons]
      by_cases hL : LeadingZeros8 (x ^^^ y) = 8
      · have hloop : CommonPrefixLength.loop (x :: a) (y :: b) 0
            = 8 + CommonPrefixLength.loop a b 0 := by
          simp only [CommonPrefixLength.loop, hL, zero_add, ne_eq, not_true_eq_false, if_false]
          exact loop_count a b 8
        have hz0 : (x ^^^ y).val = 0 := by
          rw [hz.1 hL]; rfl
        rw [hloop, hz0, zero_mul, zero_add]
        constructor
        · rw [show 8 * (a.length + 1) - (8 + CommonPrefixLength.loop a b 0)
            = 8 * a.length - CommonPrefixLength.loop a b 0 by omega]
          exact ih1
        · intro hlt
          rw [show 8 * (a.length + 1) - 1 - (8 + CommonPrefixLength.loop a b 0)
            = 8 * a.length - 1 - CommonPrefixLength.loop a b 0 by omega]
          exact ih2 (by omega)
      · have hlt8 : LeadingZeros8 (x ^^^ y) < 8 := by omega
        have hloop : CommonPrefixLength.loop (x :: a) (y :: b) 0
            = LeadingZeros8 (x ^^^ y) := by
          simp only [CommonPrefixLength.loop, zero_add, ne_eq, hL, not_false_eq_true, if_true]
        obtain ⟨hlo, hhi⟩ := LeadingZeros8_bounds (x ^^^ y) hlt8
        rw [hloop, h256]
        constructor
        · rw [show 8 * (a.length + 1) - LeadingZeros8 (x ^^^ y)
            = (8 - LeadingZeros8 (x ^^^ y)) + 8 * a.length by omega, pow_add]
          rw [h256] at hv
          have : ((x ^^^ y).val + 1) * 2 ^ (8 * a.length)
              ≤ 2 ^ (8 - LeadingZeros8 (x ^^^ y)) * 2 ^ (8 * a.length) :=
            Nat.mul_le_mul_right _ hhi
          nlinarith
        · intro _
          rw [show 8 * (a.length + 1) - 1 - LeadingZeros8 (x ^^^ y)
            = (7 - LeadingZeros8 (x ^^^ y)) + 8 * a.length by omega, pow_add]
          have : 2 ^ (7 - LeadingZeros8 (x ^^^ y)) * 2 ^ (8 * a.length)
              ≤ (x ^^^ y).val * 2 ^ (8 * a.length) :=
            Nat.mul_le_mul_right _ hlo
          omega

/-- Two byte strings of the same length that agree on the bits before `k` and differ in
the bit `k` have the common prefix length `k`. -/
theorem loop_eq_of_bits (a b : List Byte) (hlen : a.length = b.length) (k : Nat)
    (hagree : ∀ j, j < k → bitAt a j = bitAt b j) (hdiff : bitAt a k ≠ bitAt b k) :
    CommonPrefixLength.loop a b 0 = k := by
  obtain ⟨h1, h2, h3, -⟩ := loop_spec a b hlen
  rcases Nat.lt_trichotomy (CommonPrefixLength.loop a b 0) k with h | h | h
  · exact absurd (hagree _ h) (h3 (by
      by_contra hcon
      have : CommonPrefixLength.loop a b 0 = 8 * a.length := by omega
      rw [this] at h
      apply hdiff
      have h8 : a.length ≤ k / 8 := by omega
      have h8b : b.length ≤ k / 8 := by omega
      simp only [bitAt, List.getD_eq_getElem?_getD, List.getElem?_eq_none h8,
        List.getElem?_eq_none h8b]))
  · exact h
  · exact absurd (h2 k h) hdiff

/-- Two byte strings of the same length that agree on the bits before `k` have a common
prefix length of at least `k`. -/
theorem loop_ge_of_bits (a b : List Byte) (hlen : a.length = b.length) (k : Nat)
    (hk : k ≤ 8 * a.length) (hagree : ∀ j, j < k → bitAt a j = bitAt b j) :
    k ≤ CommonPrefixLength.loop a b 0 := by
  obtain ⟨h1, h2, h3, -⟩ := loop_spec a b hlen
  by_contra hcon
  have hlt : CommonPrefixLength.loop a b 0 < k := by omega
  exact h3 (by omega) (hagree _ hlt)

theorem CommonPrefixLength_loop (a b : NodeID) :
    CommonPrefixLength a.val b.val = ((CommonPrefixLength.loop a.val b.val 0 : Nat) : Int) := by
  have hl : a.val.length = b.val.length := by rw [a.property, b.property]
  simp only [CommonPrefixLength, hl, ne_eq, not_true_eq_false, if_false]

/-- The XOR distance of two identifiers with the common prefix length `m` is below
`2 ^ (160 - m)`, and it is at least `2 ^ (159 - m)` when `m` is below 160. -/
theorem xorDistance_bounds (a b : NodeID) (m : Nat)
    (hm : CommonPrefixLength a.val b.val = (m : Int)) :
    xorDistance a b < 2 ^ (160 - m) ∧ (m < 160 → 2 ^ (159 - m) ≤ xorDistance a b) := by
  have hl : a.val.length = b.val.length := by rw [a.property, b.property]
  rw [CommonPrefixLength_loop] at hm
  have hm' : CommonPrefixLength.loop a.val b.val 0 = m := by exact_mod_cast hm
  have := bigEndian_xor_bounds a.val b.val hl
  rw [hm', a.property] at this
  exact this

/-- The common prefix lengths of an identifier `x` with the peers of the buckets around
its slot: when `x` has `c` leading bits in common with `s`, a peer with fewer, `k`, has the
same `k` in common with `x`; a peer with more has exactly `c` in common with `x`; and a peer
with exactly `c`, below 160, has more than `c` in common with `x`. -/
theorem CommonPrefixLength_triangle (s x p : NodeID) (c k : Nat)
    (hx : CommonPrefixLength s.val x.val = (c : Int))
    (hp : CommonPrefixLength s.val p.val = (k : Int)) :
    (k < c → CommonPrefixLength x.val p.val = (k : Int)) ∧
    (c < k → CommonPrefixLength x.val p.val = (c : Int)) ∧
    (k = c → c < 160 → ∃ m : Nat, CommonPrefixLength x.val p.val = (m : Int) ∧ c < m) := by
  have hsx : s.val.length = x.val.length := by rw [s.property, x.property]
  have hsp : s.val.length = p.val.length := by rw [s.property, p.property]
  have hxp : x.val.length = p.val.length := by rw [x.property, p.property]
  rw [CommonPrefixLength_loop] at hx hp
  have hx' : CommonPrefixLength.loop s.val x.val 0 = c := by exact_mod_cast hx
  have hp' : CommonPrefixLength.loop s.val p.val 0 = k := by exact_mod_cast hp
  obtain ⟨x1, x2, x3, -⟩ := loop_spec s.val x.val hsx
  obtain ⟨p1, p2, p3, -⟩ := loop_spec s.val p.val hsp
  rw [hx'] at x1 x2 x3
  rw [hp'] at p1 p2 p3
  rw [s.property] at x1 x3 p1 p3
  simp only [NodeIDLength] at x1 x3 p1 p3
  refine ⟨?_, ?_, ?_⟩
  · intro hkc
    rw [CommonPrefixLength_loop]
    congr 1
    apply loop_eq_of_bits _ _ hxp
    · intro j hj
      rw [← x2 j (by omega), p2 j hj]
    · rw [← x2 k hkc]
      exact p3 (by omega)
  · intro hck
    rw [CommonPrefixLength_loop]
    congr 1
    apply loop_eq_of_bits _ _ hxp
    · intro j hj
      rw [← x2 j hj, p2 j (by omega)]
    · rw [← p2 c hck]
      exact fun h => x3 (by omega) h.symm
  · intro hkc hc
    subst hkc
    refine ⟨CommonPrefixLength.loop x.val p.val 0, CommonPrefixLength_loop x p, ?_⟩
    apply loop_ge_of_bits _ _ hxp (k + 1) (by rw [x.property]; simp only [NodeIDLength]; omega)
    intro j hj
    by_cases hjk : j < k
    · rw [← x2 j hjk, p2 j hjk]
    · have hjk' : j = k := by omega
      subst hjk'
      have hx3 := x3 hc
      have hp3 := p3 hc
      revert hx3 hp3
      cases bitAt s.val j <;> cases bitAt x.val j <;> cases bitAt p.val j <;> simp

/-- C23 (amended). For every routing table with the placement invariant, every identifier
`id` with `i = min(CPL(self.id, id), MaxIndex) >= 1`, every peer `p` of the bucket `i - 1`
and every peer `q` of a bucket deeper than `i`: `q` is closer to `id` than `p` in XOR
distance, strictly; and every peer `r` of the bucket `i` is closer to `id` than `q`. -/
theorem deeper_buckets_are_closer (t : BucketTree) (hplaced : t.Placed []) (id : NodeID)
    (i : Int) (hi : i = Min (CommonPrefixLength t.Self.ID.val id.val) t.MaxIndex)
    (_h1 : 1 ≤ i)
    (bp : Bucket) (p : Element) (hbp : t.bucket (i - 1) = some bp) (hp : p ∈ bp.Queue)
    (j : Int) (bq : Bucket) (q : Element) (hij : i < j) (hj : j ≤ t.MaxIndex)
    (hbq : t.bucket j = some bq) (hq : q ∈ bq.Queue) :
    xorDistance id q.Value.ID < xorDistance id p.Value.ID ∧
    ∀ (br : Bucket) (r : Element), t.bucket i = some br → r ∈ br.Queue →
      xorDistance id r.Value.ID < xorDistance id q.Value.ID := by
  obtain ⟨c, hc⟩ : ∃ c : Nat, CommonPrefixLength t.Self.ID.val id.val = (c : Int) :=
    ⟨_, CommonPrefixLength_loop _ _⟩
  obtain ⟨kp, hkp⟩ : ∃ k : Nat, CommonPrefixLength t.Self.ID.val p.Value.ID.val = (k : Int) :=
    ⟨_, CommonPrefixLength_loop _ _⟩
  obtain ⟨kq, hkq⟩ : ∃ k : Nat, CommonPrefixLength t.Self.ID.val q.Value.ID.val = (k : Int) :=
    ⟨_, CommonPrefixLength_loop _ _⟩
  have hic : i = c := by
    rw [hc] at hi
    unfold Min at hi
    split at hi <;> omega
  have hqr := t.cpl_range q.Value.ID
  simp only [BucketTree.cpl, hkq, NodeIDLength] at hqr
  -- the peer of the bucket before
  have hpp := (hplaced (i - 1) bp hbp p hp).1 (by omega)
  have hkp' : (kp : Int) = i - 1 := by
    rcases hpp with h | ⟨-, -, x, hx, -⟩
    · rw [← hkp]; exact h
    · simp at hx
  -- the peer of the deeper bucket
  have hqq := hplaced j bq hbq q hq
  have hkq' : j ≤ (kq : Int) := by
    rcases lt_or_eq_of_le hj with hlt | heq
    · rcases hqq.1 hlt with h | ⟨-, -, x, hx, -⟩
      · have : t.cpl q.Value.ID = (kq : Int) := hkq
        omega
      · simp at hx
    · have := hqq.2 heq
      have h2 : t.cpl q.Value.ID = (kq : Int) := hkq
      omega
  have hxp := (CommonPrefixLength_triangle t.Self.ID id p.Value.ID c kp hc hkp).1 (by omega)
  have hxq := (CommonPrefixLength_triangle t.Self.ID id q.Value.ID c kq hc hkq).2.1 (by omega)
  obtain ⟨-, dp⟩ := xorDistance_bounds id p.Value.ID kp hxp
  obtain ⟨dq1, dq2⟩ := xorDistance_bounds id q.Value.ID c hxq
  have dp' := dp (by omega)
  have dq2' := dq2 (by omega)
  have hexp : 159 - kp = 160 - c := by omega
  rw [hexp] at dp'
  refine ⟨lt_of_lt_of_le dq1 dp', ?_⟩
  intro br r hbr hr
  obtain ⟨kr, hkr⟩ : ∃ k : Nat, CommonPrefixLength t.Self.ID.val r.Value.ID.val = (k : Int) :=
    ⟨_, CommonPrefixLength_loop _ _⟩
  have hrr := (hplaced i br hbr r hr).1 (by omega)
  have hkr' : kr = c := by
    rcases hrr with h | ⟨-, -, x, hx, -⟩
    · have : t.cpl r.Value.ID = (kr : Int) := hkr
      omega
    · simp at hx
  obtain ⟨m, hm, hcm⟩ :=
    (CommonPrefixLength_triangle t.Self.ID id r.Value.ID c kr hc hkr).2.2 hkr' (by omega)
  obtain ⟨dr, -⟩ := xorDistance_bounds id r.Value.ID m hm
  have hpow : 2 ^ (160 - m) ≤ 2 ^ (159 - c) :=
    Nat.pow_le_pow_right (by norm_num) (by omega)
  exact lt_of_lt_of_le dr (le_trans hpow dq2')

set_option maxRecDepth 1000000 in
theorem tableE_reachable : Reachable tableE :=
  addAll_reachable false _ _ _ (Reachable.init (sampleID 0))
    (getD_of_isSome _ (NewBucketTree (sampleID 0)) (by decide))

set_option maxRecDepth 1000000 in
/-- C23 (counterexample). The table `tableE` of the peer `00..00` is reachable and has the
placement invariant; for the identifier `40 00..00` the slot is `i = 1`; the peer `80` is in
the bucket `i - 1 = 0` and the peer `21` in the deeper bucket 2; the XOR distance from
`40 00..00` to `80 00..00` is `C0 00..00`, to `21 00..00` it is `61 00..00`: the peer of the
bucket 0 is not at least as close as the peer of the deeper bucket. `GetK(40 00..00)`
returns the peers `50` and `80` and none of the closer peers of bucket 2. -/
theorem fallback_bucket_is_not_closer :
    Reachable tableE ∧ tableE.Placed [] ∧
    Min (CommonPrefixLength tableE.Self.ID.val (sampleID 0x40).val) tableE.MaxIndex = 1 ∧
    tableE.bucket (1 - 1) = some bucketE0 ∧
    bucketE0.Queue.map (fun e => e.Value) = [samplePeer 0x80] ∧
    (1 : Int) < 2 ∧ 2 ≤ tableE.MaxIndex ∧ tableE.bucket 2 = some bucketE2 ∧
    samplePeer 0x21 ∈ bucketE2.Queue.map (fun e => e.Value) ∧
    xorDistance (sampleID 0x40) (sampleID 0x80) = 0xC0 * 256 ^ 19 ∧
    xorDistance (sampleID 0x40) (sampleID 0x21) = 0x61 * 256 ^ 19 ∧
    ¬ (xorDistance (sampleID 0x40) (samplePeer 0x80).ID
        ≤ xorDistance (sampleID 0x40) (samplePeer 0x21).ID) ∧
    tableE.GetK (sampleID 0x40) = some [samplePeer 0x50, samplePeer 0x80] :=
  ⟨tableE_reachable, tableE_reachable.inv.2.1, by decide, by decide, by decide, by decide,
    by decide, by decide, by decide, by decide, by decide, by decide, by decide⟩

set_option maxRecDepth 1000000 in
/-- Witness of `deeper_buckets_are_closer`: in `tableE`, for the identifier `40 00..00`, the
peers of bucket 2 are closer than the peer `80` of bucket 0, and the peer `50` of bucket 1 is
closer than the peers of bucket 2. -/
theorem deeper_buckets_are_closer_witness :
    (tableE.Placed [] ∧
      (1 : Int) = Min (CommonPrefixLength tableE.Self.ID.val (sampleID 0x40).val)
        tableE.MaxIndex ∧
      tableE.bucket (1 - 1) = some bucketE0 ∧
      bucketE0.Queue.headD ⟨0, samplePeer 0⟩ ∈ bucketE0.Queue ∧
      (bucketE0.Queue.headD ⟨0, samplePeer 0⟩).Value = samplePeer 0x80 ∧
      (1 : Int) < 2 ∧ 2 ≤ tableE.MaxIndex ∧ tableE.bucket 2 = some bucketE2 ∧
      bucketE2.Queue.headD ⟨0, samplePeer 0⟩ ∈ bucketE2.Queue ∧
      (bucketE2.Queue.headD ⟨0, samplePeer 0⟩).Value = samplePeer 0x21 ∧
      tableE.bucket 1 = some bucketE1 ∧
      bucketE1.Queue.headD ⟨0, samplePeer 0⟩ ∈ bucketE1.Queue ∧
      (bucketE1.Queue.headD ⟨0, samplePeer 0⟩).Value = samplePeer 0x50) ∧
    xorDistance (sampleID 0x40) (bucketE2.Queue.headD ⟨0, samplePeer 0⟩).Value.ID
      < xorDistance (sampleID 0x40) (bucketE0.Queue.headD ⟨0, samplePeer 0⟩).Value.ID ∧
    xorDistance (sampleID 0x40) (bucketE1.Queue.headD ⟨0, samplePeer 0⟩).Value.ID
      < xorDistance (sampleID 0x40) (bucketE2.Queue.headD ⟨0, samplePeer 0⟩).Value.ID :=
  ⟨⟨tableE_reachable.inv.2.1, by decide, by decide, by decide, by decide, by decide,
      by decide, by decide, by decide, by decide, by decide, by decide, by decide⟩,
    (deeper_buckets_are_closer tableE tableE_reachable.inv.2.1 (sampleID 0x40) 1 (by decide)
      (by decide) bucketE0 (bucketE0.Queue.headD ⟨0, samplePeer 0⟩) (by decide) (by decide)
      2 bucketE2 (bucketE2.Queue.headD ⟨0, samplePeer 0⟩) (by decide) (by decide) (by decide)
      (by decide)).1,
    (deeper_buckets_are_closer tableE tableE_reachable.inv.2.1 (sampleID 0x40) 1 (by decide)
      (by decide) bucketE0 (bucketE0.Queue.headD ⟨0, samplePeer 0⟩) (by decide) (by decide)
      2 bucketE2 (bucketE2.Queue.headD ⟨0, samplePeer 0⟩) (by decide) (by decide) (by decide)
      (by decide)).2 bucketE1 (bucketE1.Queue.headD ⟨0, samplePeer 0⟩) (by decide)
      (by decide)⟩

/-! ## Depth of the recursion of `add` -/

/-- The transfer loop returns the same table with any `addNext` that returns what the
first one returns. -/
theorem Bucket.transfer_mono (f g : BucketTree → Node → Option BucketTree) (slot index : Int)
    (hfg : ∀ t v r, f t v = some r → g t v = some r) :
    ∀ (rest : List Element) (t r : BucketTree),
      Bucket.transfer f slot index rest t = some r →
      Bucket.transfer g slot index rest t = some r := by
  intro rest
  induction rest with
  | nil =>
    intro t r h
    simpa [Bucket.transfer] using h
  | cons p rest ih =>
    intro t r h
    simp only [Bucket.transfer] at h ⊢
    by_cases hne : CommonPrefixLength t.Self.ID.val p.Value.ID.val ≠ index
    · rw [if_pos hne] at h ⊢
      cases hb : t.bucket slot with
      | none => simp [hb] at h
      | some b =>
        simp only [hb] at h ⊢
        cases hf : f (t.setBucket slot
            { b with
              Queue := Queue.Remove b.Queue p
              Map := GoMap.delete b.Map p.Value.ID }) p.Value with
        | none => rw [hf] at h; simp at h
        | some t1 =>
          rw [hf] at h
          rw [hfg _ _ _ hf]
          exact ih _ _ h
    · rw [if_neg hne] at h ⊢
      exact ih _ _ h

/-- More depth does not change what `add` returns. -/
theorem Bucket.add_fuel (ping : Node → Bool) :
    ∀ (d : Nat) (t : BucketTree) (s : Int) (n : Node) (r : BucketTree),
      Bucket.add ping d t s n = some r → Bucket.add ping (d + 1) t s n = some r := by
  intro d
  induction d with
  | zero =>
    intro t s n r h
    simp [Bucket.add] at h
  | succ d ih =>
    intro t s n r h
    rw [Bucket.add] at h ⊢
    cases hb : t.bucket s with
    | none => simp [hb] at h
    | some b =>
      simp only [hb] at h ⊢
      cases hg : GoMap.get b.Map n.ID with
      | some e =>
        simp only [hg] at h ⊢
        exact h
      | none =>
        simp only [hg] at h ⊢
        by_cases h1 : b.Map.length < K
        · rw [if_pos h1] at h ⊢
          exact h
        · rw [if_neg h1] at h ⊢
          by_cases h2 : b.Index = t.MaxIndex ∧ b.Index < NodeIDLength * 8 - 1
          · rw [if_pos h2] at h ⊢
            by_cases h3 : b.Index + 1 < 0 ∨ (t.Buckets.length : Int) ≤ b.Index + 1
            · rw [if_pos h3] at h
              simp at h
            · rw [if_neg h3] at h ⊢
              cases htr : Bucket.transfer (fun t value => Bucket.add ping d t (b.Index + 1) value)
                  s b.Index b.Queue
                  (t.addBucket (b.Index + 1) { Index := b.Index + 1, Map := [], Queue := [] }) with
              | none => rw [htr] at h; simp at h
              | some t2 =>
                rw [htr] at h
                rw [Bucket.transfer_mono _
                  (fun t value => Bucket.add ping (d + 1) t (b.Index + 1) value) s b.Index
                  (fun t v r hr => ih t _ v r hr) _ _ _ htr]
                simp only at h ⊢
                by_cases h4 : CommonPrefixLength n.ID.val t2.Self.ID.val ≠ b.Index
                · rw [if_pos h4] at h ⊢
                  exact ih _ _ _ _ h
                · rw [if_neg h4] at h ⊢
                  exact ih _ _ _ _ h
          · rw [if_neg h2] at h ⊢
            exact h

theorem Bucket.add_fuel_le (ping : Node → Bool) (d e : Nat) (hde : d ≤ e) (t : BucketTree)
    (s : Int) (n : Node) (r : BucketTree) (h : Bucket.add ping d t s n = some r) :
    Bucket.add ping e t s n = some r := by
  induction e with
  | zero =>
    have : d = 0 := by omega
    subst this
    exact h
  | succ e ih =>
    by_cases hd : d = e + 1
    · subst hd; exact h
    · exact Bucket.add_fuel ping e t s n r (ih (by omega))

/-- Depth that a call of `add` uses: when `add` returns with the depth `d`, `MaxIndex` has
not decreased, the depth is more than the number of slots `MaxIndex` went up by, and one
more than this number is enough for the same result. -/
theorem Bucket.add_depth (ping : Node → Bool) :
    ∀ (d : Nat) (t : BucketTree) (slot : Int) (node : Node) (t' : BucketTree),
      t.Core → t.Placed [] → t.Tidy →
      slot = Min (CommonPrefixLength node.ID.val t.Self.ID.val) t.MaxIndex →
      Bucket.add ping d t slot node = some t' →
      t.MaxIndex ≤ t'.MaxIndex ∧ (t'.MaxIndex - t.MaxIndex).toNat + 1 ≤ d ∧
        Bucket.add ping ((t'.MaxIndex - t.MaxIndex).toNat + 1) t slot node = some t' := by
  intro d
  induction d with
  | zero =>
    intro t slot node t' _ _ _ _ h
    simp [Bucket.add] at h
  | succ d ih =>
    intro t slot node t' hc hp ht hslot hadd
    have hplaced := t.placed_of_slot node.ID slot hslot
    have hs0 : 0 ≤ slot ∧ slot ≤ t.MaxIndex := by
      have hlo := hc.lo
      have hrange := t.cpl_range node.ID
      rw [t.cpl_eq] at hslot
      unfold Min at hslot
      split at hslot <;> omega
    obtain ⟨b, hb⟩ := hc.mat slot hs0.1 hs0.2
    have hwf := hc.wf slot b hb
    have hidx := hc.index slot b hb
    by_cases hsplit : GoMap.get b.Map node.ID = none ∧ ¬ b.Map.length < K ∧
        (b.Index = t.MaxIndex ∧ b.Index < NodeIDLength * 8 - 1)
    · obtain ⟨hget, hfull, hfront, hdeep⟩ := hsplit
      have hsm : slot = t.MaxIndex := by rw [← hidx]; exact hfront
      subst hsm
      have hnr : ¬ (t.MaxIndex + 1 < 0 ∨ (t.Buckets.length : Int) ≤ t.MaxIndex + 1) := by
        have := hc.lo
        rw [hc.len]
        rw [hidx] at hdeep
        simp only [NodeIDLength] at hdeep ⊢
        omega
      rw [hidx] at hdeep
      have hstart := BucketTree.Splitting.start hc hp ht b hb hdeep
      cases d with
      | zero =>
        rw [Bucket.add] at hadd
        simp only [hb, hget, hfull, if_false, hidx, true_and, hdeep, if_true, hnr] at hadd
        split at hadd
        · simp at hadd
        · simp [Bucket.add] at hadd
      | succ d' =>
        obtain ⟨t2, htr, hc2, hp2, ht2, hmax2, hself2⟩ :=
          Bucket.transfer_all ping d' t.MaxIndex hc.lo b.Queue _ hstart
        have hself : t2.Self = t.Self := by rw [hself2]; rfl
        have hcplt : CommonPrefixLength node.ID.val t2.Self.ID.val
            = CommonPrefixLength node.ID.val t.Self.ID.val := by rw [hself]
        have hge : t.MaxIndex ≤ t.cpl node.ID := hplaced.2 rfl
        have hlo := hc.lo
        rw [Bucket.add] at hadd
        simp only [hb, hget, hfull, if_false, hidx, true_and, hdeep, if_true,
          hnr, htr, hcplt, t.cpl_eq] at hadd
        -- the re-run, in either bucket
        have hrerun : ∀ slot2 : Int,
            slot2 = Min (CommonPrefixLength node.ID.val t2.Self.ID.val) t2.MaxIndex →
            Bucket.add ping (d' + 1) t2 slot2 node = some t' →
            (if t.cpl node.ID ≠ t.MaxIndex then t.MaxIndex + 1 else t.MaxIndex) = slot2 →
            t.MaxIndex ≤ t'.MaxIndex ∧ (t'.MaxIndex - t.MaxIndex).toNat + 1 ≤ d' + 1 + 1 ∧
              Bucket.add ping ((t'.MaxIndex - t.MaxIndex).toNat + 1) t t.MaxIndex node
                = some t' := by
          intro slot2 hslot2 hadd2 hsel
          obtain ⟨r1, r2, r3⟩ := ih t2 slot2 node t' hc2 hp2 ht2 hslot2 hadd2
          rw [hmax2] at r1 r2 r3
          have hk : (t'.MaxIndex - t.MaxIndex).toNat
              = (t'.MaxIndex - (t.MaxIndex + 1)).toNat + 1 := by omega
          refine ⟨by omega, by omega, ?_⟩
          rw [hk]
          obtain ⟨t3, htr3, -⟩ := Bucket.transfer_all ping
            (t'.MaxIndex - (t.MaxIndex + 1)).toNat t.MaxIndex hc.lo b.Queue _ hstart
          have h32 := Bucket.transfer_mono _
            (fun tr v => Bucket.add ping (d' + 1) tr (t.MaxIndex + 1) v) t.MaxIndex t.MaxIndex
            (fun tr v r hr => Bucket.add_fuel_le ping
              ((t'.MaxIndex - (t.MaxIndex + 1)).toNat + 1) (d' + 1) r2 tr _ v r hr)
            _ _ _ htr3
          rw [htr] at h32
          simp only [Option.some.injEq] at h32
          subst h32
          rw [Bucket.add]
          simp only [hb, hget, hfull, if_false, hidx, true_and, hdeep, if_true,
            hnr, htr3, hcplt, t.cpl_eq]
          rw [← hsel] at r3
          split
          · rename_i hcond
            rw [if_pos hcond] at r3
            exact r3
          · rename_i hcond
            rw [if_neg hcond] at r3
            exact r3
        by_cases hne : t.cpl node.ID ≠ t.MaxIndex
        · simp only [hne, ne_eq, not_false_eq_true, if_true] at hadd
          exact hrerun (t.MaxIndex + 1)
            (by
              rw [hcplt, t.cpl_eq, hmax2]
              have := t.cpl_range node.ID
              unfold Min; split <;> omega)
            hadd (by rw [if_pos hne])
        · simp only [hne, if_false] at hadd
          exact hrerun t.MaxIndex
            (by
              rw [hcplt, t.cpl_eq, hmax2]
              unfold Min; split <;> omega)
            hadd (by rw [if_neg hne])
    · have hns : GoMap.get b.Map node.ID ≠ none ∨ b.Map.length < K ∨
          ¬ (b.Index = t.MaxIndex ∧ b.Index < NodeIDLength * 8 - 1) := by
        by_cases h1 : GoMap.get b.Map node.ID = none
        · by_cases h2 : b.Map.length < K
          · exact Or.inr (Or.inl h2)
          · exact Or.inr (Or.inr fun h3 => hsplit ⟨h1, h2, h3⟩)
        · exact Or.inl h1
      have hls := Bucket.add_localStep ping (d + 1) t t' slot node b hb hwf hns hadd
      obtain ⟨t'', b', hadd1, -⟩ := Bucket.add_local_tidy ping 0 t slot node b hb hwf
        hidx (ht slot b hb) hns
      have h1 := Bucket.add_fuel_le ping (0 + 1) (d + 1) (by omega) t slot node t'' hadd1
      rw [hadd] at h1
      simp only [Option.some.injEq] at h1
      subst h1
      rw [hls.max]
      refine ⟨le_refl _, by simp, ?_⟩
      simpa using hadd1

/-- C24. For every reachable table, every peer and every answer of the probes, `add`
returns: `Add` returns a table `t'`, in which `MaxIndex` has not decreased and is at most
`NodeIDLength*8 - 1`, and `add` returns this table with any depth of recursion above
`t'.MaxIndex - t.MaxIndex`, the number of splits, and with no smaller depth, so that every
call of `add` inside `add` after the first comes after a split of its own. When the first
call splits the bucket, the transfer loop returns even if the calls of `add` in it may not
call `add` themselves, and the new bucket holds at most `K` peers afterwards; `MaxIndex` is
one more then; the call that follows is for the new bucket of the slot `MaxIndex + 1`, or it
is for the old bucket, and then it returns without a further call of `add` and leaves
`MaxIndex` as it is. -/
theorem add_terminates (t : BucketTree) (h : Reachable t) (ping : Node → Bool) (id : NodeID)
    (addr : UDPAddr) :
    ∃ t', BucketTree.Add ping t id addr = some t' ∧
      t.MaxIndex ≤ t'.MaxIndex ∧ t'.MaxIndex ≤ NodeIDLength * 8 - 1 ∧
      (∀ d : Nat,
        Bucket.add ping d t (Min (CommonPrefixLength id.val t.Self.ID.val) t.MaxIndex)
            ⟨id, addr⟩
          = if (t'.MaxIndex - t.MaxIndex).toNat + 1 ≤ d then some t' else none) ∧
      (∀ b : Bucket,
        t.bucket (Min (CommonPrefixLength id.val t.Self.ID.val) t.MaxIndex) = some b →
        GoMap.get b.Map id = none → ¬ b.Map.length < K →
        b.Index = t.MaxIndex ∧ b.Index < NodeIDLength * 8 - 1 →
        ∃ t2 nb,
          Bucket.transfer (fun tr v => Bucket.add ping 1 tr (t.MaxIndex + 1) v)
            t.MaxIndex t.MaxIndex b.Queue
            (t.addBucket (t.MaxIndex + 1) { Index := t.MaxIndex + 1, Map := [], Queue := [] })
              = some t2 ∧
          t2.MaxIndex = t.MaxIndex + 1 ∧
          t2.bucket (t.MaxIndex + 1) = some nb ∧ nb.Map.length ≤ K ∧ nb.Queue.length ≤ K ∧
          (CommonPrefixLength id.val t.Self.ID.val ≠ t.MaxIndex →
            ∀ d : Nat, Bucket.add ping (d + 2) t t.MaxIndex ⟨id, addr⟩
              = Bucket.add ping (d + 1) t2 (t.MaxIndex + 1) ⟨id, addr⟩) ∧
          (CommonPrefixLength id.val t.Self.ID.val = t.MaxIndex →
            Bucket.add ping 1 t2 t.MaxIndex ⟨id, addr⟩ = some t' ∧
            t'.MaxIndex = t.MaxIndex + 1)) := by
  obtain ⟨hc, hp, ht⟩ := h.inv
  obtain ⟨t', hadd, hc', -, -, -, hle⟩ := BucketTree.Add_inv ping t id addr hc hp ht
  have hadd' : Bucket.add ping addDepth t
      (Min (CommonPrefixLength id.val t.Self.ID.val) t.MaxIndex) ⟨id, addr⟩ = some t' := hadd
  obtain ⟨-, hd1, hd2⟩ := Bucket.add_depth ping addDepth t _ ⟨id, addr⟩ t' hc hp ht rfl hadd'
  have hall : ∀ d : Nat,
      Bucket.add ping d t (Min (CommonPrefixLength id.val t.Self.ID.val) t.MaxIndex)
          ⟨id, addr⟩
        = if (t'.MaxIndex - t.MaxIndex).toNat + 1 ≤ d then some t' else none := by
    intro d
    by_cases hd : (t'.MaxIndex - t.MaxIndex).toNat + 1 ≤ d
    · rw [if_pos hd]
      exact Bucket.add_fuel_le ping _ d hd t _ _ t' hd2
    · rw [if_neg hd]
      cases hres : Bucket.add ping d t
          (Min (CommonPrefixLength id.val t.Self.ID.val) t.MaxIndex) ⟨id, addr⟩ with
      | none => rfl
      | some r =>
        exfalso
        have h1 := Bucket.add_fuel_le ping d (d + addDepth) (by omega) t _ _ r hres
        have h2 := Bucket.add_fuel_le ping addDepth (d + addDepth) (by omega) t _ _ t' hadd'
        rw [h1] at h2
        simp only [Option.some.injEq] at h2
        subst h2
        exact hd (Bucket.add_depth ping d t _ ⟨id, addr⟩ r hc hp ht rfl hres).2.1
  have hmax' := hc'.hi
  refine ⟨t', hadd, hle, by omega, hall, ?_⟩
  intro b hb hget hfull hfront
  have hidx := hc.index _ b hb
  have hslot : Min (CommonPrefixLength id.val t.Self.ID.val) t.MaxIndex = t.MaxIndex := by
    rw [← hidx]; exact hfront.1
  rw [hslot] at hb hall hadd'
  have hdeep : t.MaxIndex < NodeIDLength * 8 - 1 := by
    rw [← hfront.1]; exact hfront.2
  have hwf := hc.wf _ b hb
  have hlo := hc.lo
  have hnr : ¬ (t.MaxIndex + 1 < 0 ∨ (t.Buckets.length : Int) ≤ t.MaxIndex + 1) := by
    rw [hc.len]
    simp only [NodeIDLength] at hdeep ⊢
    omega
  have hstart := BucketTree.Splitting.start hc hp ht b hb hdeep
  obtain ⟨t2, htr, hc2, hp2, ht2, hmax2, hself2⟩ :=
    Bucket.transfer_all ping 0 t.MaxIndex hc.lo b.Queue _ hstart
  have hself : t2.Self = t.Self := by rw [hself2]; rfl
  have hcplt : CommonPrefixLength id.val t2.Self.ID.val
      = CommonPrefixLength id.val t.Self.ID.val := by rw [hself]
  obtain ⟨nb, hnb⟩ := hc2.mat (t.MaxIndex + 1) (by omega) (by omega)
  have hnb0 : (t.addBucket (t.MaxIndex + 1)
      { Index := t.MaxIndex + 1, Map := [], Queue := [] }).bucket (t.MaxIndex + 1)
        = some { Index := t.MaxIndex + 1, Map := [], Queue := [] } := by
    rw [BucketTree.addBucket_bucket t hc hdeep, if_pos rfl]
  have hcount := Bucket.transfer_count ping 0 t.MaxIndex hc.lo b.Queue _ hstart t2 htr
    _ nb hnb0 hnb
  simp only [List.length_nil, zero_add] at hcount
  have hsize := hwf.size
  -- the first call with any depth above one
  have hunfold : ∀ d : Nat, Bucket.add ping (d + 2) t t.MaxIndex ⟨id, addr⟩
      = if CommonPrefixLength id.val t.Self.ID.val ≠ t.MaxIndex
        then Bucket.add ping (d + 1) t2 (t.MaxIndex + 1) ⟨id, addr⟩
        else Bucket.add ping (d + 1) t2 t.MaxIndex ⟨id, addr⟩ := by
    intro d
    have htr' := Bucket.transfer_mono _
      (fun tr v => Bucket.add ping (d + 1) tr (t.MaxIndex + 1) v) t.MaxIndex t.MaxIndex
      (fun tr v r hr => Bucket.add_fuel_le ping (0 + 1) (d + 1) (by omega) tr _ v r hr)
      _ _ _ htr
    rw [Bucket.add]
    simp only [hb, hget, hfull, if_false, hidx, hslot, true_and, hdeep, if_true, hnr, htr',
      hcplt]
  refine ⟨t2, nb, htr, hmax2, hnb, by omega, (hc2.wf _ nb hnb).size, ?_, ?_⟩
  · intro hne d
    rw [hunfold d, if_pos hne]
  · intro heq
    have h161 : Bucket.add ping (NodeIDLength * 8 - 1 + 1) t2 t.MaxIndex ⟨id, addr⟩
        = some t' := by
      have := hunfold (NodeIDLength * 8 - 1)
      rw [if_neg (by simpa using heq)] at this
      rw [← this]
      exact hadd'
    obtain ⟨b2, hb2⟩ := hc2.mat t.MaxIndex hlo (by omega)
    have hls := Bucket.add_localStep ping _ t2 t' t.MaxIndex ⟨id, addr⟩ b2 hb2
      (hc2.wf _ b2 hb2)
      (Or.inr (Or.inr (by
        rw [hc2.index _ b2 hb2]
        intro hh
        omega))) h161
    have hdep := Bucket.add_depth ping _ t2 t.MaxIndex ⟨id, addr⟩ t' hc2 hp2 ht2
      (by
        rw [hcplt, heq, hmax2]
        unfold Min; split <;> omega) h161
    rw [hls.max] at hdep
    refine ⟨by simpa using hdep.2.2, by rw [hls.max, hmax2]⟩

set_option maxRecDepth 1000000 in
/-- Witness of `add_terminates`: `Add` of the peer `28` to `tableC` returns a table with
`MaxIndex` 3, after three splits; `add` returns with the depth 4 and does not return
with the depth 3. -/
theorem add_terminates_witness :
    Reachable tableC ∧
    (∃ t', BucketTree.Add (fun _ => false) tableC (sampleID 0x28) (sampleAddr 0x28) = some t' ∧
      tableC.MaxIndex ≤ t'.MaxIndex ∧ t'.MaxIndex ≤ NodeIDLength * 8 - 1 ∧
      Bucket.add (fun _ => false) 161 tableC
          (Min (CommonPrefixLength (sampleID 0x28).val tableC.Self.ID.val) tableC.MaxIndex)
          ⟨sampleID 0x28, sampleAddr 0x28⟩
        = if (t'.MaxIndex - tableC.MaxIndex).toNat + 1 ≤ 161 then some t' else none) ∧
    (BucketTree.Add (fun _ => false) tableC (sampleID 0x28) (sampleAddr 0x28)).map
      (fun t => t.MaxIndex - tableC.MaxIndex) = some 3 ∧
    (Bucket.add (fun _ => false) 4 tableC 0 ⟨sampleID 0x28, sampleAddr 0x28⟩).isSome = true ∧
    (Bucket.add (fun _ => false) 3 tableC 0 ⟨sampleID 0x28, sampleAddr 0x28⟩).isSome
      = false :=
  ⟨tableC_reachable,
    (let ⟨t', h1, h2, h3, h4, _⟩ :=
      add_terminates tableC tableC_reachable (fun _ => false) (sampleID 0x28)
        (sampleAddr 0x28)
     ⟨t', h1, h2, h3, h4 161⟩),
    by decide, by decide, by decide⟩

end Rumor
